import Mathlib

/-!
# DCF77 receiver and timestamp decoder

A shallow embedding of `DCF77/DCF77.h` and `DCF77/DCF77.cpp`.

* `uint8_t`, `uint16_t` and `uint32_t` values are natural numbers; every
  operation that can leave the range of its type is reduced modulo `2^8`,
  `2^16` or `2^32` explicitly.
* A byte array (`uint8_t x[n]`) is a `List Nat` of length `n`; `rd` reads an
  element and `wr` assigns one.
* Bit `i` of a byte array is bit `i mod 8` of byte `i div 8`, and a bit-field
  of the overlay struct `DCF77Timestruct` is read least-significant bit first
  at the bit offset written next to it in the source.
* The callback is an observable event: `processSample` returns the new
  receiver state together with the timestamp handed to the callback, if any.
-/

namespace DCF77

/-! ## Byte arrays -/

/-- The element `bytes[i]` of a byte array. -/
def rd (bytes : List Nat) (i : Nat) : Nat := bytes.getD i 0

/-- The byte array after the assignment `bytes[i] = v`. -/
def wr (bytes : List Nat) (i : Nat) (v : Nat) : List Nat := bytes.set i v

/-- Bit `i` of a byte array: bit `i mod 8` of byte `i div 8`. -/
def bitAt (bytes : List Nat) (i : Nat) : Bool := (rd bytes (i / 8)).testBit (i % 8)

/-- The bit-field of `width` bits that starts at bit `offset` of a byte array,
least-significant bit first. -/
def bitfield (bytes : List Nat) : Nat → Nat → Nat
  | _, 0 => 0
  | offset, width + 1 => (bitAt bytes offset).toNat + 2 * bitfield bytes (offset + 1) width

/-- The number of set bits among bits `lo .. hi` (both included) of a byte array. -/
def countBits (bytes : List Nat) (lo hi : Nat) : Nat :=
  ((List.range (hi + 1 - lo)).filter (fun k => bitAt bytes (lo + k))).length

/-! ## Bit-counting loops -/

/-- The loop `for (n = 0; x != 0; ++n) x &= (x - 1);` started with counter `n`;
the first argument bounds the number of iterations and is passed as `x`
itself, which every iteration strictly decreases. -/
def countLoop : Nat → Nat → Nat → Nat
  | 0, _, n => n
  | fuel + 1, x, n => if x ≠ 0 then countLoop fuel (x &&& (x - 1)) (n + 1) else n

/-- The loop `for (p = false; x != 0; p = !p) x &= (x - 1);` started with flag
`p`; the first argument bounds the number of iterations as in `countLoop`. -/
def parityLoop : Nat → Nat → Bool → Bool
  | 0, _, p => p
  | fuel + 1, x, p => if x ≠ 0 then parityLoop fuel (x &&& (x - 1)) (!p) else p

/-- The counter left by the bit-counting loop on `x`. -/
def bitCount (x : Nat) : Nat := countLoop x x 0

/-- The flag left by the parity loop on `x`. -/
def incorrectParity (x : Nat) : Bool := parityLoop x x false

/-! ## DCF77Timestamp -/

/-- The enumeration `DCF77Timestamp::Status`. -/
inductive Status where
  | INCOMPLETE
  | VALID
  | VALID_CONSUMED
  | ERROR_START_MINUTE
  | ERROR_DST
  | ERROR_START_TIME
  | ERROR_MINUTE_01_RANGE
  | ERROR_MINUTE_10_RANGE
  | ERROR_MINUTE_PARITY
  | ERROR_HOUR_01_RANGE
  | ERROR_HOUR_10_RANGE
  | ERROR_HOUR_RANGE
  | ERROR_HOUR_PARITY
  | ERROR_DAY_01_RANGE
  | ERROR_DAY_RANGE
  | ERROR_WEEKDAY_RANGE
  | ERROR_MONTH_01_RANGE
  | ERROR_MONTH_RANGE
  | ERROR_YEAR_01_RANGE
  | ERROR_YEAR_10_RANGE
  | ERROR_DATE_PARITY
  deriving DecidableEq, Repr

/-- The member `time` of `DCF77Timestamp`. -/
structure TimeRecord where
  minute : Nat
  hour : Nat
  dst : Bool
  deriving DecidableEq, Repr

/-- The member `date` of `DCF77Timestamp`. -/
structure DateRecord where
  day : Nat
  weekday : Nat
  month : Nat
  year : Nat
  deriving DecidableEq, Repr

/-- The class `DCF77Timestamp`. -/
structure DCF77Timestamp where
  status : Status
  time : TimeRecord
  date : DateRecord
  deriving DecidableEq, Repr

/-- The union `DCF77Timestruct`: both overlaid bit-field structs, each field
with the value found at its bit offset. -/
structure DCF77Timestruct where
  startMinute : Nat
  weather : Nat
  call : Nat
  changeoverZone : Nat
  zone : Nat
  leap : Nat
  startTime : Nat
  minute01 : Nat
  minute10 : Nat
  parityMinute : Nat
  hour01 : Nat
  hour10 : Nat
  parityHour : Nat
  day01 : Nat
  day10 : Nat
  weekday : Nat
  month01 : Nat
  month10 : Nat
  year01 : Nat
  year10 : Nat
  parityDate : Nat
  bitsParityMinute : Nat
  bitsParityHour : Nat
  bitsParityDate1 : Nat
  bitsParityDate2 : Nat
  bitsParityDate3 : Nat
  bitsParityDate4 : Nat
  deriving DecidableEq, Repr

/-- The cast `reinterpret_cast<const DCF77Timestruct&>(*timebits)`. -/
def DCF77Timestruct.ofBytes (timebits : List Nat) : DCF77Timestruct where
  startMinute := bitfield timebits 0 1
  weather := bitfield timebits 1 14
  call := bitfield timebits 15 1
  changeoverZone := bitfield timebits 16 1
  zone := bitfield timebits 17 2
  leap := bitfield timebits 19 1
  startTime := bitfield timebits 20 1
  minute01 := bitfield timebits 21 4
  minute10 := bitfield timebits 25 3
  parityMinute := bitfield timebits 28 1
  hour01 := bitfield timebits 29 4
  hour10 := bitfield timebits 33 2
  parityHour := bitfield timebits 35 1
  day01 := bitfield timebits 36 4
  day10 := bitfield timebits 40 2
  weekday := bitfield timebits 42 3
  month01 := bitfield timebits 45 4
  month10 := bitfield timebits 49 1
  year01 := bitfield timebits 50 4
  year10 := bitfield timebits 54 4
  parityDate := bitfield timebits 58 1
  bitsParityMinute := bitfield timebits 21 8
  bitsParityHour := bitfield timebits 29 7
  bitsParityDate1 := bitfield timebits 36 4
  bitsParityDate2 := bitfield timebits 40 8
  bitsParityDate3 := bitfield timebits 48 8
  bitsParityDate4 := bitfield timebits 56 3

open Status in
/-- The method `DCF77Timestamp::decode`: the timestamp object after the call.
The value the call returns is the `status` of the result, since every `return`
of the source is `return (this->status = ...)`. -/
def DCF77Timestamp.decode (self : DCF77Timestamp) (timebits : List Nat) : DCF77Timestamp :=
  let timestruct := DCF77Timestruct.ofBytes timebits
  let self := { self with status := INCOMPLETE }
  if timestruct.startMinute ≠ 0 then { self with status := ERROR_START_MINUTE } else
  if timestruct.zone ≠ 0b01 ∧ timestruct.zone ≠ 0b10 then { self with status := ERROR_DST } else
  let self := { self with time.dst := if timestruct.zone = 0b01 then true else false }
  if timestruct.startTime ≠ 1 then { self with status := ERROR_START_TIME } else
  if timestruct.minute01 > 9 then { self with status := ERROR_MINUTE_01_RANGE } else
  if timestruct.minute10 > 5 then { self with status := ERROR_MINUTE_10_RANGE } else
  let self := { self with time.minute := (timestruct.minute10 * 10 + timestruct.minute01) % 256 }
  if incorrectParity timestruct.bitsParityMinute then
    { self with status := ERROR_MINUTE_PARITY } else
  if timestruct.hour01 > 9 then { self with status := ERROR_HOUR_01_RANGE } else
  if timestruct.hour10 > 2 then { self with status := ERROR_HOUR_10_RANGE } else
  let self := { self with time.hour := (timestruct.hour10 * 10 + timestruct.hour01) % 256 }
  if self.time.hour > 23 then { self with status := ERROR_HOUR_RANGE } else
  if incorrectParity timestruct.bitsParityHour then
    { self with status := ERROR_HOUR_PARITY } else
  if timestruct.day01 > 9 then { self with status := ERROR_DAY_01_RANGE } else
  let self := { self with date.day := (timestruct.day10 * 10 + timestruct.day01) % 256 }
  if self.date.day = 0 ∨ self.date.day > 31 then { self with status := ERROR_DAY_RANGE } else
  let self := { self with date.weekday := timestruct.weekday }
  if self.date.weekday = 0 then { self with status := ERROR_WEEKDAY_RANGE } else
  if timestruct.month01 > 9 then { self with status := ERROR_MONTH_01_RANGE } else
  let self := { self with date.month := (timestruct.month10 * 10 + timestruct.month01) % 256 }
  if self.date.month = 0 ∨ self.date.month > 12 then
    { self with status := ERROR_MONTH_RANGE } else
  if timestruct.year01 > 9 then { self with status := ERROR_YEAR_01_RANGE } else
  if timestruct.year10 > 9 then { self with status := ERROR_YEAR_10_RANGE } else
  let self := { self with date.year := (timestruct.year10 * 10 + timestruct.year01) % 256 }
  let bitsParityDate :=
    timestruct.bitsParityDate1
      ^^^ timestruct.bitsParityDate2
      ^^^ timestruct.bitsParityDate3
      ^^^ timestruct.bitsParityDate4
  if incorrectParity bitsParityDate then { self with status := ERROR_DATE_PARITY } else
  { self with status := VALID }

/-- The constructor `DCF77Timestamp(uint8_t const timebits[8])`: it initialises
no member and calls `decode`; `uninit` is the indeterminate content of the
object before the call. -/
def DCF77Timestamp.ofTimebits (uninit : DCF77Timestamp) (timebits : List Nat) : DCF77Timestamp :=
  uninit.decode timebits

/-! ## DCF77Receiver::Bitptr -/

/-- The class `DCF77Receiver::Bitptr`: a byte index and a one-bit mask, both
`uint8_t`. -/
structure Bitptr where
  index : Nat
  bitmask : Nat
  deriving DecidableEq, Repr

/-- The constructor `Bitptr(uint16_t const position)`, which `operator=` with a
position repeats. -/
def Bitptr.ofPosition (position : Nat) : Bitptr where
  index := (position >>> 3) % 256
  bitmask := (1 <<< (position &&& 7)) % 256

/-- The prefix increment `Bitptr::operator++`. -/
def Bitptr.inc (self : Bitptr) : Bitptr :=
  let self := { self with bitmask := (self.bitmask <<< 1) % 256 }
  if self.bitmask = 0 then { self with index := (self.index + 1) % 256, bitmask := 1 } else self

/-- The comparison `Bitptr::operator==(uint16_t const position)`. -/
def Bitptr.eqPosition (self : Bitptr) (position : Nat) : Bool :=
  self.index == (position >>> 3) && self.bitmask == (1 <<< (position &&& 7))

/-- The comparison `Bitptr::operator!=(uint16_t const position)`. -/
def Bitptr.nePosition (self : Bitptr) (position : Nat) : Bool :=
  self.index != (position >>> 3) || self.bitmask != (1 <<< (position &&& 7))

/-- The method `Bitptr::get`. -/
def Bitptr.get (self : Bitptr) (bytes : List Nat) : Bool :=
  (rd bytes self.index &&& self.bitmask) != 0

/-- The method `Bitptr::set`: the byte array after the call. -/
def Bitptr.set (self : Bitptr) (bytes : List Nat) (bit : Bool) : List Nat :=
  if bit then wr bytes self.index ((rd bytes self.index ||| self.bitmask) % 256)
  else wr bytes self.index ((rd bytes self.index &&& (255 - self.bitmask)) % 256)

/-! ## DCF77Receiver -/

/-- The constant `nSamplePerSecond`. -/
def nSamplePerSecond : Nat := 32

/-- The constant `nSecondToSmooth`. -/
def nSecondToSmooth : Nat := 15

/-- The constant `nSampleInWindow`. -/
def nSampleInWindow : Nat := 10

/-- The constant `nSampleThresholdZero`. -/
def nSampleThresholdZero : Nat := 1

/-- The constant `nSampleThresholdMinute`. -/
def nSampleThresholdMinute : Nat := 5

/-- The data members of the class `DCF77Receiver`; `callbackReceived` records
whether the callback pointer is non-null. -/
structure DCF77Receiver where
  samples : List Nat
  bitptrSamples : Bitptr
  sumsSamples : List Nat
  indexSumSamples : Nat
  bitmaskSumSamples : Nat
  windowSmooth : Nat
  windowPulse : Nat
  timeEdge : Nat
  timebits : List Nat
  bitptrTimebits : Bitptr
  changeover : Bool
  callbackReceived : Bool
  deriving DecidableEq, Repr

/-- The constructor `DCF77Receiver(callbackReceived)` run on the storage
`storage`: the three arrays are not in its initialiser list and keep what the
storage holds. -/
def DCF77Receiver.construct (storage : DCF77Receiver) (callbackReceived : Bool) : DCF77Receiver :=
  { storage with
    bitptrSamples := Bitptr.ofPosition 0
    indexSumSamples := 0
    bitmaskSumSamples := 0b00001111
    windowSmooth := 0b0000000000
    windowPulse := 0b0000000000
    timeEdge := 0
    bitptrTimebits := Bitptr.ofPosition 0
    changeover := false
    callbackReceived := callbackReceived }

/-- Storage with every byte zero, as for an object of static storage duration
before its constructor runs. -/
def zeroStorage : DCF77Receiver where
  samples := List.replicate (nSecondToSmooth * nSamplePerSecond / (8 / 1)) 0
  bitptrSamples := ⟨0, 0⟩
  sumsSamples := List.replicate (nSamplePerSecond / (8 / 4)) 0
  indexSumSamples := 0
  bitmaskSumSamples := 0
  windowSmooth := 0
  windowPulse := 0
  timeEdge := 0
  timebits := List.replicate 8 0
  bitptrTimebits := ⟨0, 0⟩
  changeover := false
  callbackReceived := false

/-- The zero-initialised receiver. -/
def DCF77Receiver.initial (callbackReceived : Bool) : DCF77Receiver :=
  zeroStorage.construct callbackReceived

/-- Lines 42-59 of `processSample`: the receiver after the phase sum and the
ring buffer have taken the new sample. -/
def DCF77Receiver.updateSums (self : DCF77Receiver) (sample : Bool) : DCF77Receiver :=
  let samplePrev := self.bitptrSamples.get self.samples
  if samplePrev = sample then self
  else
    let sum := rd self.sumsSamples self.indexSumSamples
    let self :=
      if samplePrev then
        { self with sumsSamples := wr self.sumsSamples self.indexSumSamples
                                     ((sum + 256 - (0b00010001 &&& self.bitmaskSumSamples)) % 256) }
      else
        { self with sumsSamples := wr self.sumsSamples self.indexSumSamples
                                     ((sum + (0b00010001 &&& self.bitmaskSumSamples)) % 256) }
    { self with samples := self.bitptrSamples.set self.samples sample }

/-- The local `sumSamples` of `processSample` (lines 47 and 55): in both
branches the addressed byte of `sumsSamples`, masked, as it is after the
update. -/
def DCF77Receiver.sumSamples (self : DCF77Receiver) (sample : Bool) : Nat :=
  rd (self.updateSums sample).sumsSamples self.indexSumSamples &&& self.bitmaskSumSamples

/-- The local `sampleSmooth` of `processSample` (line 97). -/
def DCF77Receiver.sampleSmooth (self : DCF77Receiver) (sample : Bool) : Bool :=
  (self.sumSamples sample &&& 0b10001000) != 0

/-- Lines 61-74 of `processSample`: the ring cursor and the nibble cursor move
on by one sample. -/
def DCF77Receiver.advance (self : DCF77Receiver) : DCF77Receiver :=
  let self := { self with bitptrSamples := self.bitptrSamples.inc }
  let self :=
    if self.bitptrSamples.eqPosition (nSamplePerSecond * nSecondToSmooth) then
      { self with bitptrSamples := Bitptr.ofPosition 0 }
    else self
  let self := { self with bitmaskSumSamples := 255 - self.bitmaskSumSamples % 256 }
  if self.bitmaskSumSamples = 0b00001111 then
    let self := { self with indexSumSamples := (self.indexSumSamples + 1) % 256 }
    if self.indexSumSamples = 16 then { self with indexSumSamples := 0 } else self
  else self

/-- Lines 24-100 of `processSample`: the receiver after the smoothing part. -/
def DCF77Receiver.smooth (self : DCF77Receiver) (sample : Bool) : DCF77Receiver :=
  let self := { self with windowPulse := (self.windowPulse <<< 1) % 65536 }
  let self := { self with windowPulse := self.windowPulse ||| (if sample then 1 else 0) }
  let sampleSmooth := self.sampleSmooth sample
  let self := (self.updateSums sample).advance
  let self := { self with windowSmooth := (self.windowSmooth <<< 1) % 65536 }
  { self with windowSmooth := self.windowSmooth ||| (if sampleSmooth then 1 else 0) }

/-- The condition of line 103: the smoothed window shows the edge pattern. -/
def DCF77Receiver.edgeRecognised (self : DCF77Receiver) : Bool :=
  (self.windowSmooth &&& 0b1111110000) == 0b1110000000

/-- The local `timeEdgeDelta` of `processSample` (line 104): the unsigned 32-bit
difference `time - this->timeEdge`. -/
def DCF77Receiver.timeEdgeDelta (self : DCF77Receiver) (time : Nat) : Nat :=
  (time % 2 ^ 32 + 2 ^ 32 - self.timeEdge % 2 ^ 32) % 2 ^ 32

/-- The local `sumSamplesPulse` of `processSample` (lines 143-147): the loop
count over the low byte of `windowPulse` masked to its seven low bits. -/
def DCF77Receiver.sumSamplesPulse (self : DCF77Receiver) : Nat :=
  bitCount ((self.windowPulse % 256) &&& 0b01111111)

/-- The local `sumSamplesTrail` of `processSample` (lines 174-178): the loop
count over the low byte of `windowPulse` masked to its four low bits. -/
def DCF77Receiver.sumSamplesTrail (self : DCF77Receiver) : Nat :=
  bitCount ((self.windowPulse % 256) &&& 0b00001111)

/-- Lines 102-187 of `processSample`: edge detection and pulse classification.
The result is the receiver after the call and the timestamp passed to the
callback, if the callback is invoked; `uninit` is the indeterminate content of
the local `timestamp` before its constructor runs. -/
def DCF77Receiver.detect (self : DCF77Receiver) (time : Nat) (uninit : DCF77Timestamp) :
    DCF77Receiver × Option DCF77Timestamp :=
  if self.edgeRecognised then
    let timeEdgeDelta := self.timeEdgeDelta time
    if timeEdgeDelta < 500 then (self, none)
    else
      let self :=
        if timeEdgeDelta > 1500 then { self with bitptrTimebits := Bitptr.ofPosition 0 }
        else self
      let self := { self with timeEdge := time }
      if self.sumSamplesPulse > nSampleThresholdMinute then
        ({ self with changeover := true }, none)
      else
        let delivered :=
          if self.changeover ∧ self.bitptrTimebits.eqPosition 59 ∧ self.callbackReceived then
            some (DCF77Timestamp.ofTimebits uninit self.timebits)
          else none
        let self :=
          if self.changeover then
            { self with changeover := false, bitptrTimebits := Bitptr.ofPosition 0 }
          else self
        if self.bitptrTimebits.nePosition 60 then
          let timebit := decide (self.sumSamplesTrail ≤ nSampleThresholdZero)
          let self := { self with timebits := self.bitptrTimebits.set self.timebits timebit }
          ({ self with bitptrTimebits := self.bitptrTimebits.inc }, delivered)
        else (self, delivered)
  else (self, none)

/-- The method `DCF77Receiver::processSample`. -/
def DCF77Receiver.processSample (self : DCF77Receiver) (sample : Bool) (time : Nat)
    (uninit : DCF77Timestamp) : DCF77Receiver × Option DCF77Timestamp :=
  (self.smooth sample).detect time uninit

/-! ## Specification-side definitions for the decoder -/

/-- The number of set bits among the `n` low bits of a number. -/
def popCount (x n : Nat) : Nat := ((List.range n).filter (fun k => x.testBit k)).length

/-- The exclusive or of the bits `lo, lo + 1, .., lo + n - 1` of a byte array. -/
def xorBits (bytes : List Nat) (lo : Nat) : Nat → Bool
  | 0 => false
  | n + 1 => xor (xorBits bytes lo n) (bitAt bytes (lo + n))

/-- The exclusive or of the `n` low bits of a number. -/
def xorLow (x : Nat) : Nat → Bool
  | 0 => false
  | n + 1 => xor (xorLow x n) (x.testBit n)

open Status in
/-- The checks of the decoder in the order of the status list of the
specification (the combined hour range before the hour parity): for each one
whether it fails on the frame, and the status it then yields. -/
def checks (f : List Nat) : List (Bool × Status) :=
  [ (bitAt f 0, ERROR_START_MINUTE),
    (bitAt f 17 == bitAt f 18, ERROR_DST),
    (!bitAt f 20, ERROR_START_TIME),
    (decide (bitfield f 21 4 > 9), ERROR_MINUTE_01_RANGE),
    (decide (bitfield f 25 3 > 5), ERROR_MINUTE_10_RANGE),
    (decide (countBits f 21 28 % 2 = 1), ERROR_MINUTE_PARITY),
    (decide (bitfield f 29 4 > 9), ERROR_HOUR_01_RANGE),
    (decide (bitfield f 33 2 > 2), ERROR_HOUR_10_RANGE),
    (decide (10 * bitfield f 33 2 + bitfield f 29 4 > 23), ERROR_HOUR_RANGE),
    (decide (countBits f 29 35 % 2 = 1), ERROR_HOUR_PARITY),
    (decide (bitfield f 36 4 > 9), ERROR_DAY_01_RANGE),
    (decide (10 * bitfield f 40 2 + bitfield f 36 4 = 0
      ∨ 10 * bitfield f 40 2 + bitfield f 36 4 > 31), ERROR_DAY_RANGE),
    (decide (bitfield f 42 3 = 0), ERROR_WEEKDAY_RANGE),
    (decide (bitfield f 45 4 > 9), ERROR_MONTH_01_RANGE),
    (decide (10 * bitfield f 49 1 + bitfield f 45 4 = 0
      ∨ 10 * bitfield f 49 1 + bitfield f 45 4 > 12), ERROR_MONTH_RANGE),
    (decide (bitfield f 50 4 > 9), ERROR_YEAR_01_RANGE),
    (decide (bitfield f 54 4 > 9), ERROR_YEAR_10_RANGE),
    (decide (countBits f 36 58 % 2 = 1), ERROR_DATE_PARITY) ]

/-- The status of the first failing check, `VALID` when none fails. -/
def firstFailing : List (Bool × Status) → Status
  | [] => Status.VALID
  | (failing, status) :: rest => if failing then status else firstFailing rest

/-- The status the specification gives a frame. -/
def firstFailure (f : List Nat) : Status := firstFailing (checks f)

/-- A frame that decodes to `VALID`: 23:37 CEST on Saturday 31.10.26. -/
def sampleFrame : List Nat := [0, 0, 242, 118, 28, 27, 154, 4]

/-! ## Auxiliary definitions for the detector -/

/-- The cursor a real-pulse edge writes at: reset by a missed edge or by a
pending changeover, else as it was. -/
def cursorAfterReset (s : DCF77Receiver) (time : Nat) : Bitptr :=
  if s.timeEdgeDelta time > 1500 ∨ s.changeover = true then Bitptr.ofPosition 0
  else s.bitptrTimebits

/-- A timestamp object with status `INCOMPLETE` and all fields zero. -/
def blankTimestamp : DCF77Timestamp := ⟨Status.INCOMPLETE, ⟨0, 0, false⟩, ⟨0, 0, 0, 0⟩⟩

/-- A receiver one sample before an edge is recognised: the smoothed window
ends in `111000000`, the raw window, changeover flag and cursor are as given. -/
def stateBeforeEdge (windowPulse : Nat) (changeover : Bool) (cursor : Nat) : DCF77Receiver :=
  { DCF77Receiver.initial true with
    windowSmooth := 0b0111000000
    windowPulse := windowPulse
    changeover := changeover
    bitptrTimebits := Bitptr.ofPosition cursor }

/-! ## Auxiliary definitions for the smoother -/

/-- Nibble `p` of a byte array: the low nibble of byte `p / 2` for even `p`, the
high nibble for odd `p`. -/
def nibbleAt (bytes : List Nat) (p : Nat) : Nat :=
  if p % 2 = 0 then rd bytes (p / 2) % 16 else rd bytes (p / 2) / 16 % 16

/-- The 4-bit sum stored for phase `p`. -/
def DCF77Receiver.phaseSum (self : DCF77Receiver) (p : Nat) : Nat :=
  nibbleAt self.sumsSamples p

/-- The number of set bits among the ring-buffer positions `q < 480` with
`q mod 32 = p`. -/
def ringCount (samples : List Nat) (p : Nat) : Nat :=
  Nat.count (fun q => q % 32 = p ∧ bitAt samples q = true) 480

/-- The states a receiver can be in: the zero-initialised one, and those
`processSample` leads to from them. -/
inductive Reachable : DCF77Receiver → Prop
  | initial (callbackReceived : Bool) : Reachable (DCF77Receiver.initial callbackReceived)
  | step {s : DCF77Receiver} (h : Reachable s) (sample : Bool) (time : Nat)
      (uninit : DCF77Timestamp) : Reachable (s.processSample sample time uninit).1

/-- Consistency of the smoothing state with the ring cursor at position `pos`:
cursors aligned, arrays of the declared sizes, and every phase sum equal to the
number of set ring bits of its phase. -/
structure SmoothInv (s : DCF77Receiver) (pos : Nat) : Prop where
  pos_lt : pos < 480
  cursor : s.bitptrSamples = Bitptr.ofPosition pos
  index : s.indexSumSamples = pos % 32 / 2
  bitmask : s.bitmaskSumSamples = if pos % 2 = 0 then 0b00001111 else 0b11110000
  samples_length : s.samples.length = 60
  sums_length : s.sumsSamples.length = 16
  sums_byte : ∀ i, rd s.sumsSamples i < 256
  sums : ∀ p, p < 32 → nibbleAt s.sumsSamples p = ringCount s.samples p

/-- The receiver after `n` calls of `processSample` from the zero-initialised
state, call `k` (counted from 0) being `processSample(sample k, time k)`. -/
def stateAfter (callbackReceived : Bool) (sample : Nat → Bool) (time : Nat → Nat)
    (uninit : Nat → DCF77Timestamp) : Nat → DCF77Receiver
  | 0 => DCF77Receiver.initial callbackReceived
  | n + 1 =>
    ((stateAfter callbackReceived sample time uninit n).processSample
      (sample n) (time n) (uninit n)).1

/-- The timestamp the callback receives in call `n`, if it is invoked there. -/
def delivered (callbackReceived : Bool) (sample : Nat → Bool) (time : Nat → Nat)
    (uninit : Nat → DCF77Timestamp) (n : Nat) : Option DCF77Timestamp :=
  ((stateAfter callbackReceived sample time uninit n).processSample
    (sample n) (time n) (uninit n)).2

/-- The local `sampleSmooth` of call `n`: the bit shifted into `windowSmooth`. -/
def smoothedAt (callbackReceived : Bool) (sample : Nat → Bool) (time : Nat → Nat)
    (uninit : Nat → DCF77Timestamp) (n : Nat) : Bool :=
  (stateAfter callbackReceived sample time uninit n).sampleSmooth (sample n)

/-- The naive recomputation: how many of `s n, s (n - 32), .., s (n - 14 * 32)`
are set, a sample with negative index counting as 0. -/
def recentCount (s : Nat → Bool) (n : Nat) : Nat :=
  Nat.count (fun i => 32 * i ≤ n ∧ s (n - 32 * i) = true) 15

/-- The ring buffer as a naive model: bit `q` after `n` samples is the last
sample stored at position `q`, or 0 when none was. -/
def ring (s : Nat → Bool) : Nat → Nat → Bool
  | 0, _ => false
  | n + 1, q => if q = n % 480 then s n else ring s n q

/-! ## A clean synthetic signal -/

/-- The three kinds of second of the time signal: a short pulse (time bit 0),
a long pulse (time bit 1) and the minute marker without pulse. -/
inductive SecondKind where
  | bit0
  | bit1
  | marker
  deriving DecidableEq, Repr

/-- The kind of a pulse second carrying the given bit. -/
def SecondKind.ofBit (b : Bool) : SecondKind := if b then SecondKind.bit1 else SecondKind.bit0

/-- The level of sample `phase` (0..31) of a clean second: low for the first 3
samples of a short pulse, for the first 6 of a long pulse, high otherwise. -/
def secondSample : SecondKind → Nat → Bool
  | SecondKind.bit0, phase => decide (3 ≤ phase)
  | SecondKind.bit1, phase => decide (6 ≤ phase)
  | SecondKind.marker, _ => true

/-- The sample sequence of a clean signal, 32 samples per second. -/
def signal (kinds : Nat → SecondKind) (n : Nat) : Bool :=
  secondSample (kinds (n / 32)) (n % 32)

/-- The seconds of the test signal: `N` pulse seconds carrying the bits `pre`,
a minute marker, the 59 seconds carrying bits 0..58 of the frame `f`, a minute
marker, and pulse seconds carrying `last` from then on. -/
def cleanKinds (N : Nat) (pre : Nat → Bool) (f : List Nat) (last : Bool) (k : Nat) :
    SecondKind :=
  if k < N then SecondKind.ofBit (pre k)
  else if k = N then SecondKind.marker
  else if k < N + 60 then SecondKind.ofBit (bitAt f (k - (N + 1)))
  else if k = N + 60 then SecondKind.marker
  else SecondKind.ofBit last

/-- A millisecond clock sampled 32 times per second: 31 ms per sample, 32 ms
every fourth, so 1000 ms per 32 samples. -/
def sampleClock (n : Nat) : Nat := n * 1000 / 32

/-- Two receiver states agree on the detection part: time of the last edge,
accumulator, accumulator cursor and changeover flag. -/
structure SameDetector (a b : DCF77Receiver) : Prop where
  timeEdge : a.timeEdge = b.timeEdge
  timebits : a.timebits = b.timebits
  bitptrTimebits : a.bitptrTimebits = b.bitptrTimebits
  changeover : a.changeover = b.changeover

/-- The detector is synchronised on entry to the call that sees the next edge
at time `tnext`: that edge will be accepted, the cursor is at position `c`, the
changeover flag is `ch`. The edge may come late only while nothing is collected
yet. -/
structure Tracking (st : DCF77Receiver) (tnext : Nat) (c : Nat) (ch : Bool) : Prop where
  delta_lo : 500 ≤ st.timeEdgeDelta tnext
  delta_hi : st.timeEdgeDelta tnext ≤ 1500 ∨ (c = 0 ∧ ch = false)
  cursor : st.bitptrTimebits = Bitptr.ofPosition c
  cursor_le : c ≤ 60
  changeover : st.changeover = ch
  length : st.timebits.length = 8

/-! ## The classification of an accepted edge -/

/-- Lines 116-185 of `processSample`: the classification of an accepted edge, on
the receiver as the assignment `this->timeEdge = time` of line 115 leaves it;
the result is the receiver after the call and the timestamp handed to the
callback, if it is invoked. -/
def DCF77Receiver.classify (self : DCF77Receiver) (uninit : DCF77Timestamp) :
    DCF77Receiver × Option DCF77Timestamp :=
  if self.sumSamplesPulse > nSampleThresholdMinute then
    ({ self with changeover := true }, none)
  else
    let delivered :=
      if self.changeover ∧ self.bitptrTimebits.eqPosition 59 ∧ self.callbackReceived then
        some (DCF77Timestamp.ofTimebits uninit self.timebits)
      else none
    let self :=
      if self.changeover then
        { self with changeover := false, bitptrTimebits := Bitptr.ofPosition 0 }
      else self
    if self.bitptrTimebits.nePosition 60 then
      let timebit := decide (self.sumSamplesTrail ≤ nSampleThresholdZero)
      let self := { self with timebits := self.bitptrTimebits.set self.timebits timebit }
      ({ self with bitptrTimebits := self.bitptrTimebits.inc }, delivered)
    else (self, delivered)

/-! ## Frames with a single bit changed -/

/-- A byte array with bit `i` inverted. -/
def flipBit (bytes : List Nat) (i : Nat) : List Nat :=
  wr bytes (i / 8) (rd bytes (i / 8) ^^^ 2 ^ (i % 8))

/-- The frame `sampleFrame` with the hour ones digit changed from 3 to 4: hour
digits 2 and 4, an odd number of set bits among bits 29..35. -/
def hour24Frame : List Nat := [0, 0, 242, 150, 28, 27, 154, 4]

/-! ## The classification of the raw window -/

/-- The classification lines 142-180 of `processSample` make of the raw window
at an accepted edge: no pulse when more than `nSampleThresholdMinute` of the
seven low bits are set, else a long pulse (time bit 1) when at most
`nSampleThresholdZero` of the four low bits are set, else a short pulse. -/
def DCF77Receiver.pulseKind (self : DCF77Receiver) : SecondKind :=
  if self.sumSamplesPulse > nSampleThresholdMinute then SecondKind.marker
  else if self.sumSamplesTrail ≤ nSampleThresholdZero then SecondKind.bit1
  else SecondKind.bit0

/-- The number of clear bits among the `n` low bits of a number. -/
def zeroCount (x n : Nat) : Nat := ((List.range n).filter (fun k => !x.testBit k)).length

/-- A clean signal of short pulses with two minute markers in a row, in seconds
67 and 68. -/
def doubleMarkerKinds (k : Nat) : SecondKind :=
  if k = 67 ∨ k = 68 then SecondKind.marker else SecondKind.bit0

/-- Two receiver states agree on the smoothing part: ring buffer, ring cursor,
phase sums, phase index and mask, and both windows. -/
structure SameSmoothing (a b : DCF77Receiver) : Prop where
  samples : a.samples = b.samples
  bitptrSamples : a.bitptrSamples = b.bitptrSamples
  sumsSamples : a.sumsSamples = b.sumsSamples
  indexSumSamples : a.indexSumSamples = b.indexSumSamples
  bitmaskSumSamples : a.bitmaskSumSamples = b.bitmaskSumSamples
  windowSmooth : a.windowSmooth = b.windowSmooth
  windowPulse : a.windowPulse = b.windowPulse

/-! ## The failure statuses of the decoder -/

open Status in
/-- The statuses of the enumeration `Status` named `ERROR_...`, in the order of
their declaration. -/
def errorStatuses : List Status :=
  [ERROR_START_MINUTE, ERROR_DST, ERROR_START_TIME, ERROR_MINUTE_01_RANGE,
    ERROR_MINUTE_10_RANGE, ERROR_MINUTE_PARITY, ERROR_HOUR_01_RANGE, ERROR_HOUR_10_RANGE,
    ERROR_HOUR_RANGE, ERROR_HOUR_PARITY, ERROR_DAY_01_RANGE, ERROR_DAY_RANGE,
    ERROR_WEEKDAY_RANGE, ERROR_MONTH_01_RANGE, ERROR_MONTH_RANGE, ERROR_YEAR_01_RANGE,
    ERROR_YEAR_10_RANGE, ERROR_DATE_PARITY]

/-- One frame for each failure status, each made from `sampleFrame` by breaking
one field. -/
def failingFrames : List (List Nat) :=
  [ [1, 0, 242, 118, 28, 27, 154, 4],
    [0, 0, 240, 118, 28, 27, 154, 4],
    [0, 0, 226, 118, 28, 27, 154, 4],
    [0, 0, 242, 119, 28, 27, 154, 4],
    [0, 0, 242, 126, 28, 27, 154, 4],
    [0, 0, 242, 102, 28, 27, 154, 4],
    [0, 0, 242, 118, 29, 27, 154, 4],
    [0, 0, 242, 118, 30, 27, 154, 4],
    [0, 0, 242, 150, 28, 27, 154, 4],
    [0, 0, 242, 118, 20, 27, 154, 4],
    [0, 0, 242, 118, 188, 27, 154, 4],
    [0, 0, 242, 118, 44, 27, 154, 4],
    [0, 0, 242, 118, 28, 3, 154, 4],
    [0, 0, 242, 118, 28, 91, 155, 4],
    [0, 0, 242, 118, 28, 123, 154, 4],
    [0, 0, 242, 118, 28, 27, 186, 4],
    [0, 0, 242, 118, 28, 27, 154, 6],
    [0, 0, 242, 118, 28, 27, 154, 0] ]

/-- The frame `sampleFrame` with every bit that belongs to no validated field
set: bits 1..16, 19 and 59..63. -/
def noisyFrame : List Nat := [254, 255, 251, 118, 28, 27, 154, 252]

/-! ## The history of accepted edges -/

/-- Whether call `n` of a run accepts an edge (the edge pattern shows and the
delta is at least 500) and, if so, whether it classifies it as a no-pulse. -/
def acceptedEdge (callbackReceived : Bool) (sample : Nat → Bool) (time : Nat → Nat)
    (uninit : Nat → DCF77Timestamp) (n : Nat) : Option Bool :=
  if ((stateAfter callbackReceived sample time uninit n).smooth (sample n)).edgeRecognised = true
      ∧ 500 ≤ (stateAfter callbackReceived sample time uninit n).timeEdgeDelta (time n) then
    some (decide (((stateAfter callbackReceived sample time uninit n).smooth
      (sample n)).sumSamplesPulse > nSampleThresholdMinute))
  else none

/-- The classification of the most recently accepted edge among the first `n`
calls of a run: `some true` for a no-pulse, `some false` for a real pulse,
`none` when no edge has been accepted yet. -/
def lastAccepted (callbackReceived : Bool) (sample : Nat → Bool) (time : Nat → Nat)
    (uninit : Nat → DCF77Timestamp) : Nat → Option Bool
  | 0 => none
  | n + 1 =>
    match acceptedEdge callbackReceived sample time uninit n with
    | some noPulse => some noPulse
    | none => lastAccepted callbackReceived sample time uninit n

/-! ## The phase addressed by the nibble cursor -/

/-- The phase whose sum `indexSumSamples` and `bitmaskSumSamples` address: the
low nibble of byte `i` holds phase `2 i`, the high nibble phase `2 i + 1`. -/
def DCF77Receiver.addressedPhase (self : DCF77Receiver) : Nat :=
  2 * self.indexSumSamples + (if self.bitmaskSumSamples = 0b11110000 then 1 else 0)

/-! ## The bit-counting loops step by step -/

/-- One iteration of the body `x &= (x - 1)` of the bit-counting loops. -/
def clearLowest (x : Nat) : Nat := x &&& (x - 1)

/-- A timestamp object whose fields all differ from those of `blankTimestamp`. -/
def staleTimestamp : DCF77Timestamp := ⟨Status.VALID, ⟨11, 12, true⟩, ⟨13, 4, 5, 66⟩⟩
/-! ## Runs from an arbitrary state -/

/-- The receiver after `n` further calls of `processSample` from the state
`self`, call `k` (counted from 0) being `processSample(sample k, time k)`. -/
def DCF77Receiver.after (self : DCF77Receiver) (sample : Nat → Bool) (time : Nat → Nat)
    (uninit : Nat → DCF77Timestamp) : Nat → DCF77Receiver
  | 0 => self
  | n + 1 =>
    ((self.after sample time uninit n).processSample (sample n) (time n) (uninit n)).1


/-! ## Bit-fields and parity -/

theorem countBits_succ (bytes : List Nat) (lo n : Nat) :
    ((List.range (n + 1)).filter (fun k => bitAt bytes (lo + k))).length
      = ((List.range n).filter (fun k => bitAt bytes (lo + k))).length
        + (bitAt bytes (lo + n)).toNat := by
  rw [List.range_succ, List.filter_append, List.length_append]
  cases h : bitAt bytes (lo + n) <;> simp [h]

theorem countBits_parity (bytes : List Nat) (lo n : Nat) :
    ((List.range n).filter (fun k => bitAt bytes (lo + k))).length % 2
      = (xorBits bytes lo n).toNat := by
  induction n with
  | zero => simp [xorBits]
  | succ n ih =>
    rw [countBits_succ, Nat.add_mod, ih, xorBits]
    cases xorBits bytes lo n <;> cases bitAt bytes (lo + n) <;> rfl

theorem decide_toNat_eq_one (b : Bool) : decide (b.toNat = 1) = b := by cases b <;> rfl

theorem countBits_odd (bytes : List Nat) (lo hi n : Nat) (h : hi + 1 - lo = n) :
    decide (countBits bytes lo hi % 2 = 1) = xorBits bytes lo n := by
  rw [countBits, h, countBits_parity, decide_toNat_eq_one]

theorem xorBits_add (bytes : List Nat) (lo m n : Nat) :
    xorBits bytes lo (m + n) = xor (xorBits bytes lo m) (xorBits bytes (lo + m) n) := by
  induction n with
  | zero => simp [xorBits]
  | succ n ih =>
    rw [← Nat.add_assoc, xorBits, ih, xorBits, Bool.xor_assoc, Nat.add_assoc]

theorem testBit_bitfield (bytes : List Nat) (w : Nat) : ∀ (off k : Nat),
    (bitfield bytes off w).testBit k = (decide (k < w) && bitAt bytes (off + k)) := by
  induction w with
  | zero => intro off k; simp [bitfield]
  | succ w ih =>
    intro off k
    rw [bitfield]
    cases k with
    | zero =>
      cases h : bitAt bytes off <;> simp [Nat.testBit_zero, h, Nat.add_mod]
    | succ k =>
      have h2 : (bitAt bytes off).toNat + 2 * bitfield bytes (off + 1) w
          = 2 * bitfield bytes (off + 1) w + (bitAt bytes off).toNat := by omega
      rw [h2, Nat.testBit_succ]
      have h3 : (2 * bitfield bytes (off + 1) w + (bitAt bytes off).toNat) / 2
          = bitfield bytes (off + 1) w := by
        cases bitAt bytes off <;> simp
        omega
      rw [h3, ih]
      simp [Nat.add_assoc, Nat.add_comm 1 k]

theorem bitfield_lt (bytes : List Nat) (w : Nat) : ∀ off, bitfield bytes off w < 2 ^ w := by
  induction w with
  | zero => intro off; simp [bitfield]
  | succ w ih =>
    intro off
    rw [bitfield, Nat.pow_succ]
    have := ih (off + 1)
    cases bitAt bytes off <;> simp <;> omega

theorem xorLow_xor (a b n : Nat) : xorLow (a ^^^ b) n = xor (xorLow a n) (xorLow b n) := by
  induction n with
  | zero => rfl
  | succ n ih =>
    rw [xorLow, xorLow, xorLow, ih, Nat.testBit_xor]
    cases xorLow a n <;> cases xorLow b n <;> cases a.testBit n <;> cases b.testBit n <;> rfl

theorem xorLow_bitfield (bytes : List Nat) (off w n : Nat) :
    xorLow (bitfield bytes off w) n = xorBits bytes off (min n w) := by
  induction n with
  | zero => simp [xorLow, xorBits]
  | succ n ih =>
    rw [xorLow, ih, testBit_bitfield]
    by_cases h : n < w
    · have h1 : min n w = n := by omega
      have h2 : min (n + 1) w = n + 1 := by omega
      rw [h1, h2, xorBits]
      simp [h]
    · have h1 : min n w = w := by omega
      have h2 : min (n + 1) w = w := by omega
      rw [h1, h2]
      simp [h]

set_option maxRecDepth 100000 in
theorem incorrectParity_byte : ∀ x, x < 256 → incorrectParity x = xorLow x 8 := by
  decide

theorem incorrectParity_bitfield8 (f : List Nat) (off : Nat) :
    incorrectParity (bitfield f off 8) = decide (countBits f off (off + 7) % 2 = 1) := by
  rw [incorrectParity_byte _ (bitfield_lt f 8 off), xorLow_bitfield,
    countBits_odd f off (off + 7) 8 (by omega)]
  rfl

theorem incorrectParity_bitfield7 (f : List Nat) (off : Nat) :
    incorrectParity (bitfield f off 7) = decide (countBits f off (off + 6) % 2 = 1) := by
  have hlt : bitfield f off 7 < 256 := lt_trans (bitfield_lt f 7 off) (by norm_num)
  rw [incorrectParity_byte _ hlt, xorLow_bitfield, countBits_odd f off (off + 6) 7 (by omega)]
  rfl

theorem incorrectParity_date (f : List Nat) :
    incorrectParity (bitfield f 36 4 ^^^ bitfield f 40 8 ^^^ bitfield f 48 8 ^^^ bitfield f 56 3)
      = decide (countBits f 36 58 % 2 = 1) := by
  have h1 : bitfield f 36 4 < 2 ^ 8 := lt_trans (bitfield_lt f 4 36) (by norm_num)
  have h2 : bitfield f 40 8 < 2 ^ 8 := bitfield_lt f 8 40
  have h3 : bitfield f 48 8 < 2 ^ 8 := bitfield_lt f 8 48
  have h4 : bitfield f 56 3 < 2 ^ 8 := lt_trans (bitfield_lt f 3 56) (by norm_num)
  have hlt : bitfield f 36 4 ^^^ bitfield f 40 8 ^^^ bitfield f 48 8 ^^^ bitfield f 56 3 < 256 :=
    Nat.xor_lt_two_pow (Nat.xor_lt_two_pow (Nat.xor_lt_two_pow h1 h2) h3) h4
  rw [incorrectParity_byte _ hlt, countBits_odd f 36 58 23 (by omega)]
  simp only [xorLow_xor, xorLow_bitfield]
  have e : (23 : Nat) = 4 + 8 + 8 + 3 := rfl
  rw [e, xorBits_add, xorBits_add, xorBits_add]
  rfl

/-! ## The decoder -/

theorem bitfield_one (f : List Nat) (i : Nat) : bitfield f i 1 = (bitAt f i).toNat := by
  simp [bitfield]

theorem bitfield_two (f : List Nat) (i : Nat) :
    bitfield f i 2 = (bitAt f i).toNat + 2 * (bitAt f (i + 1)).toNat := by
  simp [bitfield]

theorem decode_status (self : DCF77Timestamp) (f : List Nat) :
    (self.decode f).status = firstFailure f := by
  have b1 := bitfield_lt f 4 21
  have b2 := bitfield_lt f 3 25
  have b3 := bitfield_lt f 4 29
  have b4 := bitfield_lt f 2 33
  have b5 := bitfield_lt f 4 36
  have b6 := bitfield_lt f 2 40
  have b7 := bitfield_lt f 3 42
  have b8 := bitfield_lt f 4 45
  have b9 := bitfield_lt f 1 49
  have b10 := bitfield_lt f 4 50
  have b11 := bitfield_lt f 4 54
  simp only [DCF77Timestamp.decode, DCF77Timestruct.ofBytes, firstFailure, checks,
    incorrectParity_bitfield8, incorrectParity_bitfield7, incorrectParity_date,
    bitfield_one f 0, bitfield_one f 20, bitfield_two f 17, Nat.reduceAdd]
  generalize bitfield f 21 4 = m01 at *
  generalize bitfield f 25 3 = m10 at *
  generalize bitfield f 29 4 = h01 at *
  generalize bitfield f 33 2 = h10 at *
  generalize bitfield f 36 4 = d01 at *
  generalize bitfield f 40 2 = d10 at *
  generalize bitfield f 42 3 = wd at *
  generalize bitfield f 45 4 = mo01 at *
  generalize bitfield f 49 1 = mo10 at *
  generalize bitfield f 50 4 = y01 at *
  generalize bitfield f 54 4 = y10 at *
  generalize bitAt f 0 = a0
  generalize bitAt f 17 = a17
  generalize bitAt f 18 = a18
  generalize bitAt f 20 = a20
  generalize decide (countBits f 21 28 % 2 = 1) = p1
  generalize decide (countBits f 29 35 % 2 = 1) = p2
  generalize decide (countBits f 36 58 % 2 = 1) = p3
  have e1 : (h10 * 10 + h01) % 256 = 10 * h10 + h01 := by omega
  have e2 : (d10 * 10 + d01) % 256 = 10 * d10 + d01 := by omega
  have e3 : (mo10 * 10 + mo01) % 256 = 10 * mo10 + mo01 := by omega
  rw [e1, e2, e3]
  clear e1 e2 e3 b1 b2 b3 b4 b5 b6 b7 b8 b9 b10 b11
  simp only [firstFailing, apply_ite DCF77Timestamp.status, decide_eq_true_eq, gt_iff_lt]
  cases a0 <;> cases a17 <;> cases a18 <;> cases a20 <;>
    simp only [Bool.toNat_true, Bool.toNat_false, beq_self_eq_true, Bool.not_true, Bool.not_false,
      ne_eq, not_true_eq_false, not_false_eq_true, if_true, if_false, false_and, and_false,
      Nat.reduceAdd, Nat.reduceMul, Nat.reduceEqDiff, and_self, Bool.false_eq_true, reduceCtorEq,
      beq_iff_eq, zero_ne_one, one_ne_zero, OfNat.ofNat_ne_one, OfNat.ofNat_ne_zero]

theorem firstFailing_eq_valid_iff (l : List (Bool × Status))
    (h : ∀ c ∈ l, c.2 ≠ Status.VALID) :
    firstFailing l = Status.VALID ↔ ∀ c ∈ l, c.1 = false := by
  induction l with
  | nil => simp [firstFailing]
  | cons c rest ih =>
    obtain ⟨b, s⟩ := c
    have hs : s ≠ Status.VALID := h (b, s) (List.mem_cons_self _ _)
    have ih2 := ih (fun c hc => h c (List.mem_cons_of_mem _ hc))
    cases b
    · simp [firstFailing, ih2]
    · simp [firstFailing, hs]

theorem firstFailing_mem (l : List (Bool × Status)) :
    firstFailing l = Status.VALID ∨ ∃ c ∈ l, firstFailing l = c.2 := by
  induction l with
  | nil => exact Or.inl rfl
  | cons c rest ih =>
    obtain ⟨b, s⟩ := c
    cases b
    · rcases ih with h | ⟨c, hc, h⟩
      · exact Or.inl (by simpa [firstFailing] using h)
      · exact Or.inr ⟨c, List.mem_cons_of_mem _ hc, by simpa [firstFailing] using h⟩
    · exact Or.inr ⟨(true, s), List.mem_cons_self _ _, by simp [firstFailing]⟩

theorem checks_status (f : List Nat) (s : Status)
    (h1 : s ≠ Status.ERROR_START_MINUTE) (h2 : s ≠ Status.ERROR_DST)
    (h3 : s ≠ Status.ERROR_START_TIME) (h4 : s ≠ Status.ERROR_MINUTE_01_RANGE)
    (h5 : s ≠ Status.ERROR_MINUTE_10_RANGE) (h6 : s ≠ Status.ERROR_MINUTE_PARITY)
    (h7 : s ≠ Status.ERROR_HOUR_01_RANGE) (h8 : s ≠ Status.ERROR_HOUR_10_RANGE)
    (h9 : s ≠ Status.ERROR_HOUR_RANGE) (h10 : s ≠ Status.ERROR_HOUR_PARITY)
    (h11 : s ≠ Status.ERROR_DAY_01_RANGE) (h12 : s ≠ Status.ERROR_DAY_RANGE)
    (h13 : s ≠ Status.ERROR_WEEKDAY_RANGE) (h14 : s ≠ Status.ERROR_MONTH_01_RANGE)
    (h15 : s ≠ Status.ERROR_MONTH_RANGE) (h16 : s ≠ Status.ERROR_YEAR_01_RANGE)
    (h17 : s ≠ Status.ERROR_YEAR_10_RANGE) (h18 : s ≠ Status.ERROR_DATE_PARITY) :
    ∀ c ∈ checks f, c.2 ≠ s := by
  intro c hc
  simp only [checks, List.mem_cons, List.mem_singleton, List.not_mem_nil, or_false] at hc
  rcases hc with h | h | h | h | h | h | h | h | h | h | h | h | h | h | h | h | h | h <;>
    (rw [h]; exact Ne.symm (by assumption))

/-- C3: the status `decode` returns is that of the first failing check in the
order of the specification, `VALID` when no check fails; in particular it is
never `INCOMPLETE` nor `VALID_CONSUMED`. -/
theorem decode_status_is_first_failure (self : DCF77Timestamp) (f : List Nat) :
    (self.decode f).status = firstFailure f
      ∧ (self.decode f).status ≠ Status.INCOMPLETE
      ∧ (self.decode f).status ≠ Status.VALID_CONSUMED := by
  refine ⟨decode_status self f, ?_, ?_⟩
  · rw [decode_status, firstFailure]
    rcases firstFailing_mem (checks f) with h | ⟨c, hc, h⟩
    · rw [h]; decide
    · rw [h]
      exact checks_status f _ (by decide) (by decide) (by decide) (by decide) (by decide)
        (by decide) (by decide) (by decide) (by decide) (by decide) (by decide) (by decide)
        (by decide) (by decide) (by decide) (by decide) (by decide) (by decide) c hc
  · rw [decode_status, firstFailure]
    rcases firstFailing_mem (checks f) with h | ⟨c, hc, h⟩
    · rw [h]; decide
    · rw [h]
      exact checks_status f _ (by decide) (by decide) (by decide) (by decide) (by decide)
        (by decide) (by decide) (by decide) (by decide) (by decide) (by decide) (by decide)
        (by decide) (by decide) (by decide) (by decide) (by decide) (by decide) c hc

/-- The status is `VALID` exactly when every check of the time code passes. -/
theorem decode_valid_checks (self : DCF77Timestamp) (f : List Nat) :
    (self.decode f).status = Status.VALID ↔
      (bitAt f 0 = false
        ∧ (bitAt f 17 ≠ bitAt f 18)
        ∧ bitAt f 20 = true
        ∧ bitfield f 21 4 ≤ 9 ∧ bitfield f 25 3 ≤ 5
        ∧ countBits f 21 28 % 2 = 0
        ∧ bitfield f 29 4 ≤ 9 ∧ bitfield f 33 2 ≤ 2
        ∧ 10 * bitfield f 33 2 + bitfield f 29 4 ≤ 23
        ∧ countBits f 29 35 % 2 = 0
        ∧ bitfield f 36 4 ≤ 9
        ∧ 1 ≤ 10 * bitfield f 40 2 + bitfield f 36 4
        ∧ 10 * bitfield f 40 2 + bitfield f 36 4 ≤ 31
        ∧ bitfield f 42 3 ≠ 0
        ∧ bitfield f 45 4 ≤ 9
        ∧ 1 ≤ 10 * bitfield f 49 1 + bitfield f 45 4
        ∧ 10 * bitfield f 49 1 + bitfield f 45 4 ≤ 12
        ∧ bitfield f 50 4 ≤ 9 ∧ bitfield f 54 4 ≤ 9
        ∧ countBits f 36 58 % 2 = 0) := by
  rw [decode_status, firstFailure,
    firstFailing_eq_valid_iff _ (checks_status f _ (by decide) (by decide) (by decide)
      (by decide) (by decide) (by decide) (by decide) (by decide) (by decide) (by decide)
      (by decide) (by decide) (by decide) (by decide) (by decide) (by decide) (by decide)
      (by decide))]
  simp only [checks, List.forall_mem_cons, List.not_mem_nil, false_imp_iff, implies_true,
    and_true, decide_eq_false_iff_not, gt_iff_lt]
  generalize bitfield f 21 4 = m01
  generalize bitfield f 25 3 = m10
  generalize bitfield f 29 4 = h01
  generalize bitfield f 33 2 = h10
  generalize bitfield f 36 4 = d01
  generalize bitfield f 40 2 = d10
  generalize bitfield f 42 3 = wd
  generalize bitfield f 45 4 = mo01
  generalize bitfield f 49 1 = mo10
  generalize bitfield f 50 4 = y01
  generalize bitfield f 54 4 = y10
  generalize countBits f 21 28 = p1
  generalize countBits f 29 35 = p2
  generalize countBits f 36 58 = p3
  cases bitAt f 0 <;> cases bitAt f 17 <;> cases bitAt f 18 <;> cases bitAt f 20 <;>
    simp only [Bool.not_true, Bool.not_false, beq_self_eq_true, Bool.false_eq_true,
      Bool.true_eq_false, ne_eq, not_true_eq_false, not_false_eq_true, false_and, and_false,
      true_and, and_true, beq_iff_eq, reduceCtorEq, iff_self, beq_eq_false_iff_ne]
  all_goals omega

/-- C1: `decode` returns `VALID` exactly when the frame passes every check of
the time code: start bits, zone, digit ranges, field ranges and the three even
parities. -/
theorem decode_valid_iff (self : DCF77Timestamp) (f : List Nat) :
    (self.decode f).status = Status.VALID ↔
      (bitAt f 0 = false
        ∧ (bitAt f 17 ≠ bitAt f 18)
        ∧ bitAt f 20 = true
        ∧ bitfield f 21 4 ≤ 9 ∧ bitfield f 25 3 ≤ 5
        ∧ countBits f 21 28 % 2 = 0
        ∧ bitfield f 29 4 ≤ 9 ∧ bitfield f 33 2 ≤ 2
        ∧ 10 * bitfield f 33 2 + bitfield f 29 4 ≤ 23
        ∧ countBits f 29 35 % 2 = 0
        ∧ bitfield f 36 4 ≤ 9
        ∧ 1 ≤ 10 * bitfield f 40 2 + bitfield f 36 4
        ∧ 10 * bitfield f 40 2 + bitfield f 36 4 ≤ 31
        ∧ bitfield f 42 3 ≠ 0
        ∧ bitfield f 45 4 ≤ 9
        ∧ 1 ≤ 10 * bitfield f 49 1 + bitfield f 45 4
        ∧ 10 * bitfield f 49 1 + bitfield f 45 4 ≤ 12
        ∧ bitfield f 50 4 ≤ 9 ∧ bitfield f 54 4 ≤ 9
        ∧ countBits f 36 58 % 2 = 0) :=
  decode_valid_checks self f

theorem valid_ite {c : Prop} [Decidable c] {a b : DCF77Timestamp}
    (ha : a.status ≠ Status.VALID) (h : (if c then a else b).status = Status.VALID) :
    ¬c ∧ (if c then a else b) = b := by
  by_cases hc : c
  · rw [if_pos hc] at h; exact absurd h ha
  · exact ⟨hc, if_neg hc⟩

/-- What `decode` leaves in the object when it returns `VALID`. -/
theorem decode_of_valid (self : DCF77Timestamp) (f : List Nat)
    (h : (self.decode f).status = Status.VALID) :
    self.decode f =
      { status := Status.VALID
        time :=
          { minute := (bitfield f 25 3 * 10 + bitfield f 21 4) % 256
            hour := (bitfield f 33 2 * 10 + bitfield f 29 4) % 256
            dst := if bitfield f 17 2 = 1 then true else false }
        date :=
          { day := (bitfield f 40 2 * 10 + bitfield f 36 4) % 256
            weekday := bitfield f 42 3
            month := (bitfield f 49 1 * 10 + bitfield f 45 4) % 256
            year := (bitfield f 54 4 * 10 + bitfield f 50 4) % 256 } } := by
  simp only [DCF77Timestamp.decode, DCF77Timestruct.ofBytes] at h ⊢
  repeat
    (obtain ⟨_, e⟩ := valid_ite (by intro e; cases e) h
     rw [e] at h ⊢
     clear e)
  exact (valid_ite (by intro e; cases e) h).2

/-- C2: on `VALID` the record holds the BCD decoding of the frame, and every
field lies in its documented range. -/
theorem decode_valid_record (self : DCF77Timestamp) (f : List Nat)
    (h : (self.decode f).status = Status.VALID) :
    (self.decode f).time.minute = 10 * bitfield f 25 3 + bitfield f 21 4
      ∧ (self.decode f).time.minute ≤ 59
      ∧ (self.decode f).time.hour = 10 * bitfield f 33 2 + bitfield f 29 4
      ∧ (self.decode f).time.hour ≤ 23
      ∧ (bitAt f 17 = true ∧ bitAt f 18 = false → (self.decode f).time.dst = true)
      ∧ (bitAt f 17 = false ∧ bitAt f 18 = true → (self.decode f).time.dst = false)
      ∧ (self.decode f).date.day = 10 * bitfield f 40 2 + bitfield f 36 4
      ∧ 1 ≤ (self.decode f).date.day ∧ (self.decode f).date.day ≤ 31
      ∧ (self.decode f).date.weekday = bitfield f 42 3
      ∧ 1 ≤ (self.decode f).date.weekday ∧ (self.decode f).date.weekday ≤ 7
      ∧ (self.decode f).date.month = 10 * bitfield f 49 1 + bitfield f 45 4
      ∧ 1 ≤ (self.decode f).date.month ∧ (self.decode f).date.month ≤ 12
      ∧ (self.decode f).date.year = 10 * bitfield f 54 4 + bitfield f 50 4
      ∧ (self.decode f).date.year ≤ 99 := by
  have hv := (decode_valid_checks self f).1 h
  rw [decode_of_valid self f h]
  dsimp only
  have b7 := bitfield_lt f 3 42
  have z := bitfield_two f 17
  simp only [Nat.reduceAdd] at z
  obtain ⟨-, -, -, c1, c2, -, c3, c4, c5, -, c6, c7, c8, c9, c10, c11, c12, c13, c14, -⟩ := hv
  have em : (bitfield f 25 3 * 10 + bitfield f 21 4) % 256
      = 10 * bitfield f 25 3 + bitfield f 21 4 := by omega
  have eh : (bitfield f 33 2 * 10 + bitfield f 29 4) % 256
      = 10 * bitfield f 33 2 + bitfield f 29 4 := by omega
  have ed : (bitfield f 40 2 * 10 + bitfield f 36 4) % 256
      = 10 * bitfield f 40 2 + bitfield f 36 4 := by omega
  have eo : (bitfield f 49 1 * 10 + bitfield f 45 4) % 256
      = 10 * bitfield f 49 1 + bitfield f 45 4 := by omega
  have ey : (bitfield f 54 4 * 10 + bitfield f 50 4) % 256
      = 10 * bitfield f 54 4 + bitfield f 50 4 := by omega
  rw [em, eh, ed, eo, ey]
  refine ⟨rfl, by omega, rfl, by omega, ?_, ?_, rfl, by omega, by omega, rfl,
    by omega, by omega, rfl, by omega, by omega, rfl, by omega⟩
  · rintro ⟨e1, e2⟩
    simp [z, e1, e2]
  · rintro ⟨e1, e2⟩
    simp [z, e1, e2]

theorem decode_valid_record_witness :
    (DCF77Timestamp.decode ⟨Status.INCOMPLETE, ⟨0, 0, false⟩, ⟨0, 0, 0, 0⟩⟩ sampleFrame).status
        = Status.VALID
      ∧ (DCF77Timestamp.decode ⟨Status.INCOMPLETE, ⟨0, 0, false⟩, ⟨0, 0, 0, 0⟩⟩
          sampleFrame).time.minute = 37 :=
  ⟨by decide,
   ((decode_valid_record ⟨Status.INCOMPLETE, ⟨0, 0, false⟩, ⟨0, 0, 0, 0⟩⟩ sampleFrame
      (by decide)).1).trans (by decide)⟩

/-! ## Byte arrays and bit pointers -/

theorem rd_wr_same (l : List Nat) (i v : Nat) (h : i < l.length) : rd (wr l i v) i = v := by
  simp [rd, wr, List.getD_eq_getElem?_getD, h]

theorem rd_wr_ne (l : List Nat) (i j v : Nat) (h : i ≠ j) : rd (wr l i v) j = rd l j := by
  simp [rd, wr, List.getD_eq_getElem?_getD, List.getElem?_set_ne h]

theorem length_wr (l : List Nat) (i v : Nat) : (wr l i v).length = l.length := by
  simp [wr]

theorem ofPosition_eq (c : Nat) (h : c < 2048) :
    Bitptr.ofPosition c = ⟨c / 8, 2 ^ (c % 8)⟩ := by
  have h1 : c >>> 3 = c / 8 := by rw [Nat.shiftRight_eq_div_pow]
  have h2 : c &&& 7 = c % 8 := Nat.and_pow_two_sub_one_eq_mod c 3
  have h3 : (2 : Nat) ^ (c % 8) < 256 := by
    have : c % 8 < 8 := Nat.mod_lt _ (by norm_num)
    calc (2 : Nat) ^ (c % 8) < 2 ^ 8 := Nat.pow_lt_pow_right (by norm_num) this
      _ = 256 := by norm_num
  simp only [Bitptr.ofPosition, h1, h2, Nat.one_shiftLeft]
  rw [Nat.mod_eq_of_lt h3, Nat.mod_eq_of_lt (by omega)]

theorem length_set (p : Bitptr) (bytes : List Nat) (b : Bool) :
    (p.set bytes b).length = bytes.length := by
  unfold Bitptr.set
  split <;> exact length_wr _ _ _

theorem testBit_clear (x k j : Nat) (hk : k < 8) (hj : j < 8) :
    ((x &&& (255 - 2 ^ k)) % 256).testBit j = (x.testBit j && decide (j ≠ k)) := by
  have h : ∀ k, k < 8 → ∀ j, j < 8 → (255 - 2 ^ k).testBit j = decide (j ≠ k) := by decide
  have e : (256 : Nat) = 2 ^ 8 := rfl
  rw [e, Nat.testBit_mod_two_pow, Nat.testBit_and, h k hk j hj]
  simp [hj]

theorem testBit_raise (x k j : Nat) (hj : j < 8) :
    ((x ||| 2 ^ k) % 256).testBit j = (x.testBit j || decide (j = k)) := by
  have e : (256 : Nat) = 2 ^ 8 := rfl
  rw [e, Nat.testBit_mod_two_pow, Nat.testBit_or, Nat.testBit_two_pow]
  simp [hj, eq_comm]

/-- A bit pointer at position `c` inside the array writes bit `c` and no other. -/
theorem bitAt_set (bytes : List Nat) (c i : Nat) (b : Bool) (h : c / 8 < bytes.length) :
    bitAt ((⟨c / 8, 2 ^ (c % 8)⟩ : Bitptr).set bytes b) i
      = if i = c then b else bitAt bytes i := by
  have hc : c % 8 < 8 := Nat.mod_lt _ (by norm_num)
  have hi : i % 8 < 8 := Nat.mod_lt _ (by norm_num)
  unfold bitAt Bitptr.set
  by_cases hb : i / 8 = c / 8
  · rw [hb]
    cases b
    · simp only [Bool.false_eq_true, if_false, rd_wr_same _ _ _ h, testBit_clear _ _ _ hc hi]
      by_cases e : i = c
      · simp [e]
      · have : i % 8 ≠ c % 8 := by omega
        simp [e, this]
    · simp only [if_true, rd_wr_same _ _ _ h, testBit_raise _ _ _ hi]
      by_cases e : i = c
      · simp [e]
      · have : i % 8 ≠ c % 8 := by omega
        simp [e, this]
  · have e : i ≠ c := fun e => hb (by rw [e])
    cases b <;> simp [rd_wr_ne _ _ _ _ (Ne.symm hb), e]

theorem and_two_pow_ne_zero (x k : Nat) : ((x &&& 2 ^ k) != 0) = x.testBit k := by
  cases h : x.testBit k
  · have : x &&& 2 ^ k = 0 := by
      apply Nat.eq_of_testBit_eq
      intro j
      rw [Nat.testBit_and, Nat.testBit_two_pow, Nat.zero_testBit]
      by_cases e : k = j
      · subst e; simp [h]
      · simp [e]
    simp [this]
  · have : (x &&& 2 ^ k).testBit k = true := by
      rw [Nat.testBit_and, Nat.testBit_two_pow, h]; simp
    have hne : x &&& 2 ^ k ≠ 0 := by
      intro e
      rw [e, Nat.zero_testBit] at this
      exact Bool.noConfusion this
    simp [hne]

/-- A bit pointer at position `c` reads bit `c`. -/
theorem get_eq_bitAt (bytes : List Nat) (c : Nat) :
    (⟨c / 8, 2 ^ (c % 8)⟩ : Bitptr).get bytes = bitAt bytes c := by
  unfold Bitptr.get bitAt
  exact and_two_pow_ne_zero _ _

theorem inc_ofPosition : ∀ c, c < 64 → (Bitptr.ofPosition c).inc = Bitptr.ofPosition (c + 1) := by
  decide

theorem nePosition_ofPosition : ∀ c, c < 64 →
    (Bitptr.ofPosition c).nePosition 60 = decide (c ≠ 60) := by
  decide

theorem eqPosition_ofPosition : ∀ c, c < 64 →
    (Bitptr.ofPosition c).eqPosition 59 = decide (c = 59) := by
  decide

/-! ## Bit counts of the raw window -/

theorem popCount_succ (x n : Nat) : popCount x (n + 1) = popCount x n + (x.testBit n).toNat := by
  unfold popCount
  rw [List.range_succ, List.filter_append, List.length_append]
  cases h : x.testBit n <;> simp [h]

theorem popCount_congr (x y : Nat) : ∀ n, (∀ k, k < n → x.testBit k = y.testBit k) →
    popCount x n = popCount y n := by
  intro n
  induction n with
  | zero => intro _; rfl
  | succ n ih =>
    intro h
    rw [popCount_succ, popCount_succ, ih (fun k hk => h k (Nat.lt_succ_of_lt hk)),
      h n (Nat.lt_succ_self n)]

set_option maxRecDepth 100000 in
theorem bitCount_byte : ∀ x, x < 256 → bitCount x = popCount x 8 := by
  decide

theorem popCount_low_mask (w m : Nat) (hm : m ≤ 8) :
    bitCount ((w % 256) &&& (2 ^ m - 1)) = popCount w m := by
  have hlt : (w % 256) &&& (2 ^ m - 1) < 256 :=
    lt_of_le_of_lt Nat.and_le_left (Nat.mod_lt _ (by norm_num))
  have e : (256 : Nat) = 2 ^ 8 := rfl
  have hbit : ∀ k, ((w % 256) &&& (2 ^ m - 1)).testBit k = (decide (k < m) && w.testBit k) := by
    intro k
    rw [Nat.testBit_and, e, Nat.testBit_mod_two_pow, Nat.testBit_two_pow_sub_one]
    by_cases h1 : k < m
    · have : k < 8 := by omega
      simp [h1, this]
    · simp [h1]
  rw [bitCount_byte _ hlt]
  have hhigh : ∀ j, popCount ((w % 256) &&& (2 ^ m - 1)) (m + j)
      = popCount ((w % 256) &&& (2 ^ m - 1)) m := by
    intro j
    induction j with
    | zero => rfl
    | succ j ih =>
      rw [← Nat.add_assoc, popCount_succ, ih, hbit]
      simp
  have h8 : 8 = m + (8 - m) := by omega
  rw [h8, hhigh]
  apply popCount_congr
  intro k hk
  rw [hbit]
  simp [hk]

theorem sumSamplesPulse_eq (s : DCF77Receiver) : s.sumSamplesPulse = popCount s.windowPulse 7 :=
  popCount_low_mask s.windowPulse 7 (by norm_num)

theorem sumSamplesTrail_eq (s : DCF77Receiver) : s.sumSamplesTrail = popCount s.windowPulse 4 :=
  popCount_low_mask s.windowPulse 4 (by norm_num)

/-! ## The smoothing part leaves the detector state alone -/

theorem updateSums_detector (self : DCF77Receiver) (sample : Bool) :
    (self.updateSums sample).timeEdge = self.timeEdge
      ∧ (self.updateSums sample).timebits = self.timebits
      ∧ (self.updateSums sample).bitptrTimebits = self.bitptrTimebits
      ∧ (self.updateSums sample).changeover = self.changeover
      ∧ (self.updateSums sample).callbackReceived = self.callbackReceived := by
  unfold DCF77Receiver.updateSums
  dsimp only
  split_ifs <;> exact ⟨rfl, rfl, rfl, rfl, rfl⟩

theorem advance_detector (self : DCF77Receiver) :
    self.advance.timeEdge = self.timeEdge
      ∧ self.advance.timebits = self.timebits
      ∧ self.advance.bitptrTimebits = self.bitptrTimebits
      ∧ self.advance.changeover = self.changeover
      ∧ self.advance.callbackReceived = self.callbackReceived := by
  unfold DCF77Receiver.advance
  dsimp only
  split_ifs <;> exact ⟨rfl, rfl, rfl, rfl, rfl⟩

theorem smooth_detector (self : DCF77Receiver) (sample : Bool) :
    (self.smooth sample).timeEdge = self.timeEdge
      ∧ (self.smooth sample).timebits = self.timebits
      ∧ (self.smooth sample).bitptrTimebits = self.bitptrTimebits
      ∧ (self.smooth sample).changeover = self.changeover
      ∧ (self.smooth sample).callbackReceived = self.callbackReceived := by
  unfold DCF77Receiver.smooth
  dsimp only
  obtain ⟨a1, a2, a3, a4, a5⟩ := advance_detector
    (DCF77Receiver.updateSums { self with windowPulse :=
      (self.windowPulse <<< 1) % 65536 ||| (if sample then 1 else 0) } sample)
  obtain ⟨u1, u2, u3, u4, u5⟩ := updateSums_detector
    { self with windowPulse := (self.windowPulse <<< 1) % 65536 ||| (if sample then 1 else 0) }
    sample
  exact ⟨a1.trans u1, a2.trans u2, a3.trans u3, a4.trans u4, a5.trans u5⟩

/-! ## The raw window after the smoothing part -/

theorem updateSums_windows (self : DCF77Receiver) (sample : Bool) :
    (self.updateSums sample).windowPulse = self.windowPulse
      ∧ (self.updateSums sample).windowSmooth = self.windowSmooth := by
  unfold DCF77Receiver.updateSums
  dsimp only
  split_ifs <;> exact ⟨rfl, rfl⟩

theorem advance_windows (self : DCF77Receiver) :
    self.advance.windowPulse = self.windowPulse
      ∧ self.advance.windowSmooth = self.windowSmooth := by
  unfold DCF77Receiver.advance
  dsimp only
  split_ifs <;> exact ⟨rfl, rfl⟩

theorem smooth_windowPulse (self : DCF77Receiver) (sample : Bool) :
    (self.smooth sample).windowPulse
      = (self.windowPulse <<< 1) % 65536 ||| (if sample then 1 else 0) := by
  unfold DCF77Receiver.smooth
  dsimp only
  rw [(advance_windows _).1, (updateSums_windows _ _).1]

theorem smooth_windowSmooth (self : DCF77Receiver) (sample : Bool) :
    (self.smooth sample).windowSmooth
      = (self.windowSmooth <<< 1) % 65536
        ||| (if DCF77Receiver.sampleSmooth { self with windowPulse :=
              (self.windowPulse <<< 1) % 65536 ||| (if sample then 1 else 0) } sample
            then 1 else 0) := by
  unfold DCF77Receiver.smooth
  dsimp only
  rw [(advance_windows _).2, (updateSums_windows _ _).2]

theorem testBit_shiftIn (w : Nat) (b : Bool) (k : Nat) :
    ((w <<< 1) % 65536 ||| (if b then 1 else 0)).testBit k
      = if k = 0 then b else (decide (k < 16) && w.testBit (k - 1)) := by
  have e : (65536 : Nat) = 2 ^ 16 := rfl
  rw [Nat.testBit_or, e, Nat.testBit_mod_two_pow, Nat.testBit_shiftLeft]
  cases k with
  | zero => cases b <;> simp
  | succ k =>
    have h1 : (if b = true then 1 else 0 : Nat).testBit (k + 1) = false := by
      cases b
      · simp
      · simp only [if_true]
        rw [Nat.testBit_succ]
        simp
    rw [h1]
    simp

theorem popCount_shiftIn (w : Nat) (b : Bool) : ∀ n, n < 16 →
    popCount ((w <<< 1) % 65536 ||| (if b then 1 else 0)) (n + 1) = b.toNat + popCount w n := by
  intro n
  induction n with
  | zero =>
    intro _
    rw [popCount_succ, testBit_shiftIn]
    simp [popCount]
  | succ n ih =>
    intro hn
    rw [popCount_succ, ih (by omega), testBit_shiftIn, popCount_succ]
    have : n + 1 < 16 := hn
    simp [this]
    omega

/-! ## The three outcomes of edge detection -/

/-- No edge, or an edge too soon after the last one: nothing changes. -/
theorem detect_ignored (s : DCF77Receiver) (time : Nat) (uninit : DCF77Timestamp)
    (h : s.edgeRecognised = false ∨ s.timeEdgeDelta time < 500) :
    s.detect time uninit = (s, none) := by
  unfold DCF77Receiver.detect
  rcases h with h | h
  · simp [h]
  · simp [h]

/-- An accepted edge classified as no-pulse. -/
theorem detect_noPulse (s : DCF77Receiver) (time : Nat) (uninit : DCF77Timestamp)
    (h1 : s.edgeRecognised = true) (h2 : 500 ≤ s.timeEdgeDelta time)
    (h3 : s.sumSamplesPulse > nSampleThresholdMinute) :
    s.detect time uninit =
      ({ s with
          bitptrTimebits :=
            if s.timeEdgeDelta time > 1500 then Bitptr.ofPosition 0 else s.bitptrTimebits
          timeEdge := time
          changeover := true }, none) := by
  unfold DCF77Receiver.detect
  have h2' : ¬ s.timeEdgeDelta time < 500 := by omega
  simp only [DCF77Receiver.sumSamplesPulse] at h3
  simp only [h1, h2', if_true, if_false, DCF77Receiver.sumSamplesPulse]
  split_ifs <;> simp_all

/-- An accepted edge classified as a real pulse. -/
theorem detect_pulse (s : DCF77Receiver) (time : Nat) (uninit : DCF77Timestamp)
    (h1 : s.edgeRecognised = true) (h2 : 500 ≤ s.timeEdgeDelta time)
    (h3 : ¬ s.sumSamplesPulse > nSampleThresholdMinute) :
    (s.detect time uninit).1 =
      (if (cursorAfterReset s time).nePosition 60 = true then
        { s with
          timeEdge := time
          changeover := false
          timebits := (cursorAfterReset s time).set s.timebits
            (decide (s.sumSamplesTrail ≤ nSampleThresholdZero))
          bitptrTimebits := (cursorAfterReset s time).inc }
      else
        { s with
          timeEdge := time
          changeover := false
          bitptrTimebits := cursorAfterReset s time })
      ∧ (s.detect time uninit).2 =
        (if s.timeEdgeDelta time ≤ 1500 ∧ s.changeover = true
            ∧ s.bitptrTimebits.eqPosition 59 = true ∧ s.callbackReceived = true then
          some (uninit.decode s.timebits)
        else none) := by
  unfold DCF77Receiver.detect cursorAfterReset
  have h2' : ¬ s.timeEdgeDelta time < 500 := by omega
  have z59 : (Bitptr.ofPosition 0).eqPosition 59 = false := by decide
  simp only [DCF77Receiver.sumSamplesPulse] at h3
  simp only [h1, h2', h3, if_true, if_false, DCF77Receiver.sumSamplesPulse,
    DCF77Receiver.sumSamplesTrail, DCF77Timestamp.ofTimebits]
  by_cases h4 : s.timeEdgeDelta time > 1500
  · have h4' : ¬ s.timeEdgeDelta time ≤ 1500 := by omega
    simp only [h4, h4', if_true, true_or, false_and, if_false, z59, Bool.false_eq_true,
      and_false]
    cases hc : s.changeover <;> split_ifs <;> simp_all
  · have h4' : s.timeEdgeDelta time ≤ 1500 := by omega
    simp only [h4, h4', if_false, false_or, true_and]
    cases hc : s.changeover <;> split_ifs <;> simp_all

/-! ## One call of `processSample` -/

theorem timeEdgeDelta_smooth (self : DCF77Receiver) (sample : Bool) (time : Nat) :
    (self.smooth sample).timeEdgeDelta time = self.timeEdgeDelta time := by
  unfold DCF77Receiver.timeEdgeDelta
  rw [(smooth_detector self sample).1]

/-- C4: the callback is invoked in a call exactly when it is set and the call
sees an accepted edge with delta in 500..1500, classified as a real pulse,
with the changeover pending and the cursor at 59 on entry; the timestamp it
gets is `decode` of the accumulator as it was on entry. -/
theorem processSample_callback_iff (self : DCF77Receiver) (sample : Bool) (time : Nat)
    (uninit : DCF77Timestamp) :
    ((self.processSample sample time uninit).2.isSome = true ↔
      (self.callbackReceived = true
        ∧ (self.smooth sample).windowSmooth &&& 0b1111110000 = 0b1110000000
        ∧ 500 ≤ self.timeEdgeDelta time
        ∧ self.timeEdgeDelta time ≤ 1500
        ∧ popCount (self.smooth sample).windowPulse 7 ≤ 5
        ∧ self.changeover = true
        ∧ self.bitptrTimebits.eqPosition 59 = true))
      ∧ (∀ ts, (self.processSample sample time uninit).2 = some ts →
          ts = uninit.decode self.timebits
            ∧ ∀ prior : DCF77Timestamp, ts.status = (prior.decode self.timebits).status) := by
  obtain ⟨e1, e2, e3, e4, e5⟩ := smooth_detector self sample
  have ed := timeEdgeDelta_smooth self sample time
  have ep := sumSamplesPulse_eq (self.smooth sample)
  unfold DCF77Receiver.processSample DCF77Receiver.detect
  generalize self.smooth sample = s at *
  have hs : ∀ prior : DCF77Timestamp,
      (uninit.decode self.timebits).status = (prior.decode self.timebits).status := by
    intro prior
    rw [decode_status, decode_status]
  by_cases h1 : s.edgeRecognised = true
  · have h1' : s.windowSmooth &&& 0b1111110000 = 0b1110000000 := by
      simpa [DCF77Receiver.edgeRecognised] using h1
    by_cases h2 : s.timeEdgeDelta time < 500
    · simp only [h1, h2, if_true]
      refine ⟨?_, by simp⟩
      simp only [Option.isSome_none, Bool.false_eq_true, false_iff, not_and]
      intros
      omega
    · have z59 : (Bitptr.ofPosition 0).eqPosition 59 = false := by decide
      simp only [DCF77Receiver.sumSamplesPulse] at ep
      by_cases h3 : s.timeEdgeDelta time > 1500
      · by_cases h4 : bitCount ((s.windowPulse % 256) &&& 0b01111111) > nSampleThresholdMinute
        · simp only [h1, h2, h3, h4, if_true, if_false, DCF77Receiver.sumSamplesPulse]
          refine ⟨?_, by simp⟩
          simp only [Option.isSome_none, Bool.false_eq_true, false_iff, not_and]
          intros
          omega
        · simp only [h1, h2, h3, h4, if_true, if_false, DCF77Receiver.sumSamplesPulse, z59,
            Bool.false_eq_true, false_and, and_false]
          refine ⟨?_, by split_ifs <;> simp⟩
          have : ¬ (self.timeEdgeDelta time ≤ 1500) := by omega
          split_ifs <;> simp [this]
      · by_cases h4 : bitCount ((s.windowPulse % 256) &&& 0b01111111) > nSampleThresholdMinute
        · simp only [h1, h2, h3, h4, if_true, if_false, DCF77Receiver.sumSamplesPulse]
          refine ⟨?_, by simp⟩
          simp only [Option.isSome_none, Bool.false_eq_true, false_iff, not_and]
          intros
          simp only [nSampleThresholdMinute] at h4
          omega
        · simp only [h1, h2, h3, h4, if_true, if_false, DCF77Receiver.sumSamplesPulse]
          have h4' : popCount s.windowPulse 7 ≤ 5 := by
            simp only [nSampleThresholdMinute] at h4
            omega
          have h2' : 500 ≤ self.timeEdgeDelta time := by omega
          have h3' : self.timeEdgeDelta time ≤ 1500 := by omega
          by_cases h5 : s.changeover = true ∧ s.bitptrTimebits.eqPosition 59 = true
              ∧ s.callbackReceived = true
          · obtain ⟨c1, c2, c3⟩ := h5
            have c1' := c1
            have c2' := c2
            have c3' := c3
            rw [e4] at c1'
            rw [e3] at c2'
            rw [e5] at c3'
            simp only [c1, c2, c3, and_self, if_true]
            refine ⟨?_, ?_⟩
            · split_ifs <;> simp [h1', h2', h3', h4', c1', c2', c3']
            · intro ts hts
              have : ts = DCF77Timestamp.ofTimebits uninit s.timebits := by
                split_ifs at hts <;> simpa using hts.symm
              rw [this, DCF77Timestamp.ofTimebits, e2]
              exact ⟨rfl, hs⟩
          · simp only [h5, if_false]
            refine ⟨?_, by split_ifs <;> simp⟩
            have : ¬ (self.callbackReceived = true ∧ self.changeover = true
                ∧ self.bitptrTimebits.eqPosition 59 = true) := by
              rw [← e4, ← e3, ← e5]
              tauto
            split_ifs <;> simp only [Option.isSome_none, Bool.false_eq_true, false_iff] <;> tauto
  · have h1' : ¬ (s.windowSmooth &&& 0b1111110000 = 0b1110000000) := by
      simpa [DCF77Receiver.edgeRecognised] using h1
    simp only [h1, Bool.false_eq_true, if_false]
    simp [h1']

theorem cursorAfterReset_smooth (self : DCF77Receiver) (sample : Bool) (time : Nat) :
    cursorAfterReset (self.smooth sample) time = cursorAfterReset self time := by
  obtain ⟨-, -, e3, e4, -⟩ := smooth_detector self sample
  unfold cursorAfterReset
  rw [timeEdgeDelta_smooth, e3, e4]

/-- C8: an accepted real-pulse edge with the cursor at `c < 60` (after any
reset of this call) writes the time bit at position `c`, leaves every other
accumulator bit alone and moves the cursor to `c + 1`; the bit is 1 exactly
when at most one of the four low raw-window bits is set. -/
theorem pulse_records_bit (self : DCF77Receiver) (sample : Bool) (time : Nat)
    (uninit : DCF77Timestamp) (c : Nat)
    (hedge : (self.smooth sample).edgeRecognised = true)
    (hacc : 500 ≤ self.timeEdgeDelta time)
    (hpulse : popCount (self.smooth sample).windowPulse 7 ≤ 5)
    (hc : cursorAfterReset self time = Bitptr.ofPosition c) (hc60 : c < 60)
    (hlen : self.timebits.length = 8) :
    bitAt (self.processSample sample time uninit).1.timebits c
        = decide (popCount (self.smooth sample).windowPulse 4 ≤ 1)
      ∧ (∀ i, i ≠ c → bitAt (self.processSample sample time uninit).1.timebits i
          = bitAt self.timebits i)
      ∧ (self.processSample sample time uninit).1.bitptrTimebits = Bitptr.ofPosition (c + 1) := by
  obtain ⟨-, e2, -, -, -⟩ := smooth_detector self sample
  have hp : ¬ (self.smooth sample).sumSamplesPulse > nSampleThresholdMinute := by
    rw [sumSamplesPulse_eq]
    simp only [nSampleThresholdMinute]
    omega
  have hd := (detect_pulse (self.smooth sample) time uninit hedge
    (by rw [timeEdgeDelta_smooth]; exact hacc) hp).1
  rw [cursorAfterReset_smooth, hc, nePosition_ofPosition c (by omega)] at hd
  have hne : decide (c ≠ 60) = true := by simp; omega
  rw [hne, if_pos rfl, inc_ofPosition c (by omega), sumSamplesTrail_eq, e2] at hd
  unfold DCF77Receiver.processSample
  rw [hd]
  dsimp only
  rw [ofPosition_eq c (by omega)]
  have hin : c / 8 < self.timebits.length := by omega
  refine ⟨?_, ?_, rfl⟩
  · rw [bitAt_set _ _ _ _ hin, if_pos rfl]
    simp [nSampleThresholdZero]
  · intro i hi
    rw [bitAt_set _ _ _ _ hin, if_neg hi]

/-- C9: an accepted edge is a no-pulse exactly when more than 5 of the current
sample and the 6 before it are set, and exactly then the changeover flag is
pending after the call. -/
theorem noPulse_classification (self : DCF77Receiver) (sample : Bool) (time : Nat)
    (uninit : DCF77Timestamp)
    (hedge : (self.smooth sample).edgeRecognised = true)
    (hacc : 500 ≤ self.timeEdgeDelta time) :
    popCount (self.smooth sample).windowPulse 7 = sample.toNat + popCount self.windowPulse 6
      ∧ ((self.smooth sample).sumSamplesPulse > nSampleThresholdMinute
          ↔ sample.toNat + popCount self.windowPulse 6 > 5)
      ∧ ((self.processSample sample time uninit).1.changeover = true
          ↔ sample.toNat + popCount self.windowPulse 6 > 5) := by
  have hw : popCount (self.smooth sample).windowPulse 7
      = sample.toNat + popCount self.windowPulse 6 := by
    rw [smooth_windowPulse, popCount_shiftIn _ _ 6 (by norm_num)]
  have hacc' : 500 ≤ (self.smooth sample).timeEdgeDelta time := by
    rw [timeEdgeDelta_smooth]; exact hacc
  refine ⟨hw, ?_, ?_⟩
  · rw [sumSamplesPulse_eq, hw]
    simp [nSampleThresholdMinute]
  · unfold DCF77Receiver.processSample
    by_cases h : (self.smooth sample).sumSamplesPulse > nSampleThresholdMinute
    · rw [detect_noPulse _ _ _ hedge hacc' h]
      rw [sumSamplesPulse_eq, hw] at h
      simp only [nSampleThresholdMinute] at h
      simp [h]
    · have hd := (detect_pulse _ time uninit hedge hacc' h).1
      rw [hd]
      rw [sumSamplesPulse_eq, hw] at h
      simp only [nSampleThresholdMinute] at h
      split_ifs <;> simp [h]

/-- C10: an accepted real-pulse edge with the changeover pending resets the
accumulator first: afterwards the flag is clear, the cursor is 1 and bit 0 is
this edge's time bit. -/
theorem changeover_resets_accumulator (self : DCF77Receiver) (sample : Bool) (time : Nat)
    (uninit : DCF77Timestamp)
    (hedge : (self.smooth sample).edgeRecognised = true)
    (hacc : 500 ≤ self.timeEdgeDelta time)
    (hpulse : popCount (self.smooth sample).windowPulse 7 ≤ 5)
    (hch : self.changeover = true)
    (hlen : 0 < self.timebits.length) :
    (self.processSample sample time uninit).1.changeover = false
      ∧ (self.processSample sample time uninit).1.bitptrTimebits = Bitptr.ofPosition 1
      ∧ bitAt (self.processSample sample time uninit).1.timebits 0
          = decide (popCount (self.smooth sample).windowPulse 4 ≤ 1) := by
  obtain ⟨-, e2, -, -, -⟩ := smooth_detector self sample
  have hp : ¬ (self.smooth sample).sumSamplesPulse > nSampleThresholdMinute := by
    rw [sumSamplesPulse_eq]
    simp only [nSampleThresholdMinute]
    omega
  have hd := (detect_pulse (self.smooth sample) time uninit hedge
    (by rw [timeEdgeDelta_smooth]; exact hacc) hp).1
  have hc : cursorAfterReset self time = Bitptr.ofPosition 0 := by
    unfold cursorAfterReset
    simp [hch]
  rw [cursorAfterReset_smooth, hc, nePosition_ofPosition 0 (by omega)] at hd
  rw [if_pos (by decide), inc_ofPosition 0 (by omega), sumSamplesTrail_eq, e2] at hd
  unfold DCF77Receiver.processSample
  rw [hd]
  dsimp only
  refine ⟨rfl, rfl, ?_⟩
  rw [ofPosition_eq 0 (by omega)]
  have := bitAt_set self.timebits 0 0
    (decide (popCount (self.smooth sample).windowPulse 4 ≤ nSampleThresholdZero)) hlen
  rw [this, if_pos rfl]
  simp [nSampleThresholdZero]

theorem pulse_records_bit_witness :
    ((stateBeforeEdge 0b000111 false 5).smooth true).edgeRecognised = true
      ∧ 500 ≤ (stateBeforeEdge 0b000111 false 5).timeEdgeDelta 1000
      ∧ popCount ((stateBeforeEdge 0b000111 false 5).smooth true).windowPulse 7 ≤ 5
      ∧ cursorAfterReset (stateBeforeEdge 0b000111 false 5) 1000 = Bitptr.ofPosition 5
      ∧ bitAt ((stateBeforeEdge 0b000111 false 5).processSample true 1000
          blankTimestamp).1.timebits 5 = false
      ∧ ((stateBeforeEdge 0b000111 false 5).processSample true 1000
          blankTimestamp).1.bitptrTimebits = Bitptr.ofPosition 6 :=
  ⟨by decide, by decide, by decide, by decide,
    (pulse_records_bit (stateBeforeEdge 0b000111 false 5) true 1000 blankTimestamp 5
      (by decide) (by decide) (by decide) (by decide) (by decide) (by decide)).1.trans
      (by decide),
    (pulse_records_bit (stateBeforeEdge 0b000111 false 5) true 1000 blankTimestamp 5
      (by decide) (by decide) (by decide) (by decide) (by decide) (by decide)).2.2⟩

theorem noPulse_classification_witness :
    ((stateBeforeEdge 0b111111 false 5).smooth true).edgeRecognised = true
      ∧ 500 ≤ (stateBeforeEdge 0b111111 false 5).timeEdgeDelta 1000
      ∧ ((stateBeforeEdge 0b111111 false 5).processSample true 1000
          blankTimestamp).1.changeover = true :=
  ⟨by decide, by decide,
    (noPulse_classification (stateBeforeEdge 0b111111 false 5) true 1000 blankTimestamp
      (by decide) (by decide)).2.2.2 (by decide)⟩

theorem changeover_resets_accumulator_witness :
    ((stateBeforeEdge 0b000000 true 59).smooth true).edgeRecognised = true
      ∧ 500 ≤ (stateBeforeEdge 0b000000 true 59).timeEdgeDelta 1000
      ∧ popCount ((stateBeforeEdge 0b000000 true 59).smooth true).windowPulse 7 ≤ 5
      ∧ (stateBeforeEdge 0b000000 true 59).changeover = true
      ∧ ((stateBeforeEdge 0b000000 true 59).processSample true 1000
          blankTimestamp).1.bitptrTimebits = Bitptr.ofPosition 1
      ∧ bitAt ((stateBeforeEdge 0b000000 true 59).processSample true 1000
          blankTimestamp).1.timebits 0 = true :=
  ⟨by decide, by decide, by decide, by decide,
    (changeover_resets_accumulator (stateBeforeEdge 0b000000 true 59) true 1000 blankTimestamp
      (by decide) (by decide) (by decide) (by decide) (by decide)).2.1,
    (changeover_resets_accumulator (stateBeforeEdge 0b000000 true 59) true 1000 blankTimestamp
      (by decide) (by decide) (by decide) (by decide) (by decide)).2.2.trans (by decide)⟩

/-! ## The smoothing state stays consistent -/

theorem detect_smoothing (s : DCF77Receiver) (time : Nat) (uninit : DCF77Timestamp) :
    (s.detect time uninit).1.samples = s.samples
      ∧ (s.detect time uninit).1.bitptrSamples = s.bitptrSamples
      ∧ (s.detect time uninit).1.sumsSamples = s.sumsSamples
      ∧ (s.detect time uninit).1.indexSumSamples = s.indexSumSamples
      ∧ (s.detect time uninit).1.bitmaskSumSamples = s.bitmaskSumSamples
      ∧ (s.detect time uninit).1.windowSmooth = s.windowSmooth
      ∧ (s.detect time uninit).1.windowPulse = s.windowPulse
      ∧ (s.detect time uninit).1.callbackReceived = s.callbackReceived := by
  unfold DCF77Receiver.detect
  dsimp only
  split_ifs <;> exact ⟨rfl, rfl, rfl, rfl, rfl, rfl, rfl, rfl⟩

theorem count_update (f g : Nat → Prop) [DecidablePred f] [DecidablePred g] (pos : Nat)
    (h : ∀ q, q ≠ pos → (f q ↔ g q)) : ∀ n, pos < n →
    Nat.count f n + (if g pos then 1 else 0) = Nat.count g n + (if f pos then 1 else 0) := by
  have hsame : ∀ n, n ≤ pos → Nat.count f n = Nat.count g n := by
    intro n
    induction n with
    | zero => intro _; rfl
    | succ n ih =>
      intro hn
      rw [Nat.count_succ, Nat.count_succ, ih (by omega)]
      have := h n (by omega)
      by_cases hf : f n
      · simp [hf, this.1 hf]
      · have hg : ¬ g n := fun hg => hf (this.2 hg)
        simp [hf, hg]
  intro n
  induction n with
  | zero => intro hn; omega
  | succ n ih =>
    intro hn
    rw [Nat.count_succ, Nat.count_succ]
    by_cases e : n = pos
    · subst e
      rw [hsame n (le_refl n)]
      omega
    · have := h n e
      have ih' := ih (by omega)
      by_cases hf : f n
      · simp only [hf, this.1 hf, if_true]
        omega
      · have hg : ¬ g n := fun hg => hf (this.2 hg)
        simp only [hf, hg, if_false]
        omega

theorem count_congr (f g : Nat → Prop) [DecidablePred f] [DecidablePred g]
    (h : ∀ q, (f q ↔ g q)) (n : Nat) : Nat.count f n = Nat.count g n := by
  induction n with
  | zero => rfl
  | succ n ih =>
    rw [Nat.count_succ, Nat.count_succ, ih]
    by_cases hf : f n
    · simp [hf, (h n).1 hf]
    · have hg : ¬ g n := fun hg => hf ((h n).2 hg)
      simp [hf, hg]

/-- Writing one ring bit changes the count of its phase by the difference of
the old and the new bit, and no other count. -/
theorem ringCount_set (samples : List Nat) (pos : Nat) (b : Bool) (hpos : pos < 480)
    (hlen : samples.length = 60) (p : Nat) :
    ringCount ((⟨pos / 8, 2 ^ (pos % 8)⟩ : Bitptr).set samples b) p
        + (if pos % 32 = p ∧ bitAt samples pos = true then 1 else 0)
      = ringCount samples p + (if pos % 32 = p ∧ b = true then 1 else 0) := by
  have hin : pos / 8 < samples.length := by omega
  unfold ringCount
  have key := count_update
    (fun q => q % 32 = p ∧ bitAt ((⟨pos / 8, 2 ^ (pos % 8)⟩ : Bitptr).set samples b) q = true)
    (fun q => q % 32 = p ∧ bitAt samples q = true) pos
    (by
      intro q hq
      dsimp only
      rw [bitAt_set _ _ _ _ hin, if_neg hq]) 480 hpos
  beta_reduce at key
  rw [bitAt_set _ _ _ _ hin, if_pos rfl] at key
  exact key

set_option maxRecDepth 100000 in
theorem count_phase : ∀ p, p < 32 → Nat.count (fun q => q % 32 = p) 480 = 15 := by
  decide

theorem count_and_le (f g : Nat → Prop) [DecidablePred f] [DecidablePred g] (n : Nat) :
    Nat.count (fun q => f q ∧ g q) n ≤ Nat.count f n := by
  induction n with
  | zero => simp
  | succ n ih =>
    rw [Nat.count_succ, Nat.count_succ]
    by_cases hf : f n <;> by_cases hg : g n <;> simp [hf, hg] <;> omega

theorem ringCount_le (samples : List Nat) (p : Nat) (hp : p < 32) : ringCount samples p ≤ 15 := by
  unfold ringCount
  calc Nat.count (fun q => q % 32 = p ∧ bitAt samples q = true) 480
      ≤ Nat.count (fun q => q % 32 = p) 480 := count_and_le _ _ _
    _ = 15 := count_phase p hp

theorem mask_low : (0b00010001 &&& 0b00001111 : Nat) = 1 := by decide

theorem mask_high : (0b00010001 &&& 0b11110000 : Nat) = 16 := by decide

theorem nibbleAt_wr (sums : List Nat) (i v p : Nat) (hi : i < sums.length) :
    nibbleAt (wr sums i v) p
      = if p / 2 = i then (if p % 2 = 0 then v % 16 else v / 16 % 16) else nibbleAt sums p := by
  unfold nibbleAt
  by_cases h : p / 2 = i
  · rw [if_pos h, h, rd_wr_same _ _ _ hi]
  · rw [if_neg h, rd_wr_ne _ _ _ _ (Ne.symm h)]

/-- Lines 42-59 keep the smoothing state consistent and leave the new sample
in the ring at the cursor. -/
theorem updateSums_inv (s : DCF77Receiver) (pos : Nat) (sample : Bool) (h : SmoothInv s pos) :
    SmoothInv (s.updateSums sample) pos
      ∧ bitAt (s.updateSums sample).samples pos = sample
      ∧ ∀ q, q ≠ pos → bitAt (s.updateSums sample).samples q = bitAt s.samples q := by
  obtain ⟨hpos, hcur, hidx, hmask, hl1, hl2, hbyte, hsum⟩ := h
  have hcur' : s.bitptrSamples = ⟨pos / 8, 2 ^ (pos % 8)⟩ := by
    rw [hcur, ofPosition_eq pos (by omega)]
  have hget : s.bitptrSamples.get s.samples = bitAt s.samples pos := by
    rw [hcur', get_eq_bitAt]
  have hin : pos / 8 < s.samples.length := by omega
  have hidx_lt : s.indexSumSamples < s.sumsSamples.length := by omega
  unfold DCF77Receiver.updateSums
  dsimp only
  rw [hget]
  by_cases heq : bitAt s.samples pos = sample
  · rw [if_pos heq]
    exact ⟨⟨hpos, hcur, hidx, hmask, hl1, hl2, hbyte, hsum⟩, heq, fun _ _ => rfl⟩
  · rw [if_neg heq]
    have hb := hbyte (pos % 32 / 2)
    have hp32 : pos % 32 < 32 := Nat.mod_lt _ (by norm_num)
    have hown := hsum (pos % 32) hp32
    have hrc := ringCount_set s.samples pos sample hpos hl1
    have hle := ringCount_le (((⟨pos / 8, 2 ^ (pos % 8)⟩ : Bitptr).set s.samples sample))
      (pos % 32) hp32
    have hset : ∀ b, s.bitptrSamples.set s.samples b
        = (⟨pos / 8, 2 ^ (pos % 8)⟩ : Bitptr).set s.samples b := by
      intro b; rw [hcur']
    refine ⟨?_, ?_, ?_⟩
    · cases hprev : bitAt s.samples pos
      · -- the displaced sample is 0, the new one is 1: the sum goes up
        have hs : sample = true := by
          cases sample
          · exact absurd hprev heq
          · rfl
        subst hs
        simp only [Bool.false_eq_true, if_false]
        have hrc0 := hrc (pos % 32)
        simp only [hprev, Bool.false_eq_true, and_false, if_false, and_self, if_true,
          Nat.add_zero] at hrc0
        refine ⟨hpos, hcur, hidx, hmask, ?_, ?_, ?_, ?_⟩
        · dsimp only
          rw [length_set]; exact hl1
        · dsimp only
          rw [length_wr]; exact hl2
        · intro i
          dsimp only
          by_cases hi : i = s.indexSumSamples
          · rw [hi, rd_wr_same _ _ _ hidx_lt]
            exact Nat.mod_lt _ (by norm_num)
          · rw [rd_wr_ne _ _ _ _ (Ne.symm hi)]
            exact hbyte i
        · intro p hp
          have hrcp := hrc p
          dsimp only
          rw [hset, nibbleAt_wr _ _ _ p hidx_lt, hidx, hmask]
          unfold nibbleAt at hown
          have hsp := hsum p hp
          unfold nibbleAt at hsp
          by_cases hpp : p / 2 = pos % 32 / 2
          · rw [if_pos hpp]
            rw [hpp] at hsp
            by_cases hev : pos % 2 = 0
            · have hev' : pos % 32 % 2 = 0 := by omega
              rw [if_pos hev, mask_low]
              rw [if_pos hev'] at hown
              by_cases hme : p = pos % 32
              · subst hme
                rw [if_pos hev'] at hsp ⊢
                simp only [hprev, Bool.false_eq_true, and_false, if_false, and_self, if_true,
                  Nat.add_zero, true_and] at hrcp
                omega
              · have hodd : p % 2 = 1 := by omega
                rw [if_neg (by omega)] at hsp ⊢
                have hne : ¬ (pos % 32 = p) := fun e => hme e.symm
                simp only [hne, false_and, if_false, Nat.add_zero] at hrcp
                omega
            · have hev' : ¬ pos % 32 % 2 = 0 := by omega
              rw [if_neg hev, mask_high]
              rw [if_neg hev'] at hown
              by_cases hme : p = pos % 32
              · subst hme
                rw [if_neg hev'] at hsp ⊢
                simp only [hprev, Bool.false_eq_true, and_false, if_false, and_self, if_true,
                  Nat.add_zero, true_and] at hrcp
                omega
              · have hevp : p % 2 = 0 := by omega
                rw [if_pos hevp] at hsp ⊢
                have hne : ¬ (pos % 32 = p) := fun e => hme e.symm
                simp only [hne, false_and, if_false, Nat.add_zero] at hrcp
                omega
          · rw [if_neg hpp]
            have hne : ¬ (pos % 32 = p) := fun e => hpp (by rw [e])
            simp only [hne, false_and, if_false, Nat.add_zero] at hrcp
            rw [hsum p hp, hrcp]
      · -- the displaced sample is 1, the new one is 0: the sum goes down
        have hs : sample = false := by
          cases sample
          · rfl
          · exact absurd hprev heq
        subst hs
        simp only [if_true]
        have hrc0 := hrc (pos % 32)
        simp only [hprev, Bool.false_eq_true, and_false, if_false, and_self, if_true,
          Nat.add_zero] at hrc0
        refine ⟨hpos, hcur, hidx, hmask, ?_, ?_, ?_, ?_⟩
        · dsimp only
          rw [length_set]; exact hl1
        · dsimp only
          rw [length_wr]; exact hl2
        · intro i
          dsimp only
          by_cases hi : i = s.indexSumSamples
          · rw [hi, rd_wr_same _ _ _ hidx_lt]
            exact Nat.mod_lt _ (by norm_num)
          · rw [rd_wr_ne _ _ _ _ (Ne.symm hi)]
            exact hbyte i
        · intro p hp
          have hrcp := hrc p
          dsimp only
          rw [hset, nibbleAt_wr _ _ _ p hidx_lt, hidx, hmask]
          unfold nibbleAt at hown
          have hsp := hsum p hp
          unfold nibbleAt at hsp
          by_cases hpp : p / 2 = pos % 32 / 2
          · rw [if_pos hpp]
            rw [hpp] at hsp
            by_cases hev : pos % 2 = 0
            · have hev' : pos % 32 % 2 = 0 := by omega
              rw [if_pos hev, mask_low]
              rw [if_pos hev'] at hown
              by_cases hme : p = pos % 32
              · subst hme
                rw [if_pos hev'] at hsp ⊢
                simp only [hprev, Bool.false_eq_true, and_false, if_false, and_self, if_true,
                  Nat.add_zero, true_and] at hrcp
                omega
              · have hodd : p % 2 = 1 := by omega
                rw [if_neg (by omega)] at hsp ⊢
                have hne : ¬ (pos % 32 = p) := fun e => hme e.symm
                simp only [hne, false_and, if_false, Nat.add_zero] at hrcp
                omega
            · have hev' : ¬ pos % 32 % 2 = 0 := by omega
              rw [if_neg hev, mask_high]
              rw [if_neg hev'] at hown
              by_cases hme : p = pos % 32
              · subst hme
                rw [if_neg hev'] at hsp ⊢
                simp only [hprev, Bool.false_eq_true, and_false, if_false, and_self, if_true,
                  Nat.add_zero, true_and] at hrcp
                omega
              · have hevp : p % 2 = 0 := by omega
                rw [if_pos hevp] at hsp ⊢
                have hne : ¬ (pos % 32 = p) := fun e => hme e.symm
                simp only [hne, false_and, if_false, Nat.add_zero] at hrcp
                omega
          · rw [if_neg hpp]
            have hne : ¬ (pos % 32 = p) := fun e => hpp (by rw [e])
            simp only [hne, false_and, if_false, Nat.add_zero] at hrcp
            rw [hsum p hp, hrcp]
    · have := bitAt_set s.samples pos pos sample hin
      rw [if_pos rfl, ← hset] at this
      split_ifs <;> exact this
    · intro q hq
      have := bitAt_set s.samples pos q sample hin
      rw [if_neg hq, ← hset] at this
      split_ifs <;> exact this

set_option maxRecDepth 100000 in
theorem inc_ofPosition_ring : ∀ c, c < 480 →
    (Bitptr.ofPosition c).inc = Bitptr.ofPosition (c + 1) := by
  decide

set_option maxRecDepth 100000 in
theorem eqPosition_ring : ∀ c, c < 481 →
    (Bitptr.ofPosition c).eqPosition (nSamplePerSecond * nSecondToSmooth) = decide (c = 480) := by
  decide

/-- Lines 61-74 move the cursors on by one sample and keep them aligned. -/
theorem advance_inv (s : DCF77Receiver) (pos : Nat) (h : SmoothInv s pos) :
    SmoothInv s.advance ((pos + 1) % 480)
      ∧ s.advance.samples = s.samples ∧ s.advance.sumsSamples = s.sumsSamples := by
  obtain ⟨hpos, hcur, hidx, hmask, hl1, hl2, hbyte, hsum⟩ := h
  have hs : s.advance.samples = s.samples ∧ s.advance.sumsSamples = s.sumsSamples := by
    unfold DCF77Receiver.advance
    dsimp only
    split_ifs <;> exact ⟨rfl, rfl⟩
  refine ⟨?_, hs⟩
  clear hs
  unfold DCF77Receiver.advance
  dsimp only
  rw [hcur, inc_ofPosition_ring pos hpos, eqPosition_ring (pos + 1) (by omega), hmask, hidx]
  by_cases hwrap : pos + 1 = 480
  · have hodd : ¬ pos % 2 = 0 := by omega
    have e0 : (pos + 1) % 480 = 0 := by omega
    simp only [hwrap, decide_True, if_true, hodd, if_false, e0]
    have hi : (pos % 32 / 2 + 1) % 256 = 16 := by omega
    simp only [Nat.reduceMod, Nat.reduceSub, if_true, hi]
    exact ⟨by norm_num, rfl, rfl, rfl, hl1, hl2, hbyte, hsum⟩
  · have e1 : (pos + 1) % 480 = pos + 1 := by omega
    simp only [hwrap, decide_False, Bool.false_eq_true, if_false, e1]
    by_cases hev : pos % 2 = 0
    · simp only [hev, if_true, Nat.reduceMod, Nat.reduceSub, Nat.reduceEqDiff, if_false]
      refine ⟨by omega, rfl, ?_, ?_, hl1, hl2, hbyte, hsum⟩
      · dsimp only
        omega
      · dsimp only
        rw [if_neg (by omega)]
    · simp only [hev, if_false, Nat.reduceMod, Nat.reduceSub, if_true]
      have hi : ¬ (pos % 32 / 2 + 1) % 256 = 16 ∨ pos % 32 = 31 := by omega
      by_cases h16 : (pos % 32 / 2 + 1) % 256 = 16
      · simp only [h16, if_true]
        refine ⟨by omega, rfl, ?_, ?_, hl1, hl2, hbyte, hsum⟩
        · dsimp only
          omega
        · dsimp only
          rw [if_pos (by omega)]
      · simp only [h16, if_false]
        refine ⟨by omega, rfl, ?_, ?_, hl1, hl2, hbyte, hsum⟩
        · dsimp only
          omega
        · dsimp only
          rw [if_pos (by omega)]

theorem smoothInv_of_fields (s t : DCF77Receiver) (pos : Nat) (h : SmoothInv s pos)
    (h1 : t.samples = s.samples) (h2 : t.bitptrSamples = s.bitptrSamples)
    (h3 : t.sumsSamples = s.sumsSamples) (h4 : t.indexSumSamples = s.indexSumSamples)
    (h5 : t.bitmaskSumSamples = s.bitmaskSumSamples) : SmoothInv t pos := by
  obtain ⟨hpos, hcur, hidx, hmask, hl1, hl2, hbyte, hsum⟩ := h
  refine ⟨hpos, ?_, ?_, ?_, ?_, ?_, ?_, ?_⟩
  · rw [h2]; exact hcur
  · rw [h4]; exact hidx
  · rw [h5]; exact hmask
  · rw [h1]; exact hl1
  · rw [h3]; exact hl2
  · rw [h3]; exact hbyte
  · rw [h1, h3]; exact hsum

/-- The smoothing part of a call keeps the smoothing state consistent, stores
the sample at the cursor and moves the cursor on. -/
theorem smooth_inv (s : DCF77Receiver) (pos : Nat) (sample : Bool) (h : SmoothInv s pos) :
    SmoothInv (s.smooth sample) ((pos + 1) % 480)
      ∧ bitAt (s.smooth sample).samples pos = sample
      ∧ ∀ q, q ≠ pos → bitAt (s.smooth sample).samples q = bitAt s.samples q := by
  have h0 : SmoothInv { s with windowPulse :=
      (s.windowPulse <<< 1) % 65536 ||| (if sample then 1 else 0) } pos :=
    smoothInv_of_fields s _ pos h rfl rfl rfl rfl rfl
  obtain ⟨u1, u2, u3⟩ := updateSums_inv _ pos sample h0
  obtain ⟨a1, a2, a3⟩ := advance_inv _ pos u1
  unfold DCF77Receiver.smooth
  dsimp only
  refine ⟨smoothInv_of_fields _ _ _ a1 rfl rfl rfl rfl rfl, ?_, ?_⟩
  · rw [a2]; exact u2
  · intro q hq
    rw [a2]; exact u3 q hq

theorem processSample_inv (s : DCF77Receiver) (pos : Nat) (sample : Bool) (time : Nat)
    (uninit : DCF77Timestamp) (h : SmoothInv s pos) :
    SmoothInv (s.processSample sample time uninit).1 ((pos + 1) % 480)
      ∧ bitAt (s.processSample sample time uninit).1.samples pos = sample
      ∧ ∀ q, q ≠ pos → bitAt (s.processSample sample time uninit).1.samples q
          = bitAt s.samples q := by
  obtain ⟨d1, d2, d3, d4, d5, -, -, -⟩ := detect_smoothing (s.smooth sample) time uninit
  obtain ⟨s1, s2, s3⟩ := smooth_inv s pos sample h
  unfold DCF77Receiver.processSample
  refine ⟨smoothInv_of_fields _ _ _ s1 d1 d2 d3 d4 d5, ?_, ?_⟩
  · rw [d1]; exact s2
  · intro q hq
    rw [d1]; exact s3 q hq

theorem rd_replicate (n i : Nat) : rd (List.replicate n 0) i = 0 := by
  unfold rd
  rw [List.getD_eq_getElem?_getD, List.getElem?_replicate]
  split <;> rfl

theorem bitAt_replicate (n q : Nat) : bitAt (List.replicate n 0) q = false := by
  unfold bitAt
  rw [rd_replicate]
  exact Nat.zero_testBit _

theorem count_false (f : Nat → Prop) [DecidablePred f] (h : ∀ q, ¬ f q) (n : Nat) :
    Nat.count f n = 0 := by
  induction n with
  | zero => rfl
  | succ n ih => rw [Nat.count_succ, ih, if_neg (h n)]

theorem initial_inv (callbackReceived : Bool) :
    SmoothInv (DCF77Receiver.initial callbackReceived) 0 := by
  refine ⟨by norm_num, rfl, rfl, rfl, rfl, rfl, ?_, ?_⟩
  · intro i
    show rd (List.replicate 16 0) i < 256
    rw [rd_replicate]
    norm_num
  · intro p _
    show nibbleAt (List.replicate 16 0) p = ringCount (List.replicate 60 0) p
    unfold nibbleAt ringCount
    rw [rd_replicate, count_false]
    · simp
    · intro q hq
      rw [bitAt_replicate] at hq
      exact Bool.noConfusion hq.2

theorem reachable_inv (s : DCF77Receiver) (h : Reachable s) : ∃ pos, SmoothInv s pos := by
  induction h with
  | initial cb => exact ⟨0, initial_inv cb⟩
  | step _ sample time uninit ih =>
    obtain ⟨pos, hp⟩ := ih
    exact ⟨(pos + 1) % 480, (processSample_inv _ pos sample time uninit hp).1⟩

/-- C7: in every reachable state the 4-bit sum stored for each phase equals the
number of set ring-buffer bits of that phase. -/
theorem phase_sums_count_ring (s : DCF77Receiver) (h : Reachable s) (p : Nat) (hp : p < 32) :
    (if p % 2 = 0 then rd s.sumsSamples (p / 2) % 16 else rd s.sumsSamples (p / 2) / 16 % 16)
      = Nat.count (fun q => q % 32 = p ∧ bitAt s.samples q = true) 480 := by
  obtain ⟨pos, hinv⟩ := reachable_inv s h
  exact hinv.sums p hp

theorem phase_sums_count_ring_witness :
    Reachable ((DCF77Receiver.initial true).processSample true 0 blankTimestamp).1
      ∧ rd ((DCF77Receiver.initial true).processSample true 0 blankTimestamp).1.sumsSamples 0 % 16
        = Nat.count (fun q => q % 32 = 0
            ∧ bitAt ((DCF77Receiver.initial true).processSample true 0
                blankTimestamp).1.samples q = true) 480 :=
  ⟨Reachable.step (Reachable.initial true) true 0 blankTimestamp,
    phase_sums_count_ring _ (Reachable.step (Reachable.initial true) true 0 blankTimestamp) 0
      (by decide)⟩

/-! ## The ring buffer and the naive majority -/

theorem ring_recent (s : Nat → Bool) : ∀ n d, d < 480 →
    ring s (n + 1) ((n + 480 - d) % 480) = (decide (d ≤ n) && s (n - d)) := by
  intro n
  induction n with
  | zero =>
    intro d hd
    rw [ring]
    by_cases h0 : d = 0
    · subst h0; simp
    · have : ¬ (0 + 480 - d) % 480 = 0 % 480 := by omega
      rw [if_neg this, ring]
      have : ¬ d ≤ 0 := by omega
      simp [this]
  | succ n ih =>
    intro d hd
    rw [ring]
    by_cases h0 : d = 0
    · subst h0; simp
    · have hne : ¬ (n + 1 + 480 - d) % 480 = (n + 1) % 480 := by omega
      rw [if_neg hne]
      have e : (n + 1 + 480 - d) % 480 = (n + 480 - (d - 1)) % 480 := by
        congr 1; omega
      rw [e, ih (d - 1) (by omega)]
      have e2 : n - (d - 1) = n + 1 - d := by omega
      have e3 : (d - 1 ≤ n) ↔ (d ≤ n + 1) := by omega
      rw [e2]
      simp only [e3]

/-- The sample a call displaces is the one stored 480 calls earlier. -/
theorem ring_evicted (s : Nat → Bool) (n : Nat) :
    ring s n (n % 480) = (decide (480 ≤ n) && s (n - 480)) := by
  cases n with
  | zero => simp [ring]
  | succ m =>
    have e : (m + 1) % 480 = (m + 480 - 479) % 480 := by omega
    rw [e, ring_recent s m 479 (by norm_num)]
    have e2 : m - 479 = m + 1 - 480 := by omega
    have e3 : (479 ≤ m) ↔ (480 ≤ m + 1) := by omega
    rw [e2]
    simp only [e3]

/-- The naive count moves from one second to the next by the new sample and
the one that falls out of the window. -/
theorem recentCount_step (s : Nat → Bool) (n : Nat) :
    recentCount s n + (if 480 ≤ n ∧ s (n - 480) = true then 1 else 0)
      = (if s n = true then 1 else 0) + (if 32 ≤ n then recentCount s (n - 32) else 0) := by
  unfold recentCount
  have hL : Nat.count (fun i => 32 * i ≤ n ∧ s (n - 32 * i) = true) 15
      = Nat.count (fun k => 32 * (k + 1) ≤ n ∧ s (n - 32 * (k + 1)) = true) 14
        + (if s n = true then 1 else 0) := by
    rw [Nat.count_succ']
    simp
  rw [hL]
  by_cases h32 : 32 ≤ n
  · rw [if_pos h32]
    have hR : Nat.count (fun i => 32 * i ≤ n - 32 ∧ s (n - 32 - 32 * i) = true) 15
        = Nat.count (fun i => 32 * i ≤ n - 32 ∧ s (n - 32 - 32 * i) = true) 14
          + (if 480 ≤ n ∧ s (n - 480) = true then 1 else 0) := by
      rw [Nat.count_succ]
      have e3 : n - 32 - 32 * 14 = n - 480 := by omega
      have e4 : 32 * 14 ≤ n - 32 ↔ 480 ≤ n := by omega
      rw [e3]
      simp only [e4]
    have hc : Nat.count (fun k => 32 * (k + 1) ≤ n ∧ s (n - 32 * (k + 1)) = true) 14
        = Nat.count (fun i => 32 * i ≤ n - 32 ∧ s (n - 32 - 32 * i) = true) 14 := by
      apply count_congr
      intro q
      have e1 : n - 32 * (q + 1) = n - 32 - 32 * q := by omega
      have e2 : 32 * (q + 1) ≤ n ↔ 32 * q ≤ n - 32 := by omega
      rw [e1, e2]
    rw [hR, hc]
    omega
  · rw [if_neg h32]
    have hc : Nat.count (fun k => 32 * (k + 1) ≤ n ∧ s (n - 32 * (k + 1)) = true) 14 = 0 := by
      apply count_false
      intro q hq
      omega
    rw [hc]
    have : ¬ (480 ≤ n ∧ s (n - 480) = true) := fun h => h32 (by omega)
    rw [if_neg this]
    omega

theorem ring_count_other (s : Nat → Bool) (n p : Nat) (hp : p ≠ n % 32) :
    Nat.count (fun q => q % 32 = p ∧ ring s (n + 1) q = true) 480
      = Nat.count (fun q => q % 32 = p ∧ ring s n q = true) 480 := by
  apply count_congr
  intro q
  rw [ring]
  by_cases hq : q = n % 480
  · have : ¬ q % 32 = p := by omega
    simp [this]
  · rw [if_neg hq]

theorem ring_count_own (s : Nat → Bool) (n : Nat) :
    Nat.count (fun q => q % 32 = n % 32 ∧ ring s (n + 1) q = true) 480
        + (if 480 ≤ n ∧ s (n - 480) = true then 1 else 0)
      = Nat.count (fun q => q % 32 = n % 32 ∧ ring s n q = true) 480
        + (if s n = true then 1 else 0) := by
  have key := count_update
    (fun q => q % 32 = n % 32 ∧ ring s (n + 1) q = true)
    (fun q => q % 32 = n % 32 ∧ ring s n q = true) (n % 480)
    (by
      intro q hq
      dsimp only
      rw [ring, if_neg hq]) 480 (Nat.mod_lt _ (by norm_num))
  beta_reduce at key
  have e1 : ring s (n + 1) (n % 480) = s n := by rw [ring, if_pos rfl]
  have e2 : n % 480 % 32 = n % 32 := by omega
  rw [e1, ring_evicted, e2] at key
  simp only [true_and, Bool.and_eq_true, decide_eq_true_eq] at key
  exact key

/-- The ring bits of a phase count what the naive recomputation counts at the
last call of that phase. -/
theorem ring_count (s : Nat → Bool) : ∀ n p, p < 32 →
    Nat.count (fun q => q % 32 = p ∧ ring s n q = true) 480
      = if n ≤ p then 0 else recentCount s (p + 32 * ((n - 1 - p) / 32)) := by
  intro n
  induction n with
  | zero =>
    intro p _
    rw [if_pos (Nat.zero_le _)]
    apply count_false
    intro q hq
    rw [ring] at hq
    exact Bool.noConfusion hq.2
  | succ n ih =>
    intro p hp
    by_cases hown : p = n % 32
    · have hstep := ring_count_own s n
      have hrec := recentCount_step s n
      rw [← hown] at hstep
      rw [ih p hp] at hstep
      have hn : ¬ n + 1 ≤ p := by omega
      have e : p + 32 * ((n + 1 - 1 - p) / 32) = n := by omega
      rw [if_neg hn, e]
      by_cases h32 : 32 ≤ n
      · have hnp : ¬ n ≤ p := by omega
        have e2 : p + 32 * ((n - 1 - p) / 32) = n - 32 := by omega
        rw [if_neg hnp, e2] at hstep
        rw [if_pos h32] at hrec
        omega
      · have hnp : n ≤ p := by omega
        rw [if_pos hnp] at hstep
        rw [if_neg h32] at hrec
        omega
    · rw [ring_count_other s n p hown, ih p hp]
      by_cases hnp : n ≤ p
      · have : n + 1 ≤ p := by omega
        rw [if_pos hnp, if_pos this]
      · have : ¬ n + 1 ≤ p := by omega
        have e : p + 32 * ((n + 1 - 1 - p) / 32) = p + 32 * ((n - 1 - p) / 32) := by omega
        rw [if_neg hnp, if_neg this, e]

/-- Right after call `n` the ring bits of its phase count the naive majority
window. -/
theorem ring_count_now (s : Nat → Bool) (n : Nat) :
    Nat.count (fun q => q % 32 = n % 32 ∧ ring s (n + 1) q = true) 480 = recentCount s n := by
  rw [ring_count s (n + 1) (n % 32) (Nat.mod_lt _ (by norm_num))]
  have hn : ¬ n + 1 ≤ n % 32 := by omega
  have e : n % 32 + 32 * ((n + 1 - 1 - n % 32) / 32) = n := by omega
  rw [if_neg hn, e]

/-! ## The smoothed sample is the majority of the last 15 seconds -/

set_option maxRecDepth 100000 in
theorem majority_low : ∀ b, b < 256 →
    (((b &&& 0b00001111) &&& 0b10001000) != 0) = decide (8 ≤ b % 16) := by
  decide

set_option maxRecDepth 100000 in
theorem majority_high : ∀ b, b < 256 →
    (((b &&& 0b11110000) &&& 0b10001000) != 0) = decide (8 ≤ b / 16 % 16) := by
  decide

theorem sampleSmooth_windowPulse (st : DCF77Receiver) (w : Nat) (sample : Bool) :
    DCF77Receiver.sampleSmooth { st with windowPulse := w } sample = st.sampleSmooth sample := by
  unfold DCF77Receiver.sampleSmooth DCF77Receiver.sumSamples DCF77Receiver.updateSums
  dsimp only
  split_ifs <;> rfl

/-- The bit test of line 97 is `sum > 7` on the sum of the current phase, which
counts the ring bits of that phase once the new sample is stored. -/
theorem sampleSmooth_eq (st : DCF77Receiver) (pos : Nat) (sample : Bool)
    (h : SmoothInv st pos) :
    st.sampleSmooth sample
      = decide (8 ≤ ringCount (st.updateSums sample).samples (pos % 32)) := by
  obtain ⟨u1, -, -⟩ := updateSums_inv st pos sample h
  have hs := u1.sums (pos % 32) (Nat.mod_lt _ (by norm_num))
  have hb := u1.sums_byte (pos % 32 / 2)
  unfold DCF77Receiver.sampleSmooth DCF77Receiver.sumSamples
  rw [h.index, h.bitmask, ← hs]
  unfold nibbleAt
  by_cases hev : pos % 2 = 0
  · have hev' : pos % 32 % 2 = 0 := by omega
    rw [if_pos hev, if_pos hev']
    exact majority_low _ hb
  · have hev' : ¬ pos % 32 % 2 = 0 := by omega
    rw [if_neg hev, if_neg hev']
    exact majority_high _ hb

/-- After `n` calls the smoothing state is consistent, the ring cursor is at
`n mod 480` and the ring holds the last sample stored at each position. -/
theorem stateAfter_inv (cb : Bool) (s : Nat → Bool) (t : Nat → Nat)
    (u : Nat → DCF77Timestamp) : ∀ n,
    SmoothInv (stateAfter cb s t u n) (n % 480)
      ∧ ∀ q, bitAt (stateAfter cb s t u n).samples q = ring s n q := by
  intro n
  induction n with
  | zero =>
    refine ⟨initial_inv cb, ?_⟩
    intro q
    show bitAt (List.replicate 60 0) q = ring s 0 q
    rw [bitAt_replicate, ring]
  | succ n ih =>
    obtain ⟨hinv, hring⟩ := ih
    obtain ⟨p1, p2, p3⟩ := processSample_inv _ (n % 480) (s n) (t n) (u n) hinv
    have e : (n % 480 + 1) % 480 = (n + 1) % 480 := by omega
    rw [e] at p1
    refine ⟨p1, ?_⟩
    intro q
    rw [ring]
    by_cases hq : q = n % 480
    · rw [if_pos hq, hq]
      exact p2
    · rw [if_neg hq, ← hring q]
      exact p3 q hq

/-- The smoothed sample of call `n` is the majority of the recent samples at
the same phase. -/
theorem smoothedAt_recent (cb : Bool) (s : Nat → Bool) (t : Nat → Nat)
    (u : Nat → DCF77Timestamp) (n : Nat) :
    smoothedAt cb s t u n = decide (8 ≤ recentCount s n) := by
  obtain ⟨hinv, hring⟩ := stateAfter_inv cb s t u n
  unfold smoothedAt
  rw [sampleSmooth_eq _ (n % 480) (s n) hinv]
  obtain ⟨-, u2, u3⟩ := updateSums_inv _ (n % 480) (s n) hinv
  have e : n % 480 % 32 = n % 32 := by omega
  rw [e]
  have hc : ringCount ((stateAfter cb s t u n).updateSums (s n)).samples (n % 32)
      = Nat.count (fun q => q % 32 = n % 32 ∧ ring s (n + 1) q = true) 480 := by
    unfold ringCount
    apply count_congr
    intro q
    rw [ring]
    by_cases hq : q = n % 480
    · rw [if_pos hq, hq, u2]
    · rw [if_neg hq, u3 q hq, hring q]
  rw [hc, ring_count_now]

/-- C6: the smoothed sample computed by call `n` is 1 exactly when at least 8
of `s n, s (n - 32), .., s (n - 14 * 32)` are 1 (samples before the first
counting as 0), and it is the bit shifted into `windowSmooth`. -/
theorem smoothed_is_majority (cb : Bool) (s : Nat → Bool) (t : Nat → Nat)
    (u : Nat → DCF77Timestamp) (n : Nat) :
    smoothedAt cb s t u n
        = decide (8 ≤ Nat.count (fun i => 32 * i ≤ n ∧ s (n - 32 * i) = true) 15)
      ∧ (stateAfter cb s t u (n + 1)).windowSmooth.testBit 0 = smoothedAt cb s t u n := by
  constructor
  · exact smoothedAt_recent cb s t u n
  · unfold smoothedAt
    show ((stateAfter cb s t u n).processSample (s n) (t n) (u n)).1.windowSmooth.testBit 0 = _
    unfold DCF77Receiver.processSample
    rw [(detect_smoothing _ _ _).2.2.2.2.2.1, smooth_windowSmooth, testBit_shiftIn, if_pos rfl,
      sampleSmooth_windowPulse]

/-! ## The two windows hold the last 16 smoothed and raw samples -/

theorem stateAfter_succ (cb : Bool) (s : Nat → Bool) (t : Nat → Nat)
    (u : Nat → DCF77Timestamp) (n : Nat) :
    stateAfter cb s t u (n + 1)
      = (((stateAfter cb s t u n).smooth (s n)).detect (t n) (u n)).1 := rfl

theorem windowSmooth_bits (cb : Bool) (s : Nat → Bool) (t : Nat → Nat)
    (u : Nat → DCF77Timestamp) : ∀ n j, j < 16 →
    (stateAfter cb s t u (n + 1)).windowSmooth.testBit j
      = (decide (j ≤ n) && smoothedAt cb s t u (n - j)) := by
  intro n
  induction n with
  | zero =>
    intro j hj
    rw [stateAfter_succ, (detect_smoothing _ _ _).2.2.2.2.2.1, smooth_windowSmooth,
      testBit_shiftIn, sampleSmooth_windowPulse]
    by_cases h0 : j = 0
    · subst h0
      simp [smoothedAt]
    · rw [if_neg h0]
      have : (stateAfter cb s t u 0).windowSmooth = 0 := rfl
      rw [this, Nat.zero_testBit]
      have : ¬ j ≤ 0 := by omega
      simp [this]
  | succ n ih =>
    intro j hj
    rw [stateAfter_succ, (detect_smoothing _ _ _).2.2.2.2.2.1, smooth_windowSmooth,
      testBit_shiftIn, sampleSmooth_windowPulse]
    by_cases h0 : j = 0
    · subst h0
      simp [smoothedAt]
    · rw [if_neg h0, ih (j - 1) (by omega)]
      have e1 : n - (j - 1) = n + 1 - j := by omega
      have e2 : (j - 1 ≤ n) ↔ (j ≤ n + 1) := by omega
      rw [e1]
      simp [hj, e2]

theorem windowPulse_bits (cb : Bool) (s : Nat → Bool) (t : Nat → Nat)
    (u : Nat → DCF77Timestamp) : ∀ n j, j < 16 →
    (stateAfter cb s t u (n + 1)).windowPulse.testBit j = (decide (j ≤ n) && s (n - j)) := by
  intro n
  induction n with
  | zero =>
    intro j hj
    rw [stateAfter_succ, (detect_smoothing _ _ _).2.2.2.2.2.2.1, smooth_windowPulse,
      testBit_shiftIn]
    by_cases h0 : j = 0
    · subst h0
      simp
    · rw [if_neg h0]
      have : (stateAfter cb s t u 0).windowPulse = 0 := rfl
      rw [this, Nat.zero_testBit]
      have : ¬ j ≤ 0 := by omega
      simp [this]
  | succ n ih =>
    intro j hj
    rw [stateAfter_succ, (detect_smoothing _ _ _).2.2.2.2.2.2.1, smooth_windowPulse,
      testBit_shiftIn]
    by_cases h0 : j = 0
    · subst h0
      simp
    · rw [if_neg h0, ih (j - 1) (by omega)]
      have e1 : n - (j - 1) = n + 1 - j := by omega
      have e2 : (j - 1 ≤ n) ↔ (j ≤ n + 1) := by omega
      rw [e1]
      simp [hj, e2]

set_option maxRecDepth 100000 in
theorem edge_pattern_bits : ∀ v, v < 1024 →
    ((v &&& 0b1111110000) == 0b1110000000)
      = (v.testBit 9 && v.testBit 8 && v.testBit 7 && !v.testBit 6 && !v.testBit 5
          && !v.testBit 4) := by
  decide

/-- The edge pattern of line 103 in terms of the six examined smoothed samples. -/
theorem edgeRecognised_bits (st : DCF77Receiver) :
    st.edgeRecognised
      = (st.windowSmooth.testBit 9 && st.windowSmooth.testBit 8 && st.windowSmooth.testBit 7
          && !st.windowSmooth.testBit 6 && !st.windowSmooth.testBit 5
          && !st.windowSmooth.testBit 4) := by
  unfold DCF77Receiver.edgeRecognised
  have hmod : st.windowSmooth &&& 0b1111110000 = (st.windowSmooth % 1024) &&& 0b1111110000 := by
    apply Nat.eq_of_testBit_eq
    intro j
    have e : (1024 : Nat) = 2 ^ 10 := rfl
    rw [Nat.testBit_and, Nat.testBit_and, e, Nat.testBit_mod_two_pow]
    by_cases hj : j < 10
    · simp [hj]
    · have : (0b1111110000 : Nat).testBit j = false :=
        Nat.testBit_lt_two_pow (lt_of_lt_of_le (by norm_num : (0b1111110000 : Nat) < 2 ^ 10)
          (Nat.pow_le_pow_right (by norm_num) (by omega)))
      simp [this]
  have hbit : ∀ j, j < 10 → (st.windowSmooth % 1024).testBit j = st.windowSmooth.testBit j := by
    intro j hj
    have e : (1024 : Nat) = 2 ^ 10 := rfl
    rw [e, Nat.testBit_mod_two_pow]
    simp [hj]
  rw [hmod, edge_pattern_bits _ (Nat.mod_lt _ (by norm_num)), hbit 9 (by norm_num),
    hbit 8 (by norm_num), hbit 7 (by norm_num), hbit 6 (by norm_num), hbit 5 (by norm_num),
    hbit 4 (by norm_num)]

/-! ## Smoothed samples of a clean signal -/

theorem count_le_bound (a : Nat) : ∀ n, Nat.count (fun i => i ≤ a) n = min n (a + 1) := by
  intro n
  induction n with
  | zero => simp
  | succ n ih =>
    rw [Nat.count_succ, ih]
    by_cases h : n ≤ a
    · rw [if_pos h]; omega
    · rw [if_neg h]; omega

theorem count_mono_imp (f g : Nat → Prop) [DecidablePred f] [DecidablePred g]
    (h : ∀ q, f q → g q) (n : Nat) : Nat.count f n ≤ Nat.count g n := by
  induction n with
  | zero => simp
  | succ n ih =>
    rw [Nat.count_succ, Nat.count_succ]
    by_cases hf : f n
    · rw [if_pos hf, if_pos (h n hf)]; omega
    · rw [if_neg hf]; omega

theorem count_two_le (a b : Nat) : ∀ n, Nat.count (fun i => i = a ∨ i = b) n ≤ 2 := by
  have key : ∀ n, Nat.count (fun i => i = a ∨ i = b) n
      ≤ (if a < n then 1 else 0) + (if b < n then 1 else 0) := by
    intro n
    induction n with
    | zero => simp
    | succ n ih =>
      rw [Nat.count_succ]
      by_cases h : n = a ∨ n = b
      · rw [if_pos h]
        rcases h with h | h
        · subst h
          split_ifs at ih ⊢ <;> omega
        · subst h
          split_ifs at ih ⊢ <;> omega
      · rw [if_neg h]
        split_ifs at ih ⊢ <;> omega
  intro n
  have := key n
  split_ifs at this <;> omega

theorem recentCount_le (s : Nat → Bool) (n : Nat) : recentCount s n ≤ n / 32 + 1 := by
  unfold recentCount
  have h1 := count_mono_imp (fun i => 32 * i ≤ n ∧ s (n - 32 * i) = true) (fun i => i ≤ n / 32)
    (by intro q hq; have := hq.1; omega) 15
  rw [count_le_bound] at h1
  omega

theorem smoothed_true_second (cb : Bool) (s : Nat → Bool) (t : Nat → Nat)
    (u : Nat → DCF77Timestamp) (n : Nat) (h : smoothedAt cb s t u n = true) : 7 ≤ n / 32 := by
  rw [smoothedAt_recent, decide_eq_true_eq] at h
  have := recentCount_le s n
  omega

theorem signal_shift (K : Nat → SecondKind) (n i : Nat) (h : 32 * i ≤ n) :
    signal K (n - 32 * i) = secondSample (K (n / 32 - i)) (n % 32) := by
  unfold signal
  have e1 : (n - 32 * i) / 32 = n / 32 - i := by omega
  have e2 : (n - 32 * i) % 32 = n % 32 := by omega
  rw [e1, e2]

theorem secondSample_high (k : SecondKind) (p : Nat) (hp : 6 ≤ p) : secondSample k p = true := by
  cases k
  · simp only [secondSample, decide_eq_true_eq]; omega
  · simp only [secondSample, decide_eq_true_eq]; omega
  · rfl

theorem secondSample_low (k : SecondKind) (p : Nat) (hp : p ≤ 2) :
    secondSample k p = true ↔ k = SecondKind.marker := by
  cases k
  · simp only [secondSample, decide_eq_true_eq]
    constructor
    · intro h; omega
    · intro h; cases h
  · simp only [secondSample, decide_eq_true_eq]
    constructor
    · intro h; omega
    · intro h; cases h
  · simp [secondSample]

/-- From the eighth second on, the smoothed sample is high from phase 6 on. -/
theorem smoothed_high (cb : Bool) (K : Nat → SecondKind) (t : Nat → Nat)
    (u : Nat → DCF77Timestamp) (n : Nat) (hp : 6 ≤ n % 32) (ha : 7 ≤ n / 32) :
    smoothedAt cb (signal K) t u n = true := by
  rw [smoothedAt_recent, decide_eq_true_eq]
  unfold recentCount
  have e : Nat.count (fun i => 32 * i ≤ n ∧ signal K (n - 32 * i) = true) 15
      = Nat.count (fun i => i ≤ n / 32) 15 := by
    apply count_congr
    intro q
    constructor
    · intro h; have := h.1; omega
    · intro h
      have h1 : 32 * q ≤ n := by omega
      exact ⟨h1, by rw [signal_shift K n q h1]; exact secondSample_high _ _ hp⟩
  rw [e, count_le_bound]
  omega

/-- With at most two minute markers, the smoothed sample is low in the first
three phases of every second. -/
theorem smoothed_low (cb : Bool) (K : Nat → SecondKind) (A B : Nat)
    (hK : ∀ k, K k = SecondKind.marker → k = A ∨ k = B) (t : Nat → Nat)
    (u : Nat → DCF77Timestamp) (n : Nat) (hp : n % 32 ≤ 2) :
    smoothedAt cb (signal K) t u n = false := by
  rw [smoothedAt_recent, decide_eq_false_iff_not]
  unfold recentCount
  have h1 := count_mono_imp (fun i => 32 * i ≤ n ∧ signal K (n - 32 * i) = true)
    (fun i => i = n / 32 - A ∨ i = n / 32 - B)
    (by
      intro q hq
      obtain ⟨hq1, hq2⟩ := hq
      rw [signal_shift K n q hq1, secondSample_low _ _ hp] at hq2
      have hq3 : q ≤ n / 32 := by omega
      rcases hK _ hq2 with h | h
      · left; omega
      · right; omega) 15
  have h2 := count_two_le (n / 32 - A) (n / 32 - B) 15
  omega

/-! ## Edges of a clean signal -/

theorem smooth_windowSmooth_after (cb : Bool) (s : Nat → Bool) (t : Nat → Nat)
    (u : Nat → DCF77Timestamp) (n : Nat) :
    ((stateAfter cb s t u n).smooth (s n)).windowSmooth
        = (stateAfter cb s t u (n + 1)).windowSmooth
      ∧ ((stateAfter cb s t u n).smooth (s n)).windowPulse
        = (stateAfter cb s t u (n + 1)).windowPulse := by
  rw [stateAfter_succ, (detect_smoothing _ _ _).2.2.2.2.2.1,
    (detect_smoothing _ _ _).2.2.2.2.2.2.1]
  exact ⟨rfl, rfl⟩

/-- On a clean signal with at most two minute markers an edge is recognised
exactly in the call of phase 6 of every second from the ninth on. -/
theorem edge_iff (cb : Bool) (K : Nat → SecondKind) (A B : Nat)
    (hK : ∀ k, K k = SecondKind.marker → k = A ∨ k = B) (t : Nat → Nat)
    (u : Nat → DCF77Timestamp) (n : Nat) :
    ((stateAfter cb (signal K) t u n).smooth (signal K n)).edgeRecognised
      = decide (n % 32 = 6 ∧ 8 ≤ n / 32) := by
  have hw : ∀ j, j < 16 →
      ((stateAfter cb (signal K) t u n).smooth (signal K n)).windowSmooth.testBit j
        = (decide (j ≤ n) && smoothedAt cb (signal K) t u (n - j)) := by
    intro j hj
    rw [(smooth_windowSmooth_after cb (signal K) t u n).1]
    exact windowSmooth_bits cb (signal K) t u n j hj
  rw [edgeRecognised_bits, hw 9 (by norm_num), hw 8 (by norm_num), hw 7 (by norm_num),
    hw 6 (by norm_num), hw 5 (by norm_num), hw 4 (by norm_num)]
  by_cases hn : n % 32 = 6 ∧ 8 ≤ n / 32
  · obtain ⟨h1, h2⟩ := hn
    have b9 := smoothed_high cb K t u (n - 9) (by omega) (by omega)
    have b8 := smoothed_high cb K t u (n - 8) (by omega) (by omega)
    have b7 := smoothed_high cb K t u (n - 7) (by omega) (by omega)
    have b6 := smoothed_low cb K A B hK t u (n - 6) (by omega)
    have b5 := smoothed_low cb K A B hK t u (n - 5) (by omega)
    have b4 := smoothed_low cb K A B hK t u (n - 4) (by omega)
    have g9 : 9 ≤ n := by omega
    have g8 : 8 ≤ n := by omega
    have g7 : 7 ≤ n := by omega
    simp [b9, b8, b7, b6, b5, b4, h1, h2, g9, g8, g7]
  · rw [decide_eq_false hn]
    by_cases g9 : 9 ≤ n
    · have hcontra : ¬ (smoothedAt cb (signal K) t u (n - 9) = true
          ∧ smoothedAt cb (signal K) t u (n - 7) = true
          ∧ smoothedAt cb (signal K) t u (n - 6) = false) := by
        rintro ⟨b9, b7, b6⟩
        have h7 := smoothed_true_second cb (signal K) t u (n - 7) b7
        by_cases r0 : (n - 7) % 32 ≤ 2
        · rw [smoothed_low cb K A B hK t u (n - 7) r0] at b7
          cases b7
        · by_cases r3 : (n - 7) % 32 ≤ 4
          · rw [smoothed_low cb K A B hK t u (n - 9) (by omega)] at b9
            cases b9
          · by_cases r5 : (n - 7) % 32 ≤ 30
            · rw [smoothed_high cb K t u (n - 6) (by omega) (by omega)] at b6
              cases b6
            · apply hn
              omega
      have g8 : 8 ≤ n := by omega
      have g7 : 7 ≤ n := by omega
      have g6 : 6 ≤ n := by omega
      have g5 : 5 ≤ n := by omega
      have g4 : 4 ≤ n := by omega
      simp only [g9, g8, g7, g6, g5, g4, decide_True, Bool.true_and]
      revert hcontra
      cases smoothedAt cb (signal K) t u (n - 9) <;>
        cases smoothedAt cb (signal K) t u (n - 7) <;>
        cases smoothedAt cb (signal K) t u (n - 6) <;> simp
    · simp [g9]

theorem signal_edge_phase (K : Nat → SecondKind) (k j : Nat) (hj : j ≤ 6) :
    signal K (32 * k + 6 - j) = secondSample (K k) (6 - j) := by
  unfold signal
  have e1 : (32 * k + 6 - j) / 32 = k := by omega
  have e2 : (32 * k + 6 - j) % 32 = 6 - j := by omega
  rw [e1, e2]

/-- The raw window at the edge call of second `k`: its seven low bits are the
samples of phases 6 down to 0 of that second. -/
theorem windowPulse_edge (cb : Bool) (K : Nat → SecondKind) (t : Nat → Nat)
    (u : Nat → DCF77Timestamp) (k j : Nat) (hj : j ≤ 6) :
    ((stateAfter cb (signal K) t u (32 * k + 6)).smooth
        (signal K (32 * k + 6))).windowPulse.testBit j
      = secondSample (K k) (6 - j) := by
  rw [(smooth_windowSmooth_after cb (signal K) t u (32 * k + 6)).2,
    windowPulse_bits cb (signal K) t u (32 * k + 6) j (by omega), signal_edge_phase K k j hj]
  have : j ≤ 32 * k + 6 := by omega
  simp [this]

/-- The two counts taken at the edge call of second `k`. -/
theorem edge_counts (cb : Bool) (K : Nat → SecondKind) (t : Nat → Nat)
    (u : Nat → DCF77Timestamp) (k : Nat) :
    (((stateAfter cb (signal K) t u (32 * k + 6)).smooth
        (signal K (32 * k + 6))).sumSamplesPulse > nSampleThresholdMinute
      ↔ K k = SecondKind.marker)
    ∧ (K k ≠ SecondKind.marker →
        decide (((stateAfter cb (signal K) t u (32 * k + 6)).smooth
          (signal K (32 * k + 6))).sumSamplesTrail ≤ nSampleThresholdZero)
        = decide (K k = SecondKind.bit1)) := by
  have hb := windowPulse_edge cb K t u k
  rw [sumSamplesPulse_eq, sumSamplesTrail_eq]
  cases hk : K k
  · rw [hk] at hb
    have e7 : popCount ((stateAfter cb (signal K) t u (32 * k + 6)).smooth
        (signal K (32 * k + 6))).windowPulse 7 = popCount 0b0001111 7 := by
      apply popCount_congr
      intro j hj
      rw [hb j (by omega)]
      interval_cases j <;> decide
    have e4 : popCount ((stateAfter cb (signal K) t u (32 * k + 6)).smooth
        (signal K (32 * k + 6))).windowPulse 4 = popCount 0b0001111 4 := by
      apply popCount_congr
      intro j hj
      rw [hb j (by omega)]
      interval_cases j <;> decide
    rw [e7, e4]
    decide
  · rw [hk] at hb
    have e7 : popCount ((stateAfter cb (signal K) t u (32 * k + 6)).smooth
        (signal K (32 * k + 6))).windowPulse 7 = popCount 0b0000001 7 := by
      apply popCount_congr
      intro j hj
      rw [hb j (by omega)]
      interval_cases j <;> decide
    have e4 : popCount ((stateAfter cb (signal K) t u (32 * k + 6)).smooth
        (signal K (32 * k + 6))).windowPulse 4 = popCount 0b0000001 4 := by
      apply popCount_congr
      intro j hj
      rw [hb j (by omega)]
      interval_cases j <;> decide
    rw [e7, e4]
    decide
  · rw [hk] at hb
    have e7 : popCount ((stateAfter cb (signal K) t u (32 * k + 6)).smooth
        (signal K (32 * k + 6))).windowPulse 7 = popCount 0b1111111 7 := by
      apply popCount_congr
      intro j hj
      rw [hb j (by omega)]
      interval_cases j <;> decide
    rw [e7]
    refine ⟨?_, ?_⟩
    · decide
    · intro h; exact absurd rfl h

/-! ## The detector between and at the edges of a clean signal -/

theorem stateAfter_callback (cb : Bool) (s : Nat → Bool) (t : Nat → Nat)
    (u : Nat → DCF77Timestamp) : ∀ n, (stateAfter cb s t u n).callbackReceived = cb := by
  intro n
  induction n with
  | zero => rfl
  | succ n ih =>
    rw [stateAfter_succ, (detect_smoothing _ _ _).2.2.2.2.2.2.2, (smooth_detector _ _).2.2.2.2, ih]

theorem delivered_eq (cb : Bool) (s : Nat → Bool) (t : Nat → Nat)
    (u : Nat → DCF77Timestamp) (n : Nat) :
    delivered cb s t u n = (((stateAfter cb s t u n).smooth (s n)).detect (t n) (u n)).2 := rfl

theorem sameDetector_refl (a : DCF77Receiver) : SameDetector a a := ⟨rfl, rfl, rfl, rfl⟩

theorem sameDetector_trans (a b c : DCF77Receiver) (h1 : SameDetector a b)
    (h2 : SameDetector b c) : SameDetector a c :=
  ⟨h1.timeEdge.trans h2.timeEdge, h1.timebits.trans h2.timebits,
    h1.bitptrTimebits.trans h2.bitptrTimebits, h1.changeover.trans h2.changeover⟩

theorem sameDetector_smooth (a : DCF77Receiver) (sample : Bool) :
    SameDetector (a.smooth sample) a := by
  obtain ⟨e1, e2, e3, e4, -⟩ := smooth_detector a sample
  exact ⟨e1, e2, e3, e4⟩

theorem timeEdgeDelta_congr (a b : DCF77Receiver) (h : SameDetector a b) (time : Nat) :
    a.timeEdgeDelta time = b.timeEdgeDelta time := by
  unfold DCF77Receiver.timeEdgeDelta
  rw [h.timeEdge]

theorem tracking_congr (a b : DCF77Receiver) (h : SameDetector a b) (tnext c : Nat) (ch : Bool)
    (hb : Tracking b tnext c ch) : Tracking a tnext c ch := by
  refine ⟨?_, ?_, ?_, hb.cursor_le, ?_, ?_⟩
  · rw [timeEdgeDelta_congr a b h]; exact hb.delta_lo
  · rw [timeEdgeDelta_congr a b h]; exact hb.delta_hi
  · rw [h.bitptrTimebits]; exact hb.cursor
  · rw [h.changeover]; exact hb.changeover
  · rw [h.timebits]; exact hb.length

/-- A call that sees no edge, or an edge too close to the last one, leaves the
detector alone and invokes no callback. -/
theorem ignored_call (cb : Bool) (s : Nat → Bool) (t : Nat → Nat)
    (u : Nat → DCF77Timestamp) (n : Nat)
    (h : ((stateAfter cb s t u n).smooth (s n)).edgeRecognised = false
      ∨ (stateAfter cb s t u n).timeEdgeDelta (t n) < 500) :
    SameDetector (stateAfter cb s t u (n + 1)) (stateAfter cb s t u n)
      ∧ delivered cb s t u n = none := by
  have hd : ((stateAfter cb s t u n).smooth (s n)).detect (t n) (u n)
      = ((stateAfter cb s t u n).smooth (s n), none) := by
    apply detect_ignored
    rcases h with h | h
    · exact Or.inl h
    · right
      rw [timeEdgeDelta_smooth]
      exact h
  rw [stateAfter_succ, delivered_eq, hd]
  exact ⟨sameDetector_smooth _ _, rfl⟩

theorem quiet_call (cb : Bool) (K : Nat → SecondKind) (A B : Nat)
    (hK : ∀ k, K k = SecondKind.marker → k = A ∨ k = B) (t : Nat → Nat)
    (u : Nat → DCF77Timestamp) (n : Nat) (hn : ¬ (n % 32 = 6 ∧ 8 ≤ n / 32)) :
    SameDetector (stateAfter cb (signal K) t u (n + 1)) (stateAfter cb (signal K) t u n)
      ∧ delivered cb (signal K) t u n = none := by
  apply ignored_call
  left
  rw [edge_iff cb K A B hK t u n]
  exact decide_eq_false hn

theorem quiet_span (cb : Bool) (K : Nat → SecondKind) (A B : Nat)
    (hK : ∀ k, K k = SecondKind.marker → k = A ∨ k = B) (t : Nat → Nat)
    (u : Nat → DCF77Timestamp) (a : Nat) : ∀ m,
    (∀ n, a ≤ n → n < a + m → ¬ (n % 32 = 6 ∧ 8 ≤ n / 32)) →
    SameDetector (stateAfter cb (signal K) t u (a + m)) (stateAfter cb (signal K) t u a)
      ∧ ∀ n, a ≤ n → n < a + m → delivered cb (signal K) t u n = none := by
  intro m
  induction m with
  | zero =>
    intro _
    refine ⟨sameDetector_refl _, ?_⟩
    intro n h1 h2
    omega
  | succ m ih =>
    intro h
    obtain ⟨i1, i2⟩ := ih (fun n h1 h2 => h n h1 (by omega))
    obtain ⟨q1, q2⟩ := quiet_call cb K A B hK t u (a + m) (h (a + m) (by omega) (by omega))
    refine ⟨sameDetector_trans _ _ _ q1 i1, ?_⟩
    intro n h1 h2
    by_cases hn : n < a + m
    · exact i2 n h1 hn
    · have : n = a + m := by omega
      rw [this]
      exact q2

/-- The rest of a second after its edge call: 31 calls without an edge. -/
theorem quiet_rest (cb : Bool) (K : Nat → SecondKind) (A B : Nat)
    (hK : ∀ k, K k = SecondKind.marker → k = A ∨ k = B) (t : Nat → Nat)
    (u : Nat → DCF77Timestamp) (k : Nat) :
    SameDetector (stateAfter cb (signal K) t u (32 * (k + 1) + 6))
        (stateAfter cb (signal K) t u (32 * k + 7))
      ∧ ∀ n, 32 * k + 7 ≤ n → n < 32 * (k + 1) + 6 → delivered cb (signal K) t u n = none := by
  have h := quiet_span cb K A B hK t u (32 * k + 7) 31 (by intro n h1 h2; omega)
  have e : 32 * k + 7 + 31 = 32 * (k + 1) + 6 := by omega
  rw [e] at h
  exact h

/-- The calls before the first edge. -/
theorem quiet_start (cb : Bool) (K : Nat → SecondKind) (A B : Nat)
    (hK : ∀ k, K k = SecondKind.marker → k = A ∨ k = B) (t : Nat → Nat)
    (u : Nat → DCF77Timestamp) :
    SameDetector (stateAfter cb (signal K) t u 262) (DCF77Receiver.initial cb)
      ∧ ∀ n, n < 262 → delivered cb (signal K) t u n = none := by
  have h := quiet_span cb K A B hK t u 0 262 (by intro n h1 h2; omega)
  obtain ⟨h1, h2⟩ := h
  refine ⟨h1, ?_⟩
  intro n hn
  exact h2 n (Nat.zero_le _) (by omega)

/-! ## One second of a clean signal, seen by a synchronised detector -/

theorem tracking_next (st : DCF77Receiver) (t : Nat → Nat) (n c : Nat) (ch : Bool)
    (ht : ∀ n, t (n + 32) % 2 ^ 32 = (t n + 1000) % 2 ^ 32)
    (h1 : st.timeEdge = t n) (h2 : st.bitptrTimebits = Bitptr.ofPosition c) (h3 : c ≤ 60)
    (h4 : st.changeover = ch) (h5 : st.timebits.length = 8) :
    Tracking st (t (n + 32)) c ch := by
  have hd : st.timeEdgeDelta (t (n + 32)) = 1000 := by
    unfold DCF77Receiver.timeEdgeDelta
    rw [h1, ht n]
    norm_num
    omega
  exact ⟨by rw [hd]; norm_num, Or.inl (by rw [hd]; norm_num), h2, h3, h4, h5⟩

theorem edge_call (cb : Bool) (K : Nat → SecondKind) (A B : Nat)
    (hK : ∀ k, K k = SecondKind.marker → k = A ∨ k = B) (t : Nat → Nat)
    (u : Nat → DCF77Timestamp) (k : Nat) (hk8 : 8 ≤ k) :
    ((stateAfter cb (signal K) t u (32 * k + 6)).smooth
      (signal K (32 * k + 6))).edgeRecognised = true := by
  rw [edge_iff cb K A B hK t u]
  exact decide_eq_true ⟨by omega, by omega⟩

/-- A minute-marker second: the edge sets the changeover flag and leaves the
accumulator and its cursor alone; no callback in the whole second. -/
theorem track_marker (cb : Bool) (K : Nat → SecondKind) (A B : Nat)
    (hK : ∀ k, K k = SecondKind.marker → k = A ∨ k = B) (t : Nat → Nat)
    (u : Nat → DCF77Timestamp) (ht : ∀ n, t (n + 32) % 2 ^ 32 = (t n + 1000) % 2 ^ 32)
    (k c : Nat) (ch : Bool) (hk8 : 8 ≤ k) (hk : K k = SecondKind.marker)
    (htr : Tracking (stateAfter cb (signal K) t u (32 * k + 6)) (t (32 * k + 6)) c ch) :
    Tracking (stateAfter cb (signal K) t u (32 * (k + 1) + 6)) (t (32 * (k + 1) + 6)) c true
      ∧ (stateAfter cb (signal K) t u (32 * (k + 1) + 6)).timebits
          = (stateAfter cb (signal K) t u (32 * k + 6)).timebits
      ∧ ∀ n, 32 * k + 6 ≤ n → n < 32 * (k + 1) + 6 →
          delivered cb (signal K) t u n = none := by
  have h1 := edge_call cb K A B hK t u k hk8
  have hsd := sameDetector_smooth (stateAfter cb (signal K) t u (32 * k + 6))
    (signal K (32 * k + 6))
  have hdel := timeEdgeDelta_smooth (stateAfter cb (signal K) t u (32 * k + 6))
    (signal K (32 * k + 6)) (t (32 * k + 6))
  have h2 : 500 ≤ ((stateAfter cb (signal K) t u (32 * k + 6)).smooth
      (signal K (32 * k + 6))).timeEdgeDelta (t (32 * k + 6)) := by
    rw [hdel]; exact htr.delta_lo
  have h3 := (edge_counts cb K t u k).1.2 hk
  have hd := detect_noPulse _ (t (32 * k + 6)) (u (32 * k + 6)) h1 h2 h3
  have hs : stateAfter cb (signal K) t u (32 * k + 7)
      = (((stateAfter cb (signal K) t u (32 * k + 6)).smooth
          (signal K (32 * k + 6))).detect (t (32 * k + 6)) (u (32 * k + 6))).1 := rfl
  have hv : delivered cb (signal K) t u (32 * k + 6) = none := by
    rw [delivered_eq, hd]
  rw [hd] at hs
  dsimp only at hs
  obtain ⟨q1, q2⟩ := quiet_rest cb K A B hK t u k
  have e32 : 32 * (k + 1) + 6 = 32 * k + 6 + 32 := by omega
  have hcur : (stateAfter cb (signal K) t u (32 * k + 7)).bitptrTimebits
      = Bitptr.ofPosition c := by
    rw [hs]
    dsimp only
    rw [hdel, hsd.bitptrTimebits, htr.cursor]
    rcases htr.delta_hi with h | ⟨h, -⟩
    · rw [if_neg (by omega)]
    · rw [h]; split_ifs <;> rfl
  have htb : (stateAfter cb (signal K) t u (32 * k + 7)).timebits
      = (stateAfter cb (signal K) t u (32 * k + 6)).timebits := by
    rw [hs]
    exact hsd.timebits
  refine ⟨?_, ?_, ?_⟩
  · apply tracking_congr _ _ q1
    rw [e32]
    apply tracking_next _ t _ c true ht
    · rw [hs]
    · exact hcur
    · exact htr.cursor_le
    · rw [hs]
    · rw [htb]; exact htr.length
  · rw [q1.timebits, htb]
  · intro n hn1 hn2
    by_cases hn : n = 32 * k + 6
    · rw [hn]; exact hv
    · exact q2 n (by omega) hn2

/-- A pulse second: the edge writes the bit of the second at the cursor (reset
first when the changeover is pending) unless the accumulator is full, and the
callback is invoked in the edge call exactly when the changeover is pending
with the cursor at 59. -/
theorem track_pulse (cb : Bool) (K : Nat → SecondKind) (A B : Nat)
    (hK : ∀ k, K k = SecondKind.marker → k = A ∨ k = B) (t : Nat → Nat)
    (u : Nat → DCF77Timestamp) (ht : ∀ n, t (n + 32) % 2 ^ 32 = (t n + 1000) % 2 ^ 32)
    (k c : Nat) (ch : Bool) (hk8 : 8 ≤ k) (hk : K k ≠ SecondKind.marker)
    (htr : Tracking (stateAfter cb (signal K) t u (32 * k + 6)) (t (32 * k + 6)) c ch) :
    Tracking (stateAfter cb (signal K) t u (32 * (k + 1) + 6)) (t (32 * (k + 1) + 6))
        (min ((if ch = true then 0 else c) + 1) 60) false
      ∧ (∀ i, bitAt (stateAfter cb (signal K) t u (32 * (k + 1) + 6)).timebits i
          = if i = (if ch = true then 0 else c) ∧ i < 60 then decide (K k = SecondKind.bit1)
            else bitAt (stateAfter cb (signal K) t u (32 * k + 6)).timebits i)
      ∧ delivered cb (signal K) t u (32 * k + 6)
          = (if ch = true ∧ c = 59 ∧ cb = true then
              some ((u (32 * k + 6)).decode (stateAfter cb (signal K) t u (32 * k + 6)).timebits)
            else none)
      ∧ ∀ n, 32 * k + 6 < n → n < 32 * (k + 1) + 6 →
          delivered cb (signal K) t u n = none := by
  have h1 := edge_call cb K A B hK t u k hk8
  have hsd := sameDetector_smooth (stateAfter cb (signal K) t u (32 * k + 6))
    (signal K (32 * k + 6))
  have hdel := timeEdgeDelta_smooth (stateAfter cb (signal K) t u (32 * k + 6))
    (signal K (32 * k + 6)) (t (32 * k + 6))
  have h2 : 500 ≤ ((stateAfter cb (signal K) t u (32 * k + 6)).smooth
      (signal K (32 * k + 6))).timeEdgeDelta (t (32 * k + 6)) := by
    rw [hdel]; exact htr.delta_lo
  have h3 : ¬ ((stateAfter cb (signal K) t u (32 * k + 6)).smooth
      (signal K (32 * k + 6))).sumSamplesPulse > nSampleThresholdMinute :=
    fun h => hk ((edge_counts cb K t u k).1.1 h)
  have hbit := (edge_counts cb K t u k).2 hk
  obtain ⟨hd1, hd2⟩ := detect_pulse _ (t (32 * k + 6)) (u (32 * k + 6)) h1 h2 h3
  have hs : stateAfter cb (signal K) t u (32 * k + 7)
      = (((stateAfter cb (signal K) t u (32 * k + 6)).smooth
          (signal K (32 * k + 6))).detect (t (32 * k + 6)) (u (32 * k + 6))).1 := rfl
  have hcb : ((stateAfter cb (signal K) t u (32 * k + 6)).smooth
      (signal K (32 * k + 6))).callbackReceived = cb := by
    rw [(smooth_detector _ _).2.2.2.2, stateAfter_callback]
  have hcar : cursorAfterReset ((stateAfter cb (signal K) t u (32 * k + 6)).smooth
      (signal K (32 * k + 6))) (t (32 * k + 6))
      = Bitptr.ofPosition (if ch = true then 0 else c) := by
    rw [cursorAfterReset_smooth]
    unfold cursorAfterReset
    rw [htr.changeover, htr.cursor]
    cases ch
    · rcases htr.delta_hi with h | ⟨h, -⟩
      · rw [if_neg (by simp; omega)]
        simp
      · rw [h]; split_ifs <;> rfl
    · simp
  have hc0 : (if ch = true then 0 else c) ≤ 60 := by
    have := htr.cursor_le
    split_ifs <;> omega
  generalize (if ch = true then 0 else c) = c0 at hcar hc0 ⊢
  rw [hd1, hcar, nePosition_ofPosition c0 (by omega), hbit] at hs
  have hv : delivered cb (signal K) t u (32 * k + 6)
      = (if ch = true ∧ c = 59 ∧ cb = true then
          some ((u (32 * k + 6)).decode (stateAfter cb (signal K) t u (32 * k + 6)).timebits)
        else none) := by
    rw [delivered_eq, hd2, hdel, hsd.changeover, hsd.bitptrTimebits, hsd.timebits, hcb,
      htr.changeover, htr.cursor, eqPosition_ofPosition c (by have := htr.cursor_le; omega)]
    by_cases hx : ch = true ∧ c = 59 ∧ cb = true
    · obtain ⟨x1, x2, x3⟩ := hx
      have hlt : (stateAfter cb (signal K) t u (32 * k + 6)).timeEdgeDelta (t (32 * k + 6))
          ≤ 1500 := by
        rcases htr.delta_hi with h | ⟨h, -⟩
        · exact h
        · omega
      rw [if_pos ⟨hlt, x1, by simp [x2], x3⟩, if_pos ⟨x1, x2, x3⟩]
    · rw [if_neg hx, if_neg]
      rintro ⟨-, y1, y2, y3⟩
      exact hx ⟨y1, by simpa using y2, y3⟩
  obtain ⟨q1, q2⟩ := quiet_rest cb K A B hK t u k
  have e32 : 32 * (k + 1) + 6 = 32 * k + 6 + 32 := by omega
  have hlen := htr.length
  by_cases hfull : c0 = 60
  · have hne : decide (c0 ≠ 60) = false := by simp [hfull]
    rw [hne] at hs
    simp only [Bool.false_eq_true, if_false] at hs
    refine ⟨?_, ?_, hv, ?_⟩
    · apply tracking_congr _ _ q1
      rw [e32]
      apply tracking_next _ t _ _ false ht
      · rw [hs]
      · rw [hs, hfull]
        rfl
      · omega
      · rw [hs]
      · rw [hs]
        dsimp only
        rw [hsd.timebits]
        exact hlen
    · intro i
      rw [q1.timebits, hs]
      dsimp only
      rw [hsd.timebits, if_neg (by omega)]
    · intro n hn1 hn2
      exact q2 n (by omega) hn2
  · have hne : decide (c0 ≠ 60) = true := by simp [hfull]
    rw [hne] at hs
    simp only [if_true] at hs
    refine ⟨?_, ?_, hv, ?_⟩
    · apply tracking_congr _ _ q1
      rw [e32]
      apply tracking_next _ t _ _ false ht
      · rw [hs]
      · rw [hs]
        dsimp only
        rw [inc_ofPosition c0 (by omega)]
        congr 1
        omega
      · omega
      · rw [hs]
      · rw [hs]
        dsimp only
        rw [length_set, hsd.timebits]
        exact hlen
    · intro i
      rw [q1.timebits, hs]
      dsimp only
      rw [hsd.timebits, ofPosition_eq c0 (by omega), bitAt_set _ _ _ _ (by rw [hlen]; omega)]
      by_cases hi : i = c0
      · rw [if_pos hi, if_pos ⟨hi, by omega⟩]
      · rw [if_neg hi, if_neg (fun h => hi h.1)]
    · intro n hn1 hn2
      exact q2 n (by omega) hn2

/-! ## Runs of seconds -/

/-- Synchronisation: after the first recognised edge (call 262), accepted or
ignored, the detector tracks the signal with an empty accumulator. -/
theorem start_tracking (cb : Bool) (K : Nat → SecondKind) (A B : Nat)
    (hK : ∀ k, K k = SecondKind.marker → k = A ∨ k = B) (t : Nat → Nat)
    (u : Nat → DCF77Timestamp) (ht : ∀ n, t (n + 32) % 2 ^ 32 = (t n + 1000) % 2 ^ 32) :
    (500 ≤ t 262 % 2 ^ 32 →
      Tracking (stateAfter cb (signal K) t u 262) (t 262) 0 false
        ∧ ∀ n, n < 262 → delivered cb (signal K) t u n = none)
    ∧ (t 262 % 2 ^ 32 < 500 →
      Tracking (stateAfter cb (signal K) t u 294) (t 294) 0 false
        ∧ ∀ n, n < 294 → delivered cb (signal K) t u n = none) := by
  obtain ⟨s1, s2⟩ := quiet_start cb K A B hK t u
  have hd : (stateAfter cb (signal K) t u 262).timeEdgeDelta (t 262) = t 262 % 2 ^ 32 := by
    unfold DCF77Receiver.timeEdgeDelta
    rw [s1.timeEdge]
    show (t 262 % 2 ^ 32 + 2 ^ 32 - 0 % 2 ^ 32) % 2 ^ 32 = t 262 % 2 ^ 32
    norm_num
  have hinit : ∀ time, 500 ≤ (DCF77Receiver.initial cb).timeEdgeDelta time →
      Tracking (DCF77Receiver.initial cb) time 0 false := by
    intro time h
    exact ⟨h, Or.inr ⟨rfl, rfl⟩, rfl, by norm_num, rfl, rfl⟩
  constructor
  · intro h
    refine ⟨?_, s2⟩
    apply tracking_congr _ _ s1
    apply hinit
    rw [← timeEdgeDelta_congr _ _ s1, hd]
    exact h
  · intro h
    obtain ⟨i1, i2⟩ := ignored_call cb (signal K) t u 262 (Or.inr (by rw [hd]; exact h))
    obtain ⟨q1, q2⟩ := quiet_rest cb K A B hK t u 8
    have hsd := sameDetector_trans _ _ _ (sameDetector_trans _ _ _ q1 i1) s1
    refine ⟨?_, ?_⟩
    · apply tracking_congr _ _ hsd
      apply hinit
      unfold DCF77Receiver.timeEdgeDelta
      show 500 ≤ (t (262 + 32) % 2 ^ 32 + 2 ^ 32 - 0 % 2 ^ 32) % 2 ^ 32
      rw [ht 262]
      norm_num
      norm_num at h
      omega
    · intro n hn
      by_cases h1 : n < 262
      · exact s2 n h1
      · by_cases h2 : n = 262
        · rw [h2]; exact i2
        · exact q2 n (by omega) (by omega)

/-- A run of `m` pulse seconds with no changeover pending: each writes its bit
at the next position until the accumulator is full; no callback. -/
theorem pulses_run (cb : Bool) (K : Nat → SecondKind) (A B : Nat)
    (hK : ∀ k, K k = SecondKind.marker → k = A ∨ k = B) (t : Nat → Nat)
    (u : Nat → DCF77Timestamp) (ht : ∀ n, t (n + 32) % 2 ^ 32 = (t n + 1000) % 2 ^ 32)
    (k0 c : Nat) (hk8 : 8 ≤ k0)
    (htr : Tracking (stateAfter cb (signal K) t u (32 * k0 + 6)) (t (32 * k0 + 6)) c false) :
    ∀ m, (∀ k, k0 ≤ k → k < k0 + m → K k ≠ SecondKind.marker) →
      Tracking (stateAfter cb (signal K) t u (32 * (k0 + m) + 6)) (t (32 * (k0 + m) + 6))
          (min (c + m) 60) false
        ∧ (∀ i, c ≤ i → i < min (c + m) 60 →
            bitAt (stateAfter cb (signal K) t u (32 * (k0 + m) + 6)).timebits i
              = decide (K (k0 + (i - c)) = SecondKind.bit1))
        ∧ (∀ i, i < c →
            bitAt (stateAfter cb (signal K) t u (32 * (k0 + m) + 6)).timebits i
              = bitAt (stateAfter cb (signal K) t u (32 * k0 + 6)).timebits i)
        ∧ ∀ n, 32 * k0 + 6 ≤ n → n < 32 * (k0 + m) + 6 →
            delivered cb (signal K) t u n = none := by
  intro m
  induction m with
  | zero =>
    intro _
    have hc := htr.cursor_le
    have e : min (c + 0) 60 = c := by omega
    rw [e]
    refine ⟨htr, ?_, ?_, ?_⟩
    · intro i h1 h2; omega
    · intro i _; rfl
    · intro n h1 h2; omega
  | succ m ih =>
    intro hm
    obtain ⟨i1, i2, i3, i4⟩ := ih (fun k h1 h2 => hm k h1 (by omega))
    obtain ⟨p1, p2, p3, p4⟩ := track_pulse cb K A B hK t u ht (k0 + m) (min (c + m) 60) false
      (by omega) (hm (k0 + m) (by omega) (by omega)) i1
    simp only [Bool.false_eq_true, if_false, false_and] at p1 p2 p3
    have e1 : min (min (c + m) 60 + 1) 60 = min (c + (m + 1)) 60 := by omega
    have e2 : k0 + m + 1 = k0 + (m + 1) := by omega
    rw [e1, e2] at p1
    rw [e2] at p2 p4
    refine ⟨p1, ?_, ?_, ?_⟩
    · intro i h1 h2
      rw [p2 i]
      by_cases hi : i = min (c + m) 60
      · have h60 : i < 60 := by omega
        rw [if_pos ⟨hi, h60⟩]
        have : i - c = m := by omega
        rw [this]
      · rw [if_neg (fun h => hi h.1)]
        exact i2 i h1 (by omega)
    · intro i h1
      rw [p2 i, if_neg (by omega)]
      exact i3 i h1
    · intro n h1 h2
      by_cases hn : n < 32 * (k0 + m) + 6
      · exact i4 n h1 hn
      · by_cases hn2 : n = 32 * (k0 + m) + 6
        · rw [hn2]; exact p3
        · exact p4 n (by omega) h2

/-! ## The decoder reads bits 0..58 only -/

theorem bitfield_congr (a b : List Nat) : ∀ width offset,
    (∀ i, offset ≤ i → i < offset + width → bitAt a i = bitAt b i) →
    bitfield a offset width = bitfield b offset width := by
  intro width
  induction width with
  | zero => intro offset _; rfl
  | succ w ih =>
    intro offset h
    rw [bitfield, bitfield, h offset (le_refl _) (by omega),
      ih (offset + 1) (fun i h1 h2 => h i (by omega) (by omega))]

theorem ofBytes_congr (a b : List Nat) (h : ∀ i, i < 59 → bitAt a i = bitAt b i) :
    DCF77Timestruct.ofBytes a = DCF77Timestruct.ofBytes b := by
  have hb : ∀ offset width, offset + width ≤ 59 →
      bitfield a offset width = bitfield b offset width := by
    intro offset width hw
    exact bitfield_congr a b width offset (fun i _ h2 => h i (by omega))
  unfold DCF77Timestruct.ofBytes
  rw [hb 0 1 (by norm_num), hb 1 14 (by norm_num), hb 15 1 (by norm_num),
    hb 16 1 (by norm_num), hb 17 2 (by norm_num), hb 19 1 (by norm_num),
    hb 20 1 (by norm_num), hb 21 4 (by norm_num), hb 25 3 (by norm_num),
    hb 28 1 (by norm_num), hb 29 4 (by norm_num), hb 33 2 (by norm_num),
    hb 35 1 (by norm_num), hb 36 4 (by norm_num), hb 40 2 (by norm_num),
    hb 42 3 (by norm_num), hb 45 4 (by norm_num), hb 49 1 (by norm_num),
    hb 50 4 (by norm_num), hb 54 4 (by norm_num), hb 58 1 (by norm_num),
    hb 21 8 (by norm_num), hb 29 7 (by norm_num), hb 40 8 (by norm_num),
    hb 48 8 (by norm_num), hb 56 3 (by norm_num)]

theorem decode_congr (self : DCF77Timestamp) (a b : List Nat)
    (h : ∀ i, i < 59 → bitAt a i = bitAt b i) : self.decode a = self.decode b := by
  unfold DCF77Timestamp.decode
  rw [ofBytes_congr a b h]

/-! ## The seconds of the test signal -/

theorem ofBit_ne_marker (b : Bool) : SecondKind.ofBit b ≠ SecondKind.marker := by
  cases b <;> decide

theorem ofBit_bit1 (b : Bool) : decide (SecondKind.ofBit b = SecondKind.bit1) = b := by
  cases b <;> decide

theorem cleanKinds_marker (N : Nat) (pre : Nat → Bool) (f : List Nat) (last : Bool) (k : Nat)
    (h : cleanKinds N pre f last k = SecondKind.marker) : k = N ∨ k = N + 60 := by
  unfold cleanKinds at h
  split_ifs at h with h1 h2 h3 h4
  · exact absurd h (ofBit_ne_marker _)
  · exact Or.inl h2
  · exact absurd h (ofBit_ne_marker _)
  · exact Or.inr h4
  · exact absurd h (ofBit_ne_marker _)

theorem cleanKinds_at (N : Nat) (pre : Nat → Bool) (f : List Nat) (last : Bool) :
    cleanKinds N pre f last N = SecondKind.marker
      ∧ cleanKinds N pre f last (N + 60) = SecondKind.marker := by
  unfold cleanKinds
  constructor
  · rw [if_neg (by omega), if_pos rfl]
  · rw [if_neg (by omega), if_neg (by omega), if_neg (by omega), if_pos rfl]

theorem cleanKinds_frame (N : Nat) (pre : Nat → Bool) (f : List Nat) (last : Bool) (i : Nat)
    (hi : i < 59) :
    cleanKinds N pre f last (N + 1 + i) = SecondKind.ofBit (bitAt f i) := by
  unfold cleanKinds
  rw [if_neg (by omega), if_neg (by omega), if_pos (by omega)]
  have : N + 1 + i - (N + 1) = i := by omega
  rw [this]

theorem cleanKinds_pulse (N : Nat) (pre : Nat → Bool) (f : List Nat) (last : Bool) (k : Nat)
    (h1 : k ≠ N) (h2 : k ≠ N + 60) : cleanKinds N pre f last k ≠ SecondKind.marker := by
  intro h
  rcases cleanKinds_marker N pre f last k h with h | h
  · exact h1 h
  · exact h2 h

theorem sampleClock_step (n : Nat) :
    sampleClock (n + 32) % 2 ^ 32 = (sampleClock n + 1000) % 2 ^ 32 := by
  unfold sampleClock
  have : (n + 32) * 1000 / 32 = n * 1000 / 32 + 1000 := by omega
  rw [this]

/-! ## The preamble and the frame -/

/-- The preamble: `N ≥ 8` pulse seconds and a minute marker. On entry to the
edge call of the next second the cursor stands at the number of preamble bits
collected (at most 60), with the changeover pending unless the marker edge was
the ignored first edge; no callback so far. -/
theorem preamble_end (cb : Bool) (K : Nat → SecondKind) (A B : Nat)
    (hK : ∀ k, K k = SecondKind.marker → k = A ∨ k = B) (t : Nat → Nat)
    (u : Nat → DCF77Timestamp) (ht : ∀ n, t (n + 32) % 2 ^ 32 = (t n + 1000) % 2 ^ 32)
    (N : Nat) (hN : 8 ≤ N) (hpre : ∀ k, k < N → K k ≠ SecondKind.marker)
    (hmark : K N = SecondKind.marker) :
    (500 ≤ t 262 % 2 ^ 32 →
      Tracking (stateAfter cb (signal K) t u (32 * (N + 1) + 6)) (t (32 * (N + 1) + 6))
          (min (N - 8) 60) true
        ∧ ∀ n, n < 32 * (N + 1) + 6 → delivered cb (signal K) t u n = none)
    ∧ (t 262 % 2 ^ 32 < 500 →
      Tracking (stateAfter cb (signal K) t u (32 * (N + 1) + 6)) (t (32 * (N + 1) + 6))
          (min (N - 9) 60) (decide (9 ≤ N))
        ∧ ∀ n, n < 32 * (N + 1) + 6 → delivered cb (signal K) t u n = none) := by
  obtain ⟨sa, sb⟩ := start_tracking cb K A B hK t u ht
  constructor
  · intro h
    obtain ⟨s1, s2⟩ := sa h
    have e0 : (262 : Nat) = 32 * 8 + 6 := rfl
    rw [e0] at s1
    obtain ⟨r1, -, -, r4⟩ := pulses_run cb K A B hK t u ht 8 0 (le_refl _) s1 (N - 8)
      (fun k h1 h2 => hpre k (by omega))
    have e1 : 8 + (N - 8) = N := by omega
    have e2 : 0 + (N - 8) = N - 8 := by omega
    rw [e1, e2] at r1
    rw [e1] at r4
    obtain ⟨m1, -, m3⟩ := track_marker cb K A B hK t u ht N _ false hN hmark r1
    refine ⟨m1, ?_⟩
    intro n hn
    by_cases c1 : n < 262
    · exact s2 n c1
    · by_cases c2 : n < 32 * N + 6
      · exact r4 n (by omega) c2
      · exact m3 n (by omega) hn
  · intro h
    obtain ⟨s1, s2⟩ := sb h
    have e0 : (294 : Nat) = 32 * 9 + 6 := rfl
    rw [e0] at s1
    by_cases h9 : 9 ≤ N
    · obtain ⟨r1, -, -, r4⟩ := pulses_run cb K A B hK t u ht 9 0 (by norm_num) s1 (N - 9)
        (fun k h1 h2 => hpre k (by omega))
      have e1 : 9 + (N - 9) = N := by omega
      have e2 : 0 + (N - 9) = N - 9 := by omega
      rw [e1, e2] at r1
      rw [e1] at r4
      obtain ⟨m1, -, m3⟩ := track_marker cb K A B hK t u ht N _ false hN hmark r1
      rw [decide_eq_true h9]
      refine ⟨m1, ?_⟩
      intro n hn
      by_cases c1 : n < 294
      · exact s2 n c1
      · by_cases c2 : n < 32 * N + 6
        · exact r4 n (by omega) c2
        · exact m3 n (by omega) hn
    · have e8 : N = 8 := by omega
      subst e8
      rw [decide_eq_false h9]
      exact ⟨s1, fun n hn => s2 n hn⟩

/-- The frame: 59 pulse seconds carrying bits 0..58 of `f`, then a minute
marker, starting at second `M` with an empty or reset accumulator. Only the
first edge call can invoke the callback, and only for a full preamble; at the
end the accumulator holds bits 0..58 of `f` with the changeover pending. -/
theorem frame_run (cb : Bool) (K : Nat → SecondKind) (A B : Nat)
    (hK : ∀ k, K k = SecondKind.marker → k = A ∨ k = B) (t : Nat → Nat)
    (u : Nat → DCF77Timestamp) (ht : ∀ n, t (n + 32) % 2 ^ 32 = (t n + 1000) % 2 ^ 32)
    (f : List Nat) (M c : Nat) (ch : Bool) (hM : 8 ≤ M)
    (hfr : ∀ i, i < 59 → K (M + i) = SecondKind.ofBit (bitAt f i))
    (hmark : K (M + 59) = SecondKind.marker)
    (htr : Tracking (stateAfter cb (signal K) t u (32 * M + 6)) (t (32 * M + 6)) c ch)
    (hc : ch = false → c = 0) :
    delivered cb (signal K) t u (32 * M + 6)
        = (if ch = true ∧ c = 59 ∧ cb = true then
            some ((u (32 * M + 6)).decode (stateAfter cb (signal K) t u (32 * M + 6)).timebits)
          else none)
      ∧ Tracking (stateAfter cb (signal K) t u (32 * (M + 60) + 6)) (t (32 * (M + 60) + 6))
          59 true
      ∧ (∀ i, i < 59 →
          bitAt (stateAfter cb (signal K) t u (32 * (M + 60) + 6)).timebits i = bitAt f i)
      ∧ ∀ n, 32 * M + 6 < n → n < 32 * (M + 60) + 6 →
          delivered cb (signal K) t u n = none := by
  have hne : ∀ i, i < 59 → K (M + i) ≠ SecondKind.marker := by
    intro i hi
    rw [hfr i hi]
    exact ofBit_ne_marker _
  have hb1 : ∀ i, i < 59 → decide (K (M + i) = SecondKind.bit1) = bitAt f i := by
    intro i hi
    rw [hfr i hi]
    exact ofBit_bit1 _
  have hc0 : (if ch = true then 0 else c) = 0 := by
    cases ch
    · simp [hc rfl]
    · simp
  obtain ⟨p1, p2, p3, p4⟩ := track_pulse cb K A B hK t u ht M c ch hM (hne 0 (by norm_num)) htr
  rw [hc0] at p1 p2
  have e1 : min (0 + 1) 60 = 1 := by norm_num
  rw [e1] at p1
  obtain ⟨r1, r2, r3, r4⟩ := pulses_run cb K A B hK t u ht (M + 1) 1 (by omega) p1 58
    (fun k h1 h2 => by
      have e : k = M + (k - M) := by omega
      rw [e]
      exact hne (k - M) (by omega))
  have e2 : min (1 + 58) 60 = 59 := by norm_num
  have e3 : M + 1 + 58 = M + 59 := by omega
  rw [e2, e3] at r1 r2
  rw [e3] at r3 r4
  obtain ⟨m1, m2, m3⟩ := track_marker cb K A B hK t u ht (M + 59) 59 false (by omega) hmark r1
  have e4 : M + 59 + 1 = M + 60 := by omega
  rw [e4] at m1 m2 m3
  refine ⟨p3, m1, ?_, ?_⟩
  · intro i hi
    rw [m2]
    by_cases h0 : i = 0
    · subst h0
      rw [r3 0 (by norm_num), p2 0, if_pos ⟨rfl, by norm_num⟩]
      exact hb1 0 (by norm_num)
    · rw [r2 i (by omega) hi]
      have e : M + 1 + (i - 1) = M + i := by omega
      rw [e]
      exact hb1 i hi
  · intro n h1 h2
    by_cases c1 : n < 32 * (M + 1) + 6
    · exact p4 n h1 c1
    · by_cases c2 : n < 32 * (M + 59) + 6
      · exact r4 n (by omega) c2
      · exact m3 n (by omega) h2

/-- The edge call of the second after the frame delivers the decoded frame. -/
theorem frame_delivered (cb : Bool) (K : Nat → SecondKind) (A B : Nat)
    (hK : ∀ k, K k = SecondKind.marker → k = A ∨ k = B) (t : Nat → Nat)
    (u : Nat → DCF77Timestamp) (ht : ∀ n, t (n + 32) % 2 ^ 32 = (t n + 1000) % 2 ^ 32)
    (f : List Nat) (k : Nat) (hk8 : 8 ≤ k) (hk : K k ≠ SecondKind.marker)
    (htr : Tracking (stateAfter cb (signal K) t u (32 * k + 6)) (t (32 * k + 6)) 59 true)
    (hbits : ∀ i, i < 59 →
      bitAt (stateAfter cb (signal K) t u (32 * k + 6)).timebits i = bitAt f i) :
    delivered cb (signal K) t u (32 * k + 6)
      = if cb = true then some ((u (32 * k + 6)).decode f) else none := by
  obtain ⟨-, -, p3, -⟩ := track_pulse cb K A B hK t u ht k 59 true hk8 hk htr
  rw [p3, decode_congr _ _ f hbits]
  cases cb <;> simp

/-! ## One clean minute -/

/-- A preamble that fills the accumulator to exactly 59 bits makes the first
edge of the frame invoke the callback: 67 preamble seconds when the first
recognised edge (call 262) is accepted, 68 when it is ignored. -/
theorem preamble_full_callback (N : Nat) (pre : Nat → Bool) (f : List Nat) (last : Bool)
    (t : Nat → Nat) (u : Nat → DCF77Timestamp)
    (hfull : N = if 500 ≤ t 262 % 2 ^ 32 then 67 else 68)
    (ht : ∀ n, t (n + 32) % 2 ^ 32 = (t n + 1000) % 2 ^ 32) :
    delivered true (signal (cleanKinds N pre f last)) t u (32 * (N + 1) + 6)
      = some ((u (32 * (N + 1) + 6)).decode
          (stateAfter true (signal (cleanKinds N pre f last)) t u (32 * (N + 1) + 6)).timebits) := by
  have hK := cleanKinds_marker N pre f last
  have hN : 8 ≤ N := by rw [hfull]; split_ifs <;> norm_num
  obtain ⟨pa, pb⟩ := preamble_end true _ N (N + 60) hK t u ht N hN
    (fun k hk => cleanKinds_pulse N pre f last k (by omega) (by omega))
    (cleanKinds_at N pre f last).1
  have hfr : ∀ i, i < 59 →
      cleanKinds N pre f last (N + 1 + i) = SecondKind.ofBit (bitAt f i) :=
    fun i hi => cleanKinds_frame N pre f last i hi
  have hmark : cleanKinds N pre f last (N + 1 + 59) = SecondKind.marker :=
    (cleanKinds_at N pre f last).2
  by_cases h : 500 ≤ t 262 % 2 ^ 32
  · rw [if_pos h] at hfull
    obtain ⟨tr, -⟩ := pa h
    obtain ⟨d, -⟩ := frame_run true _ N (N + 60) hK t u ht f (N + 1) _ true (by omega) hfr hmark
      tr (by intro e; cases e)
    rw [d, if_pos ⟨rfl, by omega, rfl⟩]
  · rw [if_neg h] at hfull
    obtain ⟨tr, -⟩ := pb (by omega)
    have h9 : decide (9 ≤ N) = true := decide_eq_true (by omega)
    rw [h9] at tr
    obtain ⟨d, -⟩ := frame_run true _ N (N + 60) hK t u ht f (N + 1) _ true (by omega) hfr hmark
      tr (by intro e; cases e)
    rw [d, if_pos ⟨rfl, by omega, rfl⟩]

/-- C5 (counterexample): with 67 clean preamble seconds the callback is also
invoked in call 2182, the first edge of the frame, long before the last call
4102: the preamble left exactly 59 bits in the accumulator. -/
theorem clean_minute_second_callback :
    (blankTimestamp.decode sampleFrame).status = Status.VALID
      ∧ (∀ n, sampleClock (n + 32) % 2 ^ 32 = (sampleClock n + 1000) % 2 ^ 32)
      ∧ 32 * (67 + 1) + 6 < 32 * (67 + 61) + 6
      ∧ delivered true (signal (cleanKinds 67 (fun _ => false) sampleFrame false)) sampleClock
          (fun _ => blankTimestamp) (32 * (67 + 1) + 6) ≠ none := by
  refine ⟨by decide, sampleClock_step, by norm_num, ?_⟩
  rw [preamble_full_callback 67 (fun _ => false) sampleFrame false sampleClock
    (fun _ => blankTimestamp) (by decide) sampleClock_step]
  exact Option.some_ne_none _

/-- C5 (amended): a clean minute after a preamble of `N ≥ 8` pulse seconds that
does not fill the accumulator to exactly 59 bits (`N ≠ 67` when the first
recognised edge, call 262, is accepted; `N ≠ 68` when it is ignored) invokes
the callback exactly once, in the last call, with status `VALID` and the
fields encoded in the frame. -/
theorem clean_minute_one_callback (N : Nat) (pre : Nat → Bool) (f : List Nat) (last : Bool)
    (t : Nat → Nat) (u : Nat → DCF77Timestamp) (hN : 8 ≤ N)
    (hex : N ≠ if 500 ≤ t 262 % 2 ^ 32 then 67 else 68)
    (hf : (blankTimestamp.decode f).status = Status.VALID)
    (ht : ∀ n, t (n + 32) % 2 ^ 32 = (t n + 1000) % 2 ^ 32) :
    (∀ n, n < 32 * (N + 61) + 6 →
        delivered true (signal (cleanKinds N pre f last)) t u n = none)
      ∧ delivered true (signal (cleanKinds N pre f last)) t u (32 * (N + 61) + 6)
        = some
          { status := Status.VALID
            time :=
              { minute := 10 * bitfield f 25 3 + bitfield f 21 4
                hour := 10 * bitfield f 33 2 + bitfield f 29 4
                dst := bitAt f 17 }
            date :=
              { day := 10 * bitfield f 40 2 + bitfield f 36 4
                weekday := bitfield f 42 3
                month := 10 * bitfield f 49 1 + bitfield f 45 4
                year := 10 * bitfield f 54 4 + bitfield f 50 4 } } := by
  have hK := cleanKinds_marker N pre f last
  obtain ⟨pa, pb⟩ := preamble_end true _ N (N + 60) hK t u ht N hN
    (fun k hk => cleanKinds_pulse N pre f last k (by omega) (by omega))
    (cleanKinds_at N pre f last).1
  have hfr : ∀ i, i < 59 →
      cleanKinds N pre f last (N + 1 + i) = SecondKind.ofBit (bitAt f i) :=
    fun i hi => cleanKinds_frame N pre f last i hi
  have hmark : cleanKinds N pre f last (N + 1 + 59) = SecondKind.marker :=
    (cleanKinds_at N pre f last).2
  have hpre : ∃ c ch,
      Tracking (stateAfter true (signal (cleanKinds N pre f last)) t u (32 * (N + 1) + 6))
        (t (32 * (N + 1) + 6)) c ch
      ∧ (ch = false → c = 0) ∧ ¬ (ch = true ∧ c = 59 ∧ true = true)
      ∧ ∀ n, n < 32 * (N + 1) + 6 →
          delivered true (signal (cleanKinds N pre f last)) t u n = none := by
    by_cases h : 500 ≤ t 262 % 2 ^ 32
    · rw [if_pos h] at hex
      obtain ⟨tr, nd⟩ := pa h
      refine ⟨_, _, tr, ?_, ?_, nd⟩
      · intro e
        cases e
      · rintro ⟨-, e, -⟩
        omega
    · rw [if_neg h] at hex
      obtain ⟨tr, nd⟩ := pb (by omega)
      refine ⟨_, _, tr, ?_, ?_, nd⟩
      · intro e
        have := of_decide_eq_false e
        omega
      · rintro ⟨-, e, -⟩
        omega
  obtain ⟨c, ch, tr, hc, hno, nd⟩ := hpre
  obtain ⟨d1, d2, d3, d4⟩ := frame_run true _ N (N + 60) hK t u ht f (N + 1) c ch (by omega)
    hfr hmark tr hc
  rw [if_neg hno] at d1
  have e61 : N + 1 + 60 = N + 61 := by omega
  rw [e61] at d2 d3 d4
  have dl := frame_delivered true _ N (N + 60) hK t u ht f (N + 61) (by omega)
    (cleanKinds_pulse N pre f last (N + 61) (by omega) (by omega)) d2 d3
  rw [if_pos rfl] at dl
  constructor
  · intro n hn
    by_cases c1 : n < 32 * (N + 1) + 6
    · exact nd n c1
    · by_cases c2 : n = 32 * (N + 1) + 6
      · rw [c2]; exact d1
      · exact d4 n (by omega) hn
  · rw [dl]
    have hv : ((u (32 * (N + 61) + 6)).decode f).status = Status.VALID := by
      rw [decode_status] at hf ⊢
      exact hf
    have hchk := (decode_valid_checks _ f).1 hv
    rw [decode_of_valid _ f hv]
    have z := bitfield_two f 17
    simp only [Nat.reduceAdd] at z
    obtain ⟨-, z1, -, c1, c2, -, c3, c4, c5, -, c6, c7, c8, c9, c10, c11, c12, c13, c14, -⟩ := hchk
    have em : (bitfield f 25 3 * 10 + bitfield f 21 4) % 256
        = 10 * bitfield f 25 3 + bitfield f 21 4 := by omega
    have eh : (bitfield f 33 2 * 10 + bitfield f 29 4) % 256
        = 10 * bitfield f 33 2 + bitfield f 29 4 := by omega
    have ed : (bitfield f 40 2 * 10 + bitfield f 36 4) % 256
        = 10 * bitfield f 40 2 + bitfield f 36 4 := by omega
    have eo : (bitfield f 49 1 * 10 + bitfield f 45 4) % 256
        = 10 * bitfield f 49 1 + bitfield f 45 4 := by omega
    have ey : (bitfield f 54 4 * 10 + bitfield f 50 4) % 256
        = 10 * bitfield f 54 4 + bitfield f 50 4 := by omega
    have ez : (if bitfield f 17 2 = 1 then true else false) = bitAt f 17 := by
      rw [z]
      revert z1
      cases bitAt f 17 <;> cases bitAt f 18 <;> simp
    rw [em, eh, ed, eo, ey, ez]

theorem clean_minute_one_callback_witness :
    (∀ n, n < 32 * (8 + 61) + 6 →
        delivered true (signal (cleanKinds 8 (fun _ => false) sampleFrame false)) sampleClock
          (fun _ => blankTimestamp) n = none)
      ∧ delivered true (signal (cleanKinds 8 (fun _ => false) sampleFrame false)) sampleClock
          (fun _ => blankTimestamp) (32 * (8 + 61) + 6)
        = some
          { status := Status.VALID
            time := { minute := 37, hour := 23, dst := true }
            date := { day := 31, weekday := 6, month := 10, year := 26 } } :=
  clean_minute_one_callback 8 (fun _ => false) sampleFrame false sampleClock
    (fun _ => blankTimestamp) (by decide) (by decide) (by decide) sampleClock_step

/-! ## Ignored, late and accepted edges -/

theorem processSample_eq (self : DCF77Receiver) (sample : Bool) (time : Nat)
    (uninit : DCF77Timestamp) :
    self.processSample sample time uninit = (self.smooth sample).detect time uninit := rfl

/-- An accepted edge: the cursor is reset when the edge comes late, the time of
the edge is stored, and the edge is classified. -/
theorem detect_accepted (s : DCF77Receiver) (time : Nat) (uninit : DCF77Timestamp)
    (h1 : s.edgeRecognised = true) (h2 : 500 ≤ s.timeEdgeDelta time) :
    s.detect time uninit
      = DCF77Receiver.classify
          { (if s.timeEdgeDelta time > 1500 then { s with bitptrTimebits := Bitptr.ofPosition 0 }
             else s) with timeEdge := time } uninit := by
  have h2' : ¬ s.timeEdgeDelta time < 500 := by omega
  unfold DCF77Receiver.detect DCF77Receiver.classify
  simp only [h1, h2', if_true, if_false]

theorem classify_timeEdge (s : DCF77Receiver) (uninit : DCF77Timestamp) :
    (s.classify uninit).1.timeEdge = s.timeEdge := by
  unfold DCF77Receiver.classify
  dsimp only
  split_ifs <;> rfl

/-- C11: a call that sees no edge, or an edge less than 500 ms after the last
accepted one, leaves the time of the last edge, the accumulator, its cursor and
the changeover flag as they were and does not invoke the callback; an edge with
delta exactly 500 is accepted. -/
theorem ignored_edge_no_effect (self : DCF77Receiver) (sample : Bool) (time : Nat)
    (uninit : DCF77Timestamp) :
    (((self.smooth sample).edgeRecognised = false ∨ self.timeEdgeDelta time < 500) →
      (self.processSample sample time uninit).1.timeEdge = self.timeEdge
        ∧ (self.processSample sample time uninit).1.timebits = self.timebits
        ∧ (self.processSample sample time uninit).1.bitptrTimebits = self.bitptrTimebits
        ∧ (self.processSample sample time uninit).1.changeover = self.changeover
        ∧ (self.processSample sample time uninit).2 = none)
    ∧ ((self.smooth sample).edgeRecognised = true → self.timeEdgeDelta time = 500 →
        (self.processSample sample time uninit).1.timeEdge = time) := by
  constructor
  · intro h
    have hd : (self.smooth sample).detect time uninit = (self.smooth sample, none) := by
      apply detect_ignored
      rcases h with h | h
      · exact Or.inl h
      · right
        rw [timeEdgeDelta_smooth]
        exact h
    obtain ⟨e1, e2, e3, e4, -⟩ := smooth_detector self sample
    rw [processSample_eq, hd]
    exact ⟨e1, e2, e3, e4, rfl⟩
  · intro h1 h2
    rw [processSample_eq, detect_accepted _ _ _ h1 (by rw [timeEdgeDelta_smooth]; omega),
      classify_timeEdge]

theorem ignored_edge_no_effect_witness :
    (stateBeforeEdge 0b000111 false 5).timeEdgeDelta 499 < 500
      ∧ ((stateBeforeEdge 0b000111 false 5).processSample true 499
          blankTimestamp).1.bitptrTimebits = Bitptr.ofPosition 5
      ∧ ((stateBeforeEdge 0b000111 false 5).processSample true 500
          blankTimestamp).1.timeEdge = 500 :=
  ⟨by decide,
    ((ignored_edge_no_effect (stateBeforeEdge 0b000111 false 5) true 499 blankTimestamp).1
      (Or.inr (by decide))).2.2.1,
    (ignored_edge_no_effect (stateBeforeEdge 0b000111 false 5) true 500 blankTimestamp).2
      (by decide) (by decide)⟩

/-- C12: an edge more than 1500 ms after the last accepted one is accepted with
the cursor reset to 0 before the classification; an edge with delta exactly
1500 is accepted without the reset; in both cases the time of the edge is
stored. -/
theorem late_edge_resets_cursor (self : DCF77Receiver) (sample : Bool) (time : Nat)
    (uninit : DCF77Timestamp) (hedge : (self.smooth sample).edgeRecognised = true) :
    (1500 < self.timeEdgeDelta time →
      self.processSample sample time uninit
        = DCF77Receiver.classify
            { self.smooth sample with
              bitptrTimebits := Bitptr.ofPosition 0
              timeEdge := time } uninit)
    ∧ (self.timeEdgeDelta time = 1500 →
      self.processSample sample time uninit
        = DCF77Receiver.classify { self.smooth sample with timeEdge := time } uninit)
    ∧ (500 ≤ self.timeEdgeDelta time →
      (self.processSample sample time uninit).1.timeEdge = time) := by
  have hdel := timeEdgeDelta_smooth self sample time
  refine ⟨?_, ?_, ?_⟩
  · intro h
    rw [processSample_eq, detect_accepted _ _ _ hedge (by rw [hdel]; omega),
      if_pos (by rw [hdel]; exact h)]
  · intro h
    rw [processSample_eq, detect_accepted _ _ _ hedge (by rw [hdel]; omega),
      if_neg (by rw [hdel]; omega)]
  · intro h
    rw [processSample_eq, detect_accepted _ _ _ hedge (by rw [hdel]; exact h),
      classify_timeEdge]

theorem late_edge_resets_cursor_witness :
    ((stateBeforeEdge 0b000111 false 5).smooth true).edgeRecognised = true
      ∧ 1500 < (stateBeforeEdge 0b000111 false 5).timeEdgeDelta 1501
      ∧ ((stateBeforeEdge 0b000111 false 5).processSample true 1501
          blankTimestamp).1.bitptrTimebits = Bitptr.ofPosition 1
      ∧ ((stateBeforeEdge 0b000111 false 5).processSample true 1500
          blankTimestamp).1.bitptrTimebits = Bitptr.ofPosition 6 :=
  ⟨by decide, by decide,
    (congrArg (fun r => r.1.bitptrTimebits)
      ((late_edge_resets_cursor (stateBeforeEdge 0b000111 false 5) true 1501 blankTimestamp
        (by decide)).1 (by decide))).trans (by decide),
    (congrArg (fun r => r.1.bitptrTimebits)
      ((late_edge_resets_cursor (stateBeforeEdge 0b000111 false 5) true 1500 blankTimestamp
        (by decide)).2.1 (by decide))).trans (by decide)⟩

/-- C13: an accepted edge more than 1500 ms after the last one never invokes the
callback, whatever the changeover flag and the cursor were on entry, and leaves
the cursor at 0 (no-pulse edge) or at 1 (real-pulse edge). -/
theorem late_edge_no_callback (self : DCF77Receiver) (sample : Bool) (time : Nat)
    (uninit : DCF77Timestamp) (hedge : (self.smooth sample).edgeRecognised = true)
    (hlate : 1500 < self.timeEdgeDelta time) :
    (self.processSample sample time uninit).2 = none
      ∧ ((self.smooth sample).sumSamplesPulse > nSampleThresholdMinute →
          (self.processSample sample time uninit).1.bitptrTimebits = Bitptr.ofPosition 0)
      ∧ (¬ (self.smooth sample).sumSamplesPulse > nSampleThresholdMinute →
          (self.processSample sample time uninit).1.bitptrTimebits = Bitptr.ofPosition 1) := by
  have hdel := timeEdgeDelta_smooth self sample time
  have h2 : 500 ≤ (self.smooth sample).timeEdgeDelta time := by rw [hdel]; omega
  by_cases hp : (self.smooth sample).sumSamplesPulse > nSampleThresholdMinute
  · have hd := detect_noPulse _ time uninit hedge h2 hp
    rw [processSample_eq, hd]
    refine ⟨rfl, ?_, fun h => absurd hp h⟩
    intro _
    dsimp only
    rw [if_pos (by rw [hdel]; exact hlate)]
  · obtain ⟨d1, d2⟩ := detect_pulse _ time uninit hedge h2 hp
    have hcar : cursorAfterReset (self.smooth sample) time = Bitptr.ofPosition 0 := by
      unfold cursorAfterReset
      rw [if_pos (Or.inl (by rw [hdel]; exact hlate))]
    rw [processSample_eq]
    refine ⟨?_, fun h => absurd h hp, ?_⟩
    · rw [d2, if_neg]
      rintro ⟨h, -⟩
      rw [hdel] at h
      omega
    · intro _
      rw [d1, hcar, if_pos (by decide)]
      rfl

theorem late_edge_no_callback_witness :
    ((stateBeforeEdge 0b000000 true 59).smooth true).edgeRecognised = true
      ∧ 1500 < (stateBeforeEdge 0b000000 true 59).timeEdgeDelta 2000
      ∧ ((stateBeforeEdge 0b000000 true 59).processSample true 2000 blankTimestamp).2 = none
      ∧ ((stateBeforeEdge 0b000000 true 59).processSample true 2000
          blankTimestamp).1.bitptrTimebits = Bitptr.ofPosition 1 :=
  ⟨by decide, by decide,
    (late_edge_no_callback (stateBeforeEdge 0b000000 true 59) true 2000 blankTimestamp
      (by decide) (by decide)).1,
    (late_edge_no_callback (stateBeforeEdge 0b000000 true 59) true 2000 blankTimestamp
      (by decide) (by decide)).2.2 (by decide)⟩

/-- C14: the delta is the unsigned 32-bit difference, so it is the elapsed time
also across a wrap of the clock: `time = (timeEdge + d) mod 2^32` gives delta
`d`; with the last edge at `2^32 - 300` an edge at time 700 has delta 1000 and is
accepted and classified without a reset of the cursor. -/
theorem timeEdgeDelta_wraparound (self : DCF77Receiver) (sample : Bool)
    (uninit : DCF77Timestamp) (d : Nat) (hd : d < 2 ^ 32) :
    self.timeEdgeDelta ((self.timeEdge + d) % 2 ^ 32) = d
      ∧ (self.timeEdge = 2 ^ 32 - 300 →
          self.timeEdgeDelta 700 = 1000
            ∧ ((self.smooth sample).edgeRecognised = true →
                self.processSample sample 700 uninit
                  = DCF77Receiver.classify { self.smooth sample with timeEdge := 700 }
                      uninit)) := by
  have e : (2 : Nat) ^ 32 = 4294967296 := by norm_num
  rw [e] at hd
  constructor
  · unfold DCF77Receiver.timeEdgeDelta
    rw [e]
    omega
  · intro ht
    have h1000 : self.timeEdgeDelta 700 = 1000 := by
      unfold DCF77Receiver.timeEdgeDelta
      rw [ht, e]
    refine ⟨h1000, ?_⟩
    intro hedge
    have hdel := timeEdgeDelta_smooth self sample 700
    rw [processSample_eq, detect_accepted _ _ _ hedge (by rw [hdel, h1000]; norm_num),
      if_neg (by rw [hdel, h1000]; norm_num)]

theorem timeEdgeDelta_wraparound_witness :
    1000 < 2 ^ 32
      ∧ ({ stateBeforeEdge 0b000111 false 5 with
            timeEdge := 2 ^ 32 - 300 } : DCF77Receiver).timeEdgeDelta 700 = 1000
      ∧ (({ stateBeforeEdge 0b000111 false 5 with
            timeEdge := 2 ^ 32 - 300 } : DCF77Receiver).processSample true 700
          blankTimestamp).1.bitptrTimebits = Bitptr.ofPosition 6 :=
  ⟨by decide,
    ((timeEdgeDelta_wraparound { stateBeforeEdge 0b000111 false 5 with
        timeEdge := 2 ^ 32 - 300 } true blankTimestamp 1000 (by decide)).2 rfl).1,
    (congrArg (fun r => r.1.bitptrTimebits)
      (((timeEdgeDelta_wraparound { stateBeforeEdge 0b000111 false 5 with
        timeEdge := 2 ^ 32 - 300 } true blankTimestamp 1000 (by decide)).2 rfl).2
        (by decide))).trans (by decide)⟩

/-! ## The accumulator cursor stays within 0..60 -/

/-- One call keeps the cursor within 0..60 and the accumulator 8 bytes long,
and writes at most one bit, at a position below 60. -/
theorem detect_cursor (s : DCF77Receiver) (time : Nat) (uninit : DCF77Timestamp) (c : Nat)
    (hc : c ≤ 60) (hcur : s.bitptrTimebits = Bitptr.ofPosition c)
    (hlen : s.timebits.length = 8) :
    (∃ c1, c1 ≤ 60 ∧ (s.detect time uninit).1.bitptrTimebits = Bitptr.ofPosition c1)
      ∧ (s.detect time uninit).1.timebits.length = 8
      ∧ ((s.detect time uninit).1.timebits = s.timebits
          ∨ ∃ c0 b, c0 < 60
              ∧ (s.detect time uninit).1.timebits = (Bitptr.ofPosition c0).set s.timebits b) := by
  by_cases hedge : s.edgeRecognised = true
  · by_cases h500 : 500 ≤ s.timeEdgeDelta time
    · by_cases hp : s.sumSamplesPulse > nSampleThresholdMinute
      · rw [detect_noPulse s time uninit hedge h500 hp]
        dsimp only
        refine ⟨?_, hlen, Or.inl rfl⟩
        by_cases hl : s.timeEdgeDelta time > 1500
        · exact ⟨0, by norm_num, by rw [if_pos hl]⟩
        · exact ⟨c, hc, by rw [if_neg hl, hcur]⟩
      · obtain ⟨d1, -⟩ := detect_pulse s time uninit hedge h500 hp
        have hcar : ∃ c0, c0 ≤ 60 ∧ cursorAfterReset s time = Bitptr.ofPosition c0 := by
          unfold cursorAfterReset
          by_cases hr : s.timeEdgeDelta time > 1500 ∨ s.changeover = true
          · exact ⟨0, by norm_num, by rw [if_pos hr]⟩
          · exact ⟨c, hc, by rw [if_neg hr, hcur]⟩
        obtain ⟨c0, hc0, hcar⟩ := hcar
        rw [d1, hcar, nePosition_ofPosition c0 (by omega)]
        by_cases hfull : c0 = 60
        · rw [if_neg (by simp [hfull])]
          dsimp only
          exact ⟨⟨c0, hc0, rfl⟩, hlen, Or.inl rfl⟩
        · rw [if_pos (by simp [hfull])]
          dsimp only
          refine ⟨⟨c0 + 1, by omega, inc_ofPosition c0 (by omega)⟩, ?_, Or.inr ⟨c0, _, by omega, rfl⟩⟩
          rw [length_set]
          exact hlen
    · rw [detect_ignored s time uninit (Or.inr (by omega))]
      exact ⟨⟨c, hc, hcur⟩, hlen, Or.inl rfl⟩
  · rw [detect_ignored s time uninit (Or.inl (by simpa using hedge))]
    exact ⟨⟨c, hc, hcur⟩, hlen, Or.inl rfl⟩

theorem reachable_cursor (s : DCF77Receiver) (h : Reachable s) :
    (∃ c, c ≤ 60 ∧ s.bitptrTimebits = Bitptr.ofPosition c) ∧ s.timebits.length = 8 := by
  induction h with
  | initial cb => exact ⟨⟨0, by norm_num, rfl⟩, rfl⟩
  | step h sample time uninit ih =>
    obtain ⟨⟨c, hc, hcur⟩, hlen⟩ := ih
    obtain ⟨-, e2, e3, -, -⟩ := smooth_detector _ sample
    obtain ⟨d1, d2, -⟩ := detect_cursor (DCF77Receiver.smooth _ sample) time uninit c hc
      (by rw [e3]; exact hcur) (by rw [e2]; exact hlen)
    rw [processSample_eq]
    exact ⟨d1, d2⟩

/-- C15: in every reachable state the cursor is at a position 0..60 and the
accumulator is 8 bytes long; a call changes the accumulator at most by writing
one bit at a position 0..59; with the cursor at 60 an accepted real-pulse edge
with delta at most 1500 and no changeover pending leaves the accumulator and
the cursor as they are. -/
theorem cursor_at_most_60 (s : DCF77Receiver) (h : Reachable s) :
    (∃ c, c ≤ 60 ∧ s.bitptrTimebits = Bitptr.ofPosition c)
      ∧ s.timebits.length = 8
      ∧ (∀ sample time uninit,
          (s.processSample sample time uninit).1.timebits = s.timebits
            ∨ ∃ c0 b, c0 < 60 ∧ (Bitptr.ofPosition c0).index < s.timebits.length
                ∧ (s.processSample sample time uninit).1.timebits
                  = (Bitptr.ofPosition c0).set s.timebits b)
      ∧ (∀ sample time uninit, s.bitptrTimebits = Bitptr.ofPosition 60 →
          (s.smooth sample).edgeRecognised = true →
          500 ≤ s.timeEdgeDelta time → s.timeEdgeDelta time ≤ 1500 →
          s.changeover = false →
          ¬ (s.smooth sample).sumSamplesPulse > nSampleThresholdMinute →
          (s.processSample sample time uninit).1.timebits = s.timebits
            ∧ (s.processSample sample time uninit).1.bitptrTimebits
              = Bitptr.ofPosition 60) := by
  obtain ⟨⟨c, hc, hcur⟩, hlen⟩ := reachable_cursor s h
  refine ⟨⟨c, hc, hcur⟩, hlen, ?_, ?_⟩
  · intro sample time uninit
    obtain ⟨-, e2, e3, -, -⟩ := smooth_detector s sample
    obtain ⟨-, -, d3⟩ := detect_cursor (s.smooth sample) time uninit c hc
      (by rw [e3]; exact hcur) (by rw [e2]; exact hlen)
    rw [processSample_eq]
    rcases d3 with d3 | ⟨c0, b, hc0, d3⟩
    · left
      rw [d3, e2]
    · right
      refine ⟨c0, b, hc0, ?_, by rw [d3, e2]⟩
      rw [ofPosition_eq c0 (by omega), hlen]
      dsimp only
      omega
  · intro sample time uninit h60 hedge hlo hhi hch hp
    have hdel := timeEdgeDelta_smooth s sample time
    obtain ⟨-, e2, e3, e4, -⟩ := smooth_detector s sample
    obtain ⟨d1, -⟩ := detect_pulse _ time uninit hedge (by rw [hdel]; exact hlo) hp
    have hcar : cursorAfterReset (s.smooth sample) time = Bitptr.ofPosition 60 := by
      rw [cursorAfterReset_smooth]
      unfold cursorAfterReset
      rw [if_neg (by rw [hch]; simp; omega), h60]
    rw [processSample_eq, d1, hcar, if_neg (by decide)]
    exact ⟨e2, rfl⟩

theorem cursor_at_most_60_witness :
    ((DCF77Receiver.initial true).processSample true 0 blankTimestamp).1.timebits.length = 8 :=
  (cursor_at_most_60 _ (Reachable.step (Reachable.initial true) true 0 blankTimestamp)).2.1

/-! ## What a minute-marker edge does to the cursor -/

/-- C20 (counterexample): on a clean signal of 13 pulse seconds and a minute
marker, the call that sees the marker edge (call 422) is an accepted no-pulse
edge, and after it the cursor is at 5, not at 0. -/
theorem marker_edge_keeps_cursor :
    ((stateAfter true (signal (cleanKinds 13 (fun _ => false) sampleFrame false)) sampleClock
        (fun _ => blankTimestamp) (32 * 13 + 6)).smooth
          (signal (cleanKinds 13 (fun _ => false) sampleFrame false)
            (32 * 13 + 6))).edgeRecognised = true
      ∧ 500 ≤ (stateAfter true (signal (cleanKinds 13 (fun _ => false) sampleFrame false))
          sampleClock (fun _ => blankTimestamp) (32 * 13 + 6)).timeEdgeDelta
            (sampleClock (32 * 13 + 6))
      ∧ ((stateAfter true (signal (cleanKinds 13 (fun _ => false) sampleFrame false)) sampleClock
          (fun _ => blankTimestamp) (32 * 13 + 6)).smooth
            (signal (cleanKinds 13 (fun _ => false) sampleFrame false)
              (32 * 13 + 6))).sumSamplesPulse > nSampleThresholdMinute
      ∧ (stateAfter true (signal (cleanKinds 13 (fun _ => false) sampleFrame false)) sampleClock
          (fun _ => blankTimestamp) (32 * 13 + 6 + 1)).bitptrTimebits = Bitptr.ofPosition 5
      ∧ Bitptr.ofPosition 5 ≠ Bitptr.ofPosition 0 := by
  have hK := cleanKinds_marker 13 (fun _ => false) sampleFrame false
  obtain ⟨sa, -⟩ := start_tracking true _ 13 (13 + 60) hK sampleClock (fun _ => blankTimestamp)
    sampleClock_step
  obtain ⟨s1, -⟩ := sa (by decide)
  have e0 : (262 : Nat) = 32 * 8 + 6 := rfl
  rw [e0] at s1
  obtain ⟨r1, -, -, -⟩ := pulses_run true _ 13 (13 + 60) hK sampleClock (fun _ => blankTimestamp)
    sampleClock_step 8 0 (le_refl _) s1 5
    (fun k h1 h2 => cleanKinds_pulse 13 (fun _ => false) sampleFrame false k (by omega)
      (by omega))
  have e1 : 8 + 5 = 13 := rfl
  have e2 : min (0 + 5) 60 = 5 := rfl
  rw [e1, e2] at r1
  have hedge := edge_call true _ 13 (13 + 60) hK sampleClock (fun _ => blankTimestamp) 13
    (by norm_num)
  have hp := (edge_counts true (cleanKinds 13 (fun _ => false) sampleFrame false) sampleClock
    (fun _ => blankTimestamp) 13).1.2 (cleanKinds_at 13 (fun _ => false) sampleFrame false).1
  have hdel := timeEdgeDelta_smooth
    (stateAfter true (signal (cleanKinds 13 (fun _ => false) sampleFrame false)) sampleClock
      (fun _ => blankTimestamp) (32 * 13 + 6))
    (signal (cleanKinds 13 (fun _ => false) sampleFrame false) (32 * 13 + 6))
    (sampleClock (32 * 13 + 6))
  have hd := detect_noPulse _ (sampleClock (32 * 13 + 6)) blankTimestamp hedge
    (by rw [hdel]; exact r1.delta_lo) hp
  refine ⟨hedge, r1.delta_lo, hp, ?_, by decide⟩
  rw [stateAfter_succ, hd]
  dsimp only
  have hhi : ¬ (stateAfter true (signal (cleanKinds 13 (fun _ => false) sampleFrame false))
      sampleClock (fun _ => blankTimestamp) (32 * 13 + 6)).timeEdgeDelta
        (sampleClock (32 * 13 + 6)) > 1500 := by
    rcases r1.delta_hi with h | ⟨h, -⟩
    · omega
    · exact absurd h (by norm_num)
  rw [hdel, if_neg hhi, (smooth_detector _ _).2.2.1, r1.cursor]

/-- C20 (amended): an accepted no-pulse edge sets the changeover flag, invokes
no callback, leaves the accumulator alone and leaves the cursor where it was,
unless the edge came more than 1500 ms after the last one, which resets the
cursor to 0. -/
theorem noPulse_edge_keeps_cursor (self : DCF77Receiver) (sample : Bool) (time : Nat)
    (uninit : DCF77Timestamp) (hedge : (self.smooth sample).edgeRecognised = true)
    (hlo : 500 ≤ self.timeEdgeDelta time)
    (hp : (self.smooth sample).sumSamplesPulse > nSampleThresholdMinute) :
    (self.processSample sample time uninit).1.changeover = true
      ∧ (self.processSample sample time uninit).1.bitptrTimebits
          = (if 1500 < self.timeEdgeDelta time then Bitptr.ofPosition 0
             else self.bitptrTimebits)
      ∧ (self.processSample sample time uninit).1.timebits = self.timebits
      ∧ (self.processSample sample time uninit).2 = none := by
  have hdel := timeEdgeDelta_smooth self sample time
  obtain ⟨-, e2, e3, -, -⟩ := smooth_detector self sample
  have hd := detect_noPulse _ time uninit hedge (by rw [hdel]; exact hlo) hp
  rw [processSample_eq, hd]
  dsimp only
  rw [hdel, e3]
  exact ⟨rfl, rfl, e2, rfl⟩

theorem noPulse_edge_keeps_cursor_witness :
    ((stateBeforeEdge 0b111111 false 5).smooth true).edgeRecognised = true
      ∧ 500 ≤ (stateBeforeEdge 0b111111 false 5).timeEdgeDelta 1000
      ∧ ((stateBeforeEdge 0b111111 false 5).smooth true).sumSamplesPulse
          > nSampleThresholdMinute
      ∧ ((stateBeforeEdge 0b111111 false 5).processSample true 1000
          blankTimestamp).1.bitptrTimebits = Bitptr.ofPosition 5 :=
  ⟨by decide, by decide, by decide,
    (noPulse_edge_keeps_cursor (stateBeforeEdge 0b111111 false 5) true 1000 blankTimestamp
      (by decide) (by decide) (by decide)).2.1⟩

/-! ## The decoder on frames that fail one check -/

theorem bitAt_flipBit (f : List Nat) (i j : Nat) (h : i / 8 < f.length) :
    bitAt (flipBit f i) j = if j = i then !bitAt f i else bitAt f j := by
  unfold bitAt flipBit
  by_cases hb : j / 8 = i / 8
  · rw [hb, rd_wr_same _ _ _ h, Nat.testBit_xor, Nat.testBit_two_pow]
    by_cases hj : j = i
    · subst hj
      simp
    · have : ¬ i % 8 = j % 8 := by omega
      simp [hj, this]
  · have hj : ¬ j = i := by intro e; exact hb (by rw [e])
    rw [rd_wr_ne _ _ _ _ (Ne.symm hb), if_neg hj]

theorem bitfield_flipBit (f : List Nat) (i offset width : Nat) (h : i / 8 < f.length)
    (hi : i < offset ∨ offset + width ≤ i) :
    bitfield (flipBit f i) offset width = bitfield f offset width := by
  apply bitfield_congr
  intro j h1 h2
  rw [bitAt_flipBit f i j h, if_neg (by omega)]

theorem xorBits_flipBit (f : List Nat) (i lo : Nat) (h : i / 8 < f.length) : ∀ n,
    xorBits (flipBit f i) lo n = xor (xorBits f lo n) (decide (lo ≤ i ∧ i < lo + n)) := by
  intro n
  induction n with
  | zero => simp [xorBits]
  | succ n ih =>
    rw [xorBits, xorBits, ih, bitAt_flipBit f i _ h]
    by_cases h1 : lo + n = i
    · have d1 : decide (lo ≤ i ∧ i < lo + n) = false := decide_eq_false (by omega)
      have d2 : decide (lo ≤ i ∧ i < lo + (n + 1)) = true := decide_eq_true (by omega)
      rw [if_pos h1, d1, d2, h1]
      cases xorBits f lo n <;> cases bitAt f i <;> rfl
    · have d : decide (lo ≤ i ∧ i < lo + (n + 1)) = decide (lo ≤ i ∧ i < lo + n) := by
        by_cases h2 : lo ≤ i ∧ i < lo + n
        · rw [decide_eq_true h2, decide_eq_true (by omega : lo ≤ i ∧ i < lo + (n + 1))]
        · rw [decide_eq_false h2, decide_eq_false (by omega : ¬ (lo ≤ i ∧ i < lo + (n + 1)))]
      rw [if_neg h1, d]
      cases xorBits f lo n <;> cases bitAt f (lo + n) <;>
        cases decide (lo ≤ i ∧ i < lo + n) <;> rfl

/-- Inverting a bit inside the range inverts the parity of the range; inverting
one outside leaves the parity alone. -/
theorem countBits_flipBit (f : List Nat) (i lo hi : Nat) (h : i / 8 < f.length) :
    decide (countBits (flipBit f i) lo hi % 2 = 1)
      = xor (decide (countBits f lo hi % 2 = 1)) (decide (lo ≤ i ∧ i ≤ hi)) := by
  rw [countBits_odd _ lo hi _ rfl, countBits_odd _ lo hi _ rfl, xorBits_flipBit f i lo h]
  congr 1
  by_cases h2 : lo ≤ i ∧ i ≤ hi
  · rw [decide_eq_true h2, decide_eq_true (by omega : lo ≤ i ∧ i < lo + (hi + 1 - lo))]
  · rw [decide_eq_false h2, decide_eq_false (by omega : ¬ (lo ≤ i ∧ i < lo + (hi + 1 - lo)))]

/-- The status of a frame that passes the checks up to the minute digits is
decided by the minute parity and the checks after it. -/
theorem firstFailure_minute (f : List Nat) (h0 : bitAt f 0 = false)
    (hz : bitAt f 17 ≠ bitAt f 18) (h20 : bitAt f 20 = true) (hm1 : bitfield f 21 4 ≤ 9)
    (hm2 : bitfield f 25 3 ≤ 5) : firstFailure f = firstFailing ((checks f).drop 5) := by
  unfold firstFailure checks
  simp only [List.drop_succ_cons, List.drop_zero, firstFailing]
  rw [if_neg (by rw [h0]; exact Bool.false_ne_true), if_neg (by rw [beq_iff_eq]; exact hz),
    if_neg (by rw [h20]; decide), if_neg (by rw [decide_eq_true_eq]; omega),
    if_neg (by rw [decide_eq_true_eq]; omega)]

/-- The status of a frame that also passes the minute parity and the hour digit
checks is decided by the hour range check and the checks after it. -/
theorem firstFailure_hour (f : List Nat) (h0 : bitAt f 0 = false)
    (hz : bitAt f 17 ≠ bitAt f 18) (h20 : bitAt f 20 = true) (hm1 : bitfield f 21 4 ≤ 9)
    (hm2 : bitfield f 25 3 ≤ 5) (hpm : countBits f 21 28 % 2 = 0) (hh1 : bitfield f 29 4 ≤ 9)
    (hh2 : bitfield f 33 2 ≤ 2) : firstFailure f = firstFailing ((checks f).drop 8) := by
  rw [firstFailure_minute f h0 hz h20 hm1 hm2]
  unfold checks
  simp only [List.drop_succ_cons, List.drop_zero, firstFailing]
  rw [if_neg (by rw [decide_eq_true_eq]; omega), if_neg (by rw [decide_eq_true_eq]; omega),
    if_neg (by rw [decide_eq_true_eq]; omega)]

theorem firstFailing_hour_range (f : List Nat) (h : 10 * bitfield f 33 2 + bitfield f 29 4 > 23) :
    firstFailing ((checks f).drop 8) = Status.ERROR_HOUR_RANGE := by
  unfold checks
  simp only [List.drop_succ_cons, List.drop_zero, firstFailing]
  rw [if_pos (by rw [decide_eq_true_eq]; exact h)]

theorem firstFailing_hour_parity (f : List Nat)
    (hhr : 10 * bitfield f 33 2 + bitfield f 29 4 ≤ 23) (hph : countBits f 29 35 % 2 = 1) :
    firstFailing ((checks f).drop 8) = Status.ERROR_HOUR_PARITY := by
  unfold checks
  simp only [List.drop_succ_cons, List.drop_zero, firstFailing]
  rw [if_neg (by rw [decide_eq_true_eq]; omega), if_pos (by rw [decide_eq_true_eq]; exact hph)]

/-- The status of a frame that passes every check but the last is decided by
the date parity. -/
theorem firstFailing_date (f : List Nat)
    (hhr : 10 * bitfield f 33 2 + bitfield f 29 4 ≤ 23) (hph : countBits f 29 35 % 2 = 0)
    (hd1 : bitfield f 36 4 ≤ 9) (hd2 : 1 ≤ 10 * bitfield f 40 2 + bitfield f 36 4)
    (hd3 : 10 * bitfield f 40 2 + bitfield f 36 4 ≤ 31) (hw : bitfield f 42 3 ≠ 0)
    (ho1 : bitfield f 45 4 ≤ 9) (ho2 : 1 ≤ 10 * bitfield f 49 1 + bitfield f 45 4)
    (ho3 : 10 * bitfield f 49 1 + bitfield f 45 4 ≤ 12) (hy1 : bitfield f 50 4 ≤ 9)
    (hy2 : bitfield f 54 4 ≤ 9) (hpd : countBits f 36 58 % 2 = 1) :
    firstFailing ((checks f).drop 8) = Status.ERROR_DATE_PARITY := by
  unfold checks
  simp only [List.drop_succ_cons, List.drop_zero, firstFailing]
  rw [if_neg (by rw [decide_eq_true_eq]; omega), if_neg (by rw [decide_eq_true_eq]; omega),
    if_neg (by rw [decide_eq_true_eq]; omega), if_neg (by rw [decide_eq_true_eq]; omega),
    if_neg (by rw [decide_eq_true_eq]; exact hw), if_neg (by rw [decide_eq_true_eq]; omega),
    if_neg (by rw [decide_eq_true_eq]; omega), if_neg (by rw [decide_eq_true_eq]; omega),
    if_neg (by rw [decide_eq_true_eq]; omega), if_pos (by rw [decide_eq_true_eq]; exact hpd)]

theorem parity_of_decide (n : Nat) (b : Bool) (h : decide (n % 2 = 1) = b) :
    n % 2 = if b then 1 else 0 := by
  cases b
  · have := of_decide_eq_false h
    simp only [Bool.false_eq_true, if_false]
    omega
  · exact of_decide_eq_true h

/-- C16: in a frame that decodes to `VALID`, inverting only the minute parity
bit, only the hour parity bit or only the date parity bit yields the parity
error of that group. -/
theorem parity_flip_detected (self : DCF77Timestamp) (f : List Nat) (hlen : f.length = 8)
    (hv : (self.decode f).status = Status.VALID) :
    (self.decode (flipBit f 28)).status = Status.ERROR_MINUTE_PARITY
      ∧ (self.decode (flipBit f 35)).status = Status.ERROR_HOUR_PARITY
      ∧ (self.decode (flipBit f 58)).status = Status.ERROR_DATE_PARITY := by
  obtain ⟨c0, cz, c20, cm1, cm2, cpm, ch1, ch2, chr, cph, cd1, cd2, cd3, cw, co1, co2, co3,
    cy1, cy2, cpd⟩ := (decode_valid_checks self f).1 hv
  have hin : ∀ i, i < 64 → i / 8 < f.length := by
    intro i hi
    rw [hlen]
    omega
  have hbit : ∀ i j, i < 64 → j ≠ i → bitAt (flipBit f i) j = bitAt f j := by
    intro i j hi hj
    rw [bitAt_flipBit f i j (hin i hi), if_neg hj]
  have hfield : ∀ i offset width, i < 64 → (i < offset ∨ offset + width ≤ i) →
      bitfield (flipBit f i) offset width = bitfield f offset width :=
    fun i offset width hi h => bitfield_flipBit f i offset width (hin i hi) h
  have hcount : ∀ i lo hi, i < 64 → countBits f lo hi % 2 = 0 →
      countBits (flipBit f i) lo hi % 2 = if lo ≤ i ∧ i ≤ hi then 1 else 0 := by
    intro i lo hi hi64 hev
    have h := countBits_flipBit f i lo hi (hin i hi64)
    rw [decide_eq_false (by omega : ¬ countBits f lo hi % 2 = 1), Bool.false_xor] at h
    rw [parity_of_decide _ _ h]
    by_cases hr : lo ≤ i ∧ i ≤ hi
    · rw [decide_eq_true hr, if_pos hr, if_pos rfl]
    · rw [decide_eq_false hr, if_neg hr, if_neg (by decide)]
  refine ⟨?_, ?_, ?_⟩
  · have p := hcount 28 21 28 (by norm_num) cpm
    rw [if_pos (by norm_num)] at p
    rw [decode_status, firstFailure_minute _
      (by rw [hbit 28 0 (by norm_num) (by norm_num)]; exact c0)
      (by rw [hbit 28 17 (by norm_num) (by norm_num), hbit 28 18 (by norm_num) (by norm_num)]
          exact cz)
      (by rw [hbit 28 20 (by norm_num) (by norm_num)]; exact c20)
      (by rw [hfield 28 21 4 (by norm_num) (by norm_num)]; exact cm1)
      (by rw [hfield 28 25 3 (by norm_num) (by norm_num)]; exact cm2)]
    unfold checks
    simp only [List.drop_succ_cons, List.drop_zero, firstFailing]
    rw [if_pos (by rw [decide_eq_true_eq]; exact p)]
  · have p1 := hcount 35 21 28 (by norm_num) cpm
    rw [if_neg (by norm_num)] at p1
    have p2 := hcount 35 29 35 (by norm_num) cph
    rw [if_pos (by norm_num)] at p2
    have e1 := hfield 35 29 4 (by norm_num) (by norm_num)
    have e2 := hfield 35 33 2 (by norm_num) (by norm_num)
    rw [decode_status, firstFailure_hour _
      (by rw [hbit 35 0 (by norm_num) (by norm_num)]; exact c0)
      (by rw [hbit 35 17 (by norm_num) (by norm_num), hbit 35 18 (by norm_num) (by norm_num)]
          exact cz)
      (by rw [hbit 35 20 (by norm_num) (by norm_num)]; exact c20)
      (by rw [hfield 35 21 4 (by norm_num) (by norm_num)]; exact cm1)
      (by rw [hfield 35 25 3 (by norm_num) (by norm_num)]; exact cm2)
      p1 (by rw [e1]; exact ch1) (by rw [e2]; exact ch2)]
    exact firstFailing_hour_parity _ (by rw [e1, e2]; exact chr) p2
  · have p1 := hcount 58 21 28 (by norm_num) cpm
    rw [if_neg (by norm_num)] at p1
    have p2 := hcount 58 29 35 (by norm_num) cph
    rw [if_neg (by norm_num)] at p2
    have p3 := hcount 58 36 58 (by norm_num) cpd
    rw [if_pos (by norm_num)] at p3
    have e1 := hfield 58 29 4 (by norm_num) (by norm_num)
    have e2 := hfield 58 33 2 (by norm_num) (by norm_num)
    have e3 := hfield 58 36 4 (by norm_num) (by norm_num)
    have e4 := hfield 58 40 2 (by norm_num) (by norm_num)
    have e5 := hfield 58 42 3 (by norm_num) (by norm_num)
    have e6 := hfield 58 45 4 (by norm_num) (by norm_num)
    have e7 := hfield 58 49 1 (by norm_num) (by norm_num)
    have e8 := hfield 58 50 4 (by norm_num) (by norm_num)
    have e9 := hfield 58 54 4 (by norm_num) (by norm_num)
    rw [decode_status, firstFailure_hour _
      (by rw [hbit 58 0 (by norm_num) (by norm_num)]; exact c0)
      (by rw [hbit 58 17 (by norm_num) (by norm_num), hbit 58 18 (by norm_num) (by norm_num)]
          exact cz)
      (by rw [hbit 58 20 (by norm_num) (by norm_num)]; exact c20)
      (by rw [hfield 58 21 4 (by norm_num) (by norm_num)]; exact cm1)
      (by rw [hfield 58 25 3 (by norm_num) (by norm_num)]; exact cm2)
      p1 (by rw [e1]; exact ch1) (by rw [e2]; exact ch2)]
    exact firstFailing_date _ (by rw [e1, e2]; exact chr) p2 (by rw [e3]; exact cd1)
      (by rw [e3, e4]; exact cd2) (by rw [e3, e4]; exact cd3) (by rw [e5]; exact cw)
      (by rw [e6]; exact co1) (by rw [e6, e7]; exact co2) (by rw [e6, e7]; exact co3)
      (by rw [e8]; exact cy1) (by rw [e9]; exact cy2) p3

theorem parity_flip_detected_witness :
    (blankTimestamp.decode sampleFrame).status = Status.VALID
      ∧ flipBit sampleFrame 28 = [0, 0, 242, 102, 28, 27, 154, 4]
      ∧ (blankTimestamp.decode (flipBit sampleFrame 28)).status = Status.ERROR_MINUTE_PARITY :=
  ⟨by decide, by decide,
    (parity_flip_detected blankTimestamp sampleFrame (by decide) (by decide)).1⟩

/-- C18: a frame that passes the checks up to the minute parity and has hour
digits 2 and 4..9 passes both hour digit checks and is rejected with
`ERROR_HOUR_RANGE`. -/
theorem hour_24_to_29_rejected (self : DCF77Timestamp) (f : List Nat)
    (h0 : bitAt f 0 = false) (hz : bitAt f 17 ≠ bitAt f 18) (h20 : bitAt f 20 = true)
    (hm1 : bitfield f 21 4 ≤ 9) (hm2 : bitfield f 25 3 ≤ 5)
    (hpm : countBits f 21 28 % 2 = 0) (hh10 : bitfield f 33 2 = 2)
    (hlo : 4 ≤ bitfield f 29 4) (hhi : bitfield f 29 4 ≤ 9) :
    (self.decode f).status = Status.ERROR_HOUR_RANGE
      ∧ ¬ bitfield f 29 4 > 9 ∧ ¬ bitfield f 33 2 > 2 := by
  refine ⟨?_, by omega, by omega⟩
  rw [decode_status, firstFailure_hour f h0 hz h20 hm1 hm2 hpm hhi (by omega)]
  exact firstFailing_hour_range f (by omega)

theorem hour_24_to_29_rejected_witness :
    bitfield hour24Frame 33 2 = 2 ∧ bitfield hour24Frame 29 4 = 4
      ∧ (blankTimestamp.decode hour24Frame).status = Status.ERROR_HOUR_RANGE :=
  ⟨by decide, by decide,
    (hour_24_to_29_rejected blankTimestamp hour24Frame (by decide) (by decide) (by decide)
      (by decide) (by decide) (by decide) (by decide) (by decide) (by decide)).1⟩

/-- C19 (counterexample): the frame with hour digits 2 and 4 and an odd number
of set bits among bits 29..35 passes every check before the hour group and is
rejected with `ERROR_HOUR_RANGE`, not with `ERROR_HOUR_PARITY`. -/
theorem hour_range_not_parity :
    bitAt hour24Frame 0 = false ∧ bitAt hour24Frame 17 ≠ bitAt hour24Frame 18
      ∧ bitAt hour24Frame 20 = true ∧ bitfield hour24Frame 21 4 ≤ 9
      ∧ bitfield hour24Frame 25 3 ≤ 5 ∧ countBits hour24Frame 21 28 % 2 = 0
      ∧ bitfield hour24Frame 29 4 ≤ 9 ∧ bitfield hour24Frame 33 2 ≤ 2
      ∧ countBits hour24Frame 29 35 % 2 = 1
      ∧ 10 * bitfield hour24Frame 33 2 + bitfield hour24Frame 29 4 > 23
      ∧ (blankTimestamp.decode hour24Frame).status = Status.ERROR_HOUR_RANGE
      ∧ (blankTimestamp.decode hour24Frame).status ≠ Status.ERROR_HOUR_PARITY := by
  decide

/-- C19 (amended): the combined-hour range check comes before the hour parity
check: a frame that passes every check before the hour group, has hour digits
in range and an odd number of set bits among bits 29..35 is rejected with
`ERROR_HOUR_RANGE` when the combined hour is greater than 23, and with
`ERROR_HOUR_PARITY` otherwise. -/
theorem hour_range_before_parity (self : DCF77Timestamp) (f : List Nat)
    (h0 : bitAt f 0 = false) (hz : bitAt f 17 ≠ bitAt f 18) (h20 : bitAt f 20 = true)
    (hm1 : bitfield f 21 4 ≤ 9) (hm2 : bitfield f 25 3 ≤ 5)
    (hpm : countBits f 21 28 % 2 = 0) (hh1 : bitfield f 29 4 ≤ 9)
    (hh2 : bitfield f 33 2 ≤ 2) (hph : countBits f 29 35 % 2 = 1) :
    (10 * bitfield f 33 2 + bitfield f 29 4 > 23 →
        (self.decode f).status = Status.ERROR_HOUR_RANGE)
      ∧ (10 * bitfield f 33 2 + bitfield f 29 4 ≤ 23 →
        (self.decode f).status = Status.ERROR_HOUR_PARITY) := by
  rw [decode_status, firstFailure_hour f h0 hz h20 hm1 hm2 hpm hh1 hh2]
  exact ⟨fun h => firstFailing_hour_range f h, fun h => firstFailing_hour_parity f h hph⟩

theorem hour_range_before_parity_witness :
    10 * bitfield hour24Frame 33 2 + bitfield hour24Frame 29 4 = 24
      ∧ countBits hour24Frame 29 35 % 2 = 1
      ∧ (blankTimestamp.decode hour24Frame).status = Status.ERROR_HOUR_RANGE :=
  ⟨by decide, by decide,
    (hour_range_before_parity blankTimestamp hour24Frame (by decide) (by decide) (by decide)
      (by decide) (by decide) (by decide) (by decide) (by decide) (by decide)).1 (by decide)⟩

/-- Once the start-of-minute and zone checks have passed, `dst` is set from the
zone field and stays so whatever the later checks find. -/
theorem decode_dst (self : DCF77Timestamp) (f : List Nat) (h0 : bitAt f 0 = false)
    (hz : bitAt f 17 ≠ bitAt f 18) : (self.decode f).time.dst = bitAt f 17 := by
  simp only [DCF77Timestamp.decode, DCF77Timestruct.ofBytes, bitfield_one f 0,
    bitfield_two f 17, Nat.reduceAdd]
  generalize bitfield f 21 4 = m01
  generalize bitfield f 25 3 = m10
  generalize bitfield f 29 4 = h01
  generalize bitfield f 33 2 = h10
  generalize bitfield f 36 4 = d01
  generalize bitfield f 40 2 = d10
  generalize bitfield f 42 3 = wd
  generalize bitfield f 45 4 = mo01
  generalize bitfield f 49 1 = mo10
  generalize bitfield f 50 4 = y01
  generalize bitfield f 54 4 = y10
  generalize bitfield f 20 1 = st
  generalize incorrectParity (bitfield f 21 8) = p1
  generalize incorrectParity (bitfield f 29 7) = p2
  generalize incorrectParity (bitfield f 36 4 ^^^ bitfield f 40 8 ^^^ bitfield f 48 8
    ^^^ bitfield f 56 3) = p3
  rw [h0]
  revert hz
  cases bitAt f 17 <;> cases bitAt f 18 <;> intro hz
  · exact absurd rfl hz
  · simp only [Bool.toNat_true, Bool.toNat_false, Nat.reduceAdd, Nat.reduceMul, ne_eq,
      not_true_eq_false, not_false_eq_true, if_true, if_false, false_and, and_false,
      OfNat.ofNat_ne_one, Nat.reduceEqDiff, apply_ite DCF77Timestamp.time,
      apply_ite TimeRecord.dst, ite_self]
  · simp only [Bool.toNat_true, Bool.toNat_false, Nat.reduceAdd, Nat.reduceMul, ne_eq,
      not_true_eq_false, not_false_eq_true, if_true, if_false, false_and, and_false,
      OfNat.ofNat_ne_one, Nat.reduceEqDiff, apply_ite DCF77Timestamp.time,
      apply_ite TimeRecord.dst, ite_self]
  · exact absurd rfl hz

/-- C17: for a frame whose bit 0 is 0: zone `00` or `11` gives `ERROR_DST`, zone
`01` (bit 17 set, bit 18 clear) sets `dst` to true and zone `10` sets it to
false, whatever the checks after the zone find. -/
theorem zone_decoding (self : DCF77Timestamp) (f : List Nat) (h0 : bitAt f 0 = false) :
    (bitAt f 17 = bitAt f 18 → (self.decode f).status = Status.ERROR_DST)
      ∧ (bitAt f 17 = true → bitAt f 18 = false → (self.decode f).time.dst = true)
      ∧ (bitAt f 17 = false → bitAt f 18 = true → (self.decode f).time.dst = false) := by
  refine ⟨?_, ?_, ?_⟩
  · intro hz
    rw [decode_status]
    unfold firstFailure checks
    simp only [firstFailing]
    rw [if_neg (by rw [h0]; exact Bool.false_ne_true), if_pos (by rw [beq_iff_eq]; exact hz)]
  · intro h1 h2
    rw [decode_dst self f h0 (by rw [h1, h2]; decide), h1]
  · intro h1 h2
    rw [decode_dst self f h0 (by rw [h1, h2]; decide), h1]

theorem zone_decoding_witness :
    bitAt sampleFrame 0 = false ∧ bitAt sampleFrame 17 = true ∧ bitAt sampleFrame 18 = false
      ∧ (blankTimestamp.decode sampleFrame).time.dst = true :=
  ⟨by decide, by decide, by decide,
    (zone_decoding blankTimestamp sampleFrame (by decide)).2.1 (by decide) (by decide)⟩

/-! ## A minute marker never decodes -/

theorem doubleMarkerKinds_marker (k : Nat) (h : doubleMarkerKinds k = SecondKind.marker) :
    k = 67 ∨ k = 68 := by
  unfold doubleMarkerKinds at h
  split_ifs at h with h1
  exact h1

theorem doubleMarkerKinds_pulse (k : Nat) (h : k < 67) :
    doubleMarkerKinds k ≠ SecondKind.marker := by
  intro e
  have := doubleMarkerKinds_marker k e
  omega

/-- C21 (counterexample): on a clean signal of 67 short pulses and two minute
markers, the call that sees the edge of the second marker (call 2182) enters
with the changeover pending, the cursor at 59 and the callback set, accepts the
edge as a no-pulse, and does not invoke the callback. -/
theorem marker_edge_does_not_decode :
    (stateAfter true (signal doubleMarkerKinds) sampleClock (fun _ => blankTimestamp)
        (32 * 68 + 6)).changeover = true
      ∧ (stateAfter true (signal doubleMarkerKinds) sampleClock (fun _ => blankTimestamp)
          (32 * 68 + 6)).bitptrTimebits = Bitptr.ofPosition 59
      ∧ (stateAfter true (signal doubleMarkerKinds) sampleClock (fun _ => blankTimestamp)
          (32 * 68 + 6)).callbackReceived = true
      ∧ ((stateAfter true (signal doubleMarkerKinds) sampleClock (fun _ => blankTimestamp)
          (32 * 68 + 6)).smooth (signal doubleMarkerKinds (32 * 68 + 6))).edgeRecognised = true
      ∧ 500 ≤ (stateAfter true (signal doubleMarkerKinds) sampleClock (fun _ => blankTimestamp)
          (32 * 68 + 6)).timeEdgeDelta (sampleClock (32 * 68 + 6))
      ∧ ((stateAfter true (signal doubleMarkerKinds) sampleClock (fun _ => blankTimestamp)
          (32 * 68 + 6)).smooth (signal doubleMarkerKinds (32 * 68 + 6))).sumSamplesPulse
          > nSampleThresholdMinute
      ∧ delivered true (signal doubleMarkerKinds) sampleClock (fun _ => blankTimestamp)
          (32 * 68 + 6) = none := by
  have hK := doubleMarkerKinds_marker
  have hm67 : doubleMarkerKinds 67 = SecondKind.marker := by decide
  have hm68 : doubleMarkerKinds 68 = SecondKind.marker := by decide
  obtain ⟨sa, -⟩ := start_tracking true _ 67 68 hK sampleClock (fun _ => blankTimestamp)
    sampleClock_step
  obtain ⟨s1, -⟩ := sa (by decide)
  have e0 : (262 : Nat) = 32 * 8 + 6 := rfl
  rw [e0] at s1
  obtain ⟨r1, -, -, -⟩ := pulses_run true _ 67 68 hK sampleClock (fun _ => blankTimestamp)
    sampleClock_step 8 0 (le_refl _) s1 59
    (fun k h1 h2 => doubleMarkerKinds_pulse k (by omega))
  have e1 : 8 + 59 = 67 := rfl
  have e2 : min (0 + 59) 60 = 59 := rfl
  rw [e1, e2] at r1
  obtain ⟨m1, -, -⟩ := track_marker true _ 67 68 hK sampleClock (fun _ => blankTimestamp)
    sampleClock_step 67 59 false (by norm_num) hm67 r1
  have e3 : 67 + 1 = 68 := rfl
  rw [e3] at m1
  obtain ⟨-, -, m3⟩ := track_marker true _ 67 68 hK sampleClock (fun _ => blankTimestamp)
    sampleClock_step 68 59 true (by norm_num) hm68 m1
  exact ⟨m1.changeover, m1.cursor, stateAfter_callback _ _ _ _ _,
    edge_call true _ 67 68 hK sampleClock (fun _ => blankTimestamp) 68 (by norm_num),
    m1.delta_lo,
    (edge_counts true doubleMarkerKinds sampleClock (fun _ => blankTimestamp) 68).1.2 hm68,
    m3 (32 * 68 + 6) (le_refl _) (by norm_num)⟩

/-! ## From a no-pulse edge to the next accepted edge -/

theorem after_stateAfter (cb : Bool) (s : Nat → Bool) (t : Nat → Nat)
    (u : Nat → DCF77Timestamp) (a : Nat) : ∀ k,
    (stateAfter cb s t u a).after (fun i => s (a + i)) (fun i => t (a + i))
      (fun i => u (a + i)) k = stateAfter cb s t u (a + k) := by
  intro k
  induction k with
  | zero => rfl
  | succ k ih =>
    show (((stateAfter cb s t u a).after (fun i => s (a + i)) (fun i => t (a + i))
      (fun i => u (a + i)) k).processSample (s (a + k)) (t (a + k)) (u (a + k))).1 = _
    rw [ih]
    rfl

theorem delivered_processSample (cb : Bool) (s : Nat → Bool) (t : Nat → Nat)
    (u : Nat → DCF77Timestamp) (n : Nat) :
    delivered cb s t u n = ((stateAfter cb s t u n).processSample (s n) (t n) (u n)).2 := rfl

/-- The run continued after call `a`. -/
theorem after_processSample (cb : Bool) (s : Nat → Bool) (t : Nat → Nat)
    (u : Nat → DCF77Timestamp) (a k : Nat) :
    ((stateAfter cb s t u a).processSample (s a) (t a) (u a)).1.after
        (fun i => s (a + 1 + i)) (fun i => t (a + 1 + i)) (fun i => u (a + 1 + i)) k
      = stateAfter cb s t u (a + 1 + k) :=
  after_stateAfter cb s t u (a + 1) k

/-- Calls that accept no edge leave the detector and the callback alone. -/
theorem after_ignored (st : DCF77Receiver) (s : Nat → Bool) (t : Nat → Nat)
    (u : Nat → DCF77Timestamp) : ∀ m,
    (∀ k, k < m → ((st.after s t u k).smooth (s k)).edgeRecognised = false
      ∨ (st.after s t u k).timeEdgeDelta (t k) < 500) →
    SameDetector (st.after s t u m) st
      ∧ (st.after s t u m).callbackReceived = st.callbackReceived := by
  intro m
  induction m with
  | zero =>
    intro _
    exact ⟨sameDetector_refl _, rfl⟩
  | succ m ih =>
    intro h
    obtain ⟨i1, i2⟩ := ih (fun k hk => h k (by omega))
    have hd : ((st.after s t u m).smooth (s m)).detect (t m) (u m)
        = ((st.after s t u m).smooth (s m), none) := by
      apply detect_ignored
      rcases h m (by omega) with h | h
      · exact Or.inl h
      · right
        rw [timeEdgeDelta_smooth]
        exact h
    have e : st.after s t u (m + 1)
        = (((st.after s t u m).smooth (s m)).detect (t m) (u m)).1 := rfl
    rw [e, hd]
    exact ⟨sameDetector_trans _ _ _ (sameDetector_smooth _ _) i1,
      ((smooth_detector _ _).2.2.2.2).trans i2⟩

theorem noPulse_then_pulse (self : DCF77Receiver) (sample : Bool) (time : Nat)
    (uninit : DCF77Timestamp) (hedge : (self.smooth sample).edgeRecognised = true)
    (hlo : 500 ≤ self.timeEdgeDelta time)
    (hp : (self.smooth sample).sumSamplesPulse > nSampleThresholdMinute)
    (hcur : self.bitptrTimebits = Bitptr.ofPosition 59) (hcb : self.callbackReceived = true)
    (s : Nat → Bool) (t : Nat → Nat) (u : Nat → DCF77Timestamp) (m : Nat)
    (hq : ∀ k, k < m →
      (((self.processSample sample time uninit).1.after s t u k).smooth
          (s k)).edgeRecognised = false
        ∨ ((self.processSample sample time uninit).1.after s t u k).timeEdgeDelta (t k) < 500)
    (he : (((self.processSample sample time uninit).1.after s t u m).smooth
      (s m)).edgeRecognised = true)
    (hl : 500 ≤ ((self.processSample sample time uninit).1.after s t u m).timeEdgeDelta (t m))
    (hr : (((self.processSample sample time uninit).1.after s t u m).smooth
      (s m)).sumSamplesPulse ≤ nSampleThresholdMinute) :
    (((self.processSample sample time uninit).1.after s t u m).processSample
        (s m) (t m) (u m)).2
      = if self.timeEdgeDelta time ≤ 1500
          ∧ ((self.processSample sample time uninit).1.after s t u m).timeEdgeDelta (t m)
            ≤ 1500 then
          some ((u m).decode self.timebits)
        else none := by
  have hdel := timeEdgeDelta_smooth self sample time
  obtain ⟨-, e2, e3, -, e5⟩ := smooth_detector self sample
  have hd := detect_noPulse _ time uninit hedge (by rw [hdel]; exact hlo) hp
  obtain ⟨i1, i2⟩ := after_ignored _ s t u m hq
  generalize (self.processSample sample time uninit).1.after s t u m = sm at i1 i2 he hl hr ⊢
  rw [processSample_eq, hd] at i1 i2
  dsimp only at i1 i2
  have hdm := timeEdgeDelta_smooth sm (s m) (t m)
  obtain ⟨-, f2, f3, f4, f5⟩ := smooth_detector sm (s m)
  obtain ⟨-, d2⟩ := detect_pulse _ (t m) (u m) he (by rw [hdm]; exact hl) (Nat.not_lt.mpr hr)
  rw [processSample_eq, d2, hdm, f2, f3, f4, f5, i1.timebits, i1.bitptrTimebits, i1.changeover,
    i2]
  dsimp only
  rw [hdel, e2, e3, e5, hcur, hcb]
  by_cases h1 : self.timeEdgeDelta time ≤ 1500
  · have h1' : ¬ self.timeEdgeDelta time > 1500 := by omega
    have e59 : (Bitptr.ofPosition 59).eqPosition 59 = true := by decide
    rw [if_neg h1', e59]
    simp [h1]
  · have h1' : self.timeEdgeDelta time > 1500 := by omega
    have e0 : (Bitptr.ofPosition 0).eqPosition 59 = false := by decide
    rw [if_pos h1', e0]
    simp [h1]

/-- The clean signal of 67 short pulses and two minute markers, on entry to the
edge calls of the second marker (second 68) and of the pulse that follows. -/
theorem doubleMarker_tracking :
    Tracking (stateAfter true (signal doubleMarkerKinds) sampleClock (fun _ => blankTimestamp)
        (32 * 68 + 6)) (sampleClock (32 * 68 + 6)) 59 true
      ∧ Tracking (stateAfter true (signal doubleMarkerKinds) sampleClock
          (fun _ => blankTimestamp) (32 * 69 + 6)) (sampleClock (32 * 69 + 6)) 59 true
      ∧ ∀ i, i < 59 → bitAt (stateAfter true (signal doubleMarkerKinds) sampleClock
          (fun _ => blankTimestamp) (32 * 68 + 6)).timebits i = false := by
  have hK := doubleMarkerKinds_marker
  have hm67 : doubleMarkerKinds 67 = SecondKind.marker := by decide
  have hm68 : doubleMarkerKinds 68 = SecondKind.marker := by decide
  obtain ⟨sa, -⟩ := start_tracking true _ 67 68 hK sampleClock (fun _ => blankTimestamp)
    sampleClock_step
  obtain ⟨s1, -⟩ := sa (by decide)
  have e0 : (262 : Nat) = 32 * 8 + 6 := rfl
  rw [e0] at s1
  obtain ⟨r1, r2, -, -⟩ := pulses_run true _ 67 68 hK sampleClock (fun _ => blankTimestamp)
    sampleClock_step 8 0 (le_refl _) s1 59
    (fun k h1 h2 => doubleMarkerKinds_pulse k (by omega))
  have e1 : 8 + 59 = 67 := rfl
  have e2 : min (0 + 59) 60 = 59 := rfl
  rw [e1, e2] at r1 r2
  obtain ⟨m1, m2, -⟩ := track_marker true _ 67 68 hK sampleClock (fun _ => blankTimestamp)
    sampleClock_step 67 59 false (by norm_num) hm67 r1
  have e3 : 67 + 1 = 68 := rfl
  rw [e3] at m1 m2
  obtain ⟨n1, -, -⟩ := track_marker true _ 67 68 hK sampleClock (fun _ => blankTimestamp)
    sampleClock_step 68 59 true (by norm_num) hm68 m1
  have e4 : 68 + 1 = 69 := rfl
  rw [e4] at n1
  refine ⟨m1, n1, ?_⟩
  intro i hi
  rw [m2, r2 i (Nat.zero_le _) hi]
  have hp := doubleMarkerKinds_pulse (8 + (i - 0)) (by omega)
  unfold doubleMarkerKinds at hp ⊢
  split_ifs at hp ⊢ with h
  · exact absurd rfl hp
  · rfl

/-- C21 (amended): an accepted no-pulse edge does not run the decoder, whether or
not the changeover was pending, even with the cursor at 59 and the callback
set: no callback in that call; the changeover is pending afterwards and, for a
delta of at most 1500, the accumulated bits and the cursor are kept. If the
next accepted edge, after any number of calls that accept none, is a real
pulse, the callback is invoked in that later call exactly when the delta of
both edges is at most 1500, and then with the decode of the bits accumulated
before the no-pulse edge. -/
theorem noPulse_edge_never_decodes (self : DCF77Receiver) (sample : Bool) (time : Nat)
    (uninit : DCF77Timestamp) (hedge : (self.smooth sample).edgeRecognised = true)
    (hlo : 500 ≤ self.timeEdgeDelta time)
    (hp : (self.smooth sample).sumSamplesPulse > nSampleThresholdMinute)
    (hcur : self.bitptrTimebits = Bitptr.ofPosition 59) (hcb : self.callbackReceived = true) :
    (self.processSample sample time uninit).2 = none
      ∧ (self.processSample sample time uninit).1.changeover = true
      ∧ (self.processSample sample time uninit).1.callbackReceived = true
      ∧ (self.processSample sample time uninit).1.timebits = self.timebits
      ∧ (self.timeEdgeDelta time ≤ 1500 →
          (self.processSample sample time uninit).1.bitptrTimebits.eqPosition 59 = true)
      ∧ ∀ (s : Nat → Bool) (t : Nat → Nat) (u : Nat → DCF77Timestamp) (m : Nat),
          (∀ k, k < m →
            (((self.processSample sample time uninit).1.after s t u k).smooth
                (s k)).edgeRecognised = false
              ∨ ((self.processSample sample time uninit).1.after s t u k).timeEdgeDelta (t k)
                < 500) →
          (((self.processSample sample time uninit).1.after s t u m).smooth
            (s m)).edgeRecognised = true →
          500 ≤ ((self.processSample sample time uninit).1.after s t u m).timeEdgeDelta (t m) →
          (((self.processSample sample time uninit).1.after s t u m).smooth
            (s m)).sumSamplesPulse ≤ nSampleThresholdMinute →
          (((self.processSample sample time uninit).1.after s t u m).processSample
              (s m) (t m) (u m)).2
            = if self.timeEdgeDelta time ≤ 1500
                ∧ ((self.processSample sample time uninit).1.after s t u m).timeEdgeDelta (t m)
                  ≤ 1500 then
                some ((u m).decode self.timebits)
              else none := by
  have hdel := timeEdgeDelta_smooth self sample time
  obtain ⟨-, e2, e3, -, e5⟩ := smooth_detector self sample
  have hd := detect_noPulse _ time uninit hedge (by rw [hdel]; exact hlo) hp
  refine ⟨?_, ?_, ?_, ?_, ?_, noPulse_then_pulse self sample time uninit hedge hlo hp hcur hcb⟩
  · rw [processSample_eq, hd]
  · rw [processSample_eq, hd]
  · rw [processSample_eq, hd]
    exact e5.trans hcb
  · rw [processSample_eq, hd]
    exact e2
  · intro hhi
    rw [processSample_eq, hd]
    dsimp only
    rw [hdel, if_neg (by omega), e3, hcur]
    decide

/-- On the clean signal of 67 short pulses and two minute markers the edge of
the second marker (call 2182) delivers nothing, and the next accepted edge, the
pulse of second 69 (call 2214), delivers the decode of the 59 zero bits
collected before. -/
theorem noPulse_edge_never_decodes_witness :
    ((stateAfter true (signal doubleMarkerKinds) sampleClock (fun _ => blankTimestamp)
        (32 * 68 + 6)).smooth (signal doubleMarkerKinds (32 * 68 + 6))).edgeRecognised = true
      ∧ 500 ≤ (stateAfter true (signal doubleMarkerKinds) sampleClock (fun _ => blankTimestamp)
          (32 * 68 + 6)).timeEdgeDelta (sampleClock (32 * 68 + 6))
      ∧ ((stateAfter true (signal doubleMarkerKinds) sampleClock (fun _ => blankTimestamp)
          (32 * 68 + 6)).smooth (signal doubleMarkerKinds (32 * 68 + 6))).sumSamplesPulse
          > nSampleThresholdMinute
      ∧ (stateAfter true (signal doubleMarkerKinds) sampleClock (fun _ => blankTimestamp)
          (32 * 68 + 6)).bitptrTimebits = Bitptr.ofPosition 59
      ∧ delivered true (signal doubleMarkerKinds) sampleClock (fun _ => blankTimestamp)
          (32 * 68 + 6) = none
      ∧ delivered true (signal doubleMarkerKinds) sampleClock (fun _ => blankTimestamp)
          (32 * 69 + 6) = some (blankTimestamp.decode [0, 0, 0, 0, 0, 0, 0, 0]) := by
  have hK := doubleMarkerKinds_marker
  obtain ⟨m1, n1, hz⟩ := doubleMarker_tracking
  have hedge := edge_call true _ 67 68 hK sampleClock (fun _ => blankTimestamp) 68
    (by norm_num)
  have hp := (edge_counts true doubleMarkerKinds sampleClock (fun _ => blankTimestamp) 68).1.2
    (by decide)
  have hcb := stateAfter_callback true (signal doubleMarkerKinds) sampleClock
    (fun _ => blankTimestamp) (32 * 68 + 6)
  have hhi : (stateAfter true (signal doubleMarkerKinds) sampleClock (fun _ => blankTimestamp)
      (32 * 68 + 6)).timeEdgeDelta (sampleClock (32 * 68 + 6)) ≤ 1500 := by
    rcases m1.delta_hi with h | h
    · exact h
    · omega
  have hhi2 : (stateAfter true (signal doubleMarkerKinds) sampleClock (fun _ => blankTimestamp)
      (32 * 69 + 6)).timeEdgeDelta (sampleClock (32 * 69 + 6)) ≤ 1500 := by
    rcases n1.delta_hi with h | h
    · exact h
    · omega
  have hafter : ∀ k,
      ((stateAfter true (signal doubleMarkerKinds) sampleClock (fun _ => blankTimestamp)
          (32 * 68 + 6)).processSample (signal doubleMarkerKinds (32 * 68 + 6))
          (sampleClock (32 * 68 + 6)) blankTimestamp).1.after
        (fun i => signal doubleMarkerKinds (32 * 68 + 6 + 1 + i))
        (fun i => sampleClock (32 * 68 + 6 + 1 + i)) (fun _ => blankTimestamp) k
      = stateAfter true (signal doubleMarkerKinds) sampleClock (fun _ => blankTimestamp)
          (32 * 68 + 6 + 1 + k) :=
    after_processSample true (signal doubleMarkerKinds) sampleClock (fun _ => blankTimestamp)
      (32 * 68 + 6)
  have e31 : 32 * 68 + 6 + 1 + 31 = 32 * 69 + 6 := rfl
  have hnext := (noPulse_edge_never_decodes _ (signal doubleMarkerKinds (32 * 68 + 6))
    (sampleClock (32 * 68 + 6)) blankTimestamp hedge m1.delta_lo hp m1.cursor hcb).2.2.2.2.2
    (fun i => signal doubleMarkerKinds (32 * 68 + 6 + 1 + i))
    (fun i => sampleClock (32 * 68 + 6 + 1 + i)) (fun _ => blankTimestamp) 31
    (by
      intro k hk
      left
      rw [hafter k, edge_iff true _ 67 68 hK]
      exact decide_eq_false (by omega))
    (by
      rw [hafter 31]
      dsimp only
      rw [e31]
      exact edge_call true _ 67 68 hK sampleClock (fun _ => blankTimestamp) 69 (by norm_num))
    (by
      rw [hafter 31]
      dsimp only
      rw [e31]
      exact n1.delta_lo)
    (by
      rw [hafter 31]
      dsimp only
      rw [e31]
      have h := (edge_counts true doubleMarkerKinds sampleClock (fun _ => blankTimestamp)
        69).1.1
      by_contra hc
      have := h (by omega)
      revert this
      decide)
  rw [hafter 31] at hnext
  dsimp only at hnext
  rw [e31, if_pos ⟨hhi, hhi2⟩] at hnext
  refine ⟨hedge, m1.delta_lo, hp, m1.cursor,
    (delivered_processSample true (signal doubleMarkerKinds) sampleClock
      (fun _ => blankTimestamp) (32 * 68 + 6)).trans
      (noPulse_edge_never_decodes _ (signal doubleMarkerKinds (32 * 68 + 6))
        (sampleClock (32 * 68 + 6)) blankTimestamp hedge m1.delta_lo hp m1.cursor hcb).1, ?_⟩
  rw [delivered_processSample, ← decode_congr blankTimestamp _ _ (fun i hi => (hz i hi).trans (by
    revert i
    decide))]
  exact hnext

/-! ## What the edge pattern examines -/

/-- C22 (counterexample): on a clean signal of short pulses the first edge is
recognised in call 262, and there the most recent smoothed sample (bit 0 of the
smoothed window) is 1. -/
theorem edge_with_recent_sample_set :
    ((stateAfter true (signal (cleanKinds 13 (fun _ => false) sampleFrame false)) sampleClock
        (fun _ => blankTimestamp) (32 * 8 + 6)).smooth
          (signal (cleanKinds 13 (fun _ => false) sampleFrame false)
            (32 * 8 + 6))).edgeRecognised = true
      ∧ ((stateAfter true (signal (cleanKinds 13 (fun _ => false) sampleFrame false)) sampleClock
          (fun _ => blankTimestamp) (32 * 8 + 6)).smooth
            (signal (cleanKinds 13 (fun _ => false) sampleFrame false)
              (32 * 8 + 6))).windowSmooth.testBit 0 = true := by
  have hK := cleanKinds_marker 13 (fun _ => false) sampleFrame false
  refine ⟨edge_call true _ 13 (13 + 60) hK sampleClock (fun _ => blankTimestamp) 8
    (le_refl _), ?_⟩
  rw [(smooth_windowSmooth_after true _ sampleClock (fun _ => blankTimestamp) (32 * 8 + 6)).1,
    windowSmooth_bits true _ sampleClock (fun _ => blankTimestamp) (32 * 8 + 6) 0 (by norm_num),
    smoothed_high true _ sampleClock (fun _ => blankTimestamp) (32 * 8 + 6 - 0) (by norm_num)
      (by norm_num)]
  rfl

/-- C22 (amended): the edge pattern is recognised exactly when smoothed samples
9, 8 and 7 are 1 and smoothed samples 6, 5 and 4 are 0; the four most recent
smoothed samples (bits 3..0) are not examined. -/
theorem edge_examines_bits_9_to_4 (s : DCF77Receiver) :
    (s.edgeRecognised = true ↔
        s.windowSmooth.testBit 9 = true ∧ s.windowSmooth.testBit 8 = true
          ∧ s.windowSmooth.testBit 7 = true ∧ s.windowSmooth.testBit 6 = false
          ∧ s.windowSmooth.testBit 5 = false ∧ s.windowSmooth.testBit 4 = false)
      ∧ ∀ older recent : Nat,
          ({ s with windowSmooth := 2 ^ 4 * older + recent % 2 ^ 4 } : DCF77Receiver).edgeRecognised
            = ({ s with windowSmooth := 2 ^ 4 * older } : DCF77Receiver).edgeRecognised := by
  constructor
  · rw [edgeRecognised_bits]
    cases s.windowSmooth.testBit 9 <;> cases s.windowSmooth.testBit 8 <;>
      cases s.windowSmooth.testBit 7 <;> cases s.windowSmooth.testBit 6 <;>
      cases s.windowSmooth.testBit 5 <;> cases s.windowSmooth.testBit 4 <;> simp
  · intro older recent
    have hb : ∀ j, 4 ≤ j →
        (2 ^ 4 * older + recent % 2 ^ 4).testBit j = (2 ^ 4 * older).testBit j := by
      intro j hj
      have h1 := Nat.testBit_mul_pow_two_add older (Nat.mod_lt recent (by norm_num : 0 < 2 ^ 4)) j
      have h2 := Nat.testBit_mul_pow_two_add older (by norm_num : 0 < 2 ^ 4) j
      rw [Nat.add_zero] at h2
      rw [h1, h2, if_neg (by omega), if_neg (by omega)]
    rw [edgeRecognised_bits, edgeRecognised_bits]
    dsimp only
    rw [hb 9 (by norm_num), hb 8 (by norm_num), hb 7 (by norm_num), hb 6 (by norm_num),
      hb 5 (by norm_num), hb 4 (by norm_num)]

/-! ## The raw window at an accepted edge -/

theorem low_bits_eq (w v m : Nat) (hv : v < 2 ^ m)
    (h : ∀ j, j < m → w.testBit j = v.testBit j) : w % 2 ^ m = v := by
  apply Nat.eq_of_testBit_eq
  intro j
  rw [Nat.testBit_mod_two_pow]
  by_cases hj : j < m
  · simp [hj, h j hj]
  · have : v.testBit j = false :=
      Nat.testBit_lt_two_pow (lt_of_lt_of_le hv (Nat.pow_le_pow_right (by norm_num) (by omega)))
    simp [hj, this]

theorem popCount_mod_pow (w m n : Nat) (hn : n ≤ m) :
    popCount w n = popCount (w % 2 ^ m) n := by
  apply popCount_congr
  intro k hk
  rw [Nat.testBit_mod_two_pow]
  have : k < m := by omega
  simp [this]

/-- The edge pattern does not examine the smoothed sample of the call itself. -/
theorem edgeRecognised_smooth (s : DCF77Receiver) (a b : Bool) :
    (s.smooth a).edgeRecognised = (s.smooth b).edgeRecognised := by
  have hb : ∀ j, j ≠ 0 →
      (s.smooth a).windowSmooth.testBit j = (s.smooth b).windowSmooth.testBit j := by
    intro j hj
    rw [smooth_windowSmooth, smooth_windowSmooth, testBit_shiftIn, testBit_shiftIn, if_neg hj,
      if_neg hj]
  rw [edgeRecognised_bits, edgeRecognised_bits, hb 9 (by norm_num), hb 8 (by norm_num),
    hb 7 (by norm_num), hb 6 (by norm_num), hb 5 (by norm_num), hb 4 (by norm_num)]

/-- The raw window a call sees: the sample of the call and the 15 before it. -/
theorem windowPulse_call (cb : Bool) (s : Nat → Bool) (t : Nat → Nat)
    (u : Nat → DCF77Timestamp) (n : Nat) (b : Bool) (j : Nat) (hj : j < 16) :
    ((stateAfter cb s t u (n + 1)).smooth b).windowPulse.testBit j
      = if j = 0 then b else (decide (j ≤ n + 1) && s (n + 1 - j)) := by
  rw [smooth_windowPulse, testBit_shiftIn]
  by_cases h0 : j = 0
  · rw [if_pos h0, if_pos h0]
  · rw [if_neg h0, if_neg h0, windowPulse_bits cb s t u n (j - 1) (by omega)]
    have e1 : n - (j - 1) = n + 1 - j := by omega
    have e2 : (j - 1 ≤ n) ↔ (j ≤ n + 1) := by omega
    rw [e1]
    simp [hj, e2]

/-- The cursor a real-pulse edge writes at, for a synchronised detector. -/
theorem cursorAfterReset_tracking (st : DCF77Receiver) (tnext c : Nat) (ch : Bool)
    (h : Tracking st tnext c ch) :
    cursorAfterReset st tnext = Bitptr.ofPosition (if ch = true then 0 else c) := by
  unfold cursorAfterReset
  rw [h.changeover, h.cursor]
  cases ch
  · rcases h.delta_hi with h1 | ⟨h1, -⟩
    · rw [if_neg (by simp; omega)]
      simp
    · subst h1
      simp
  · simp

/-- The first edge call of a clean signal, call 262, with any sample in that
call: the edge is accepted with the cursor at 0 and no changeover pending, and
the low bits of the raw window are that sample and the ones before it. -/
theorem first_edge_call (K : Nat → SecondKind) (A B : Nat)
    (hK : ∀ k, K k = SecondKind.marker → k = A ∨ k = B) (b : Bool) :
    ((stateAfter true (signal K) sampleClock (fun _ => blankTimestamp) 262).smooth
        b).edgeRecognised = true
      ∧ Tracking (stateAfter true (signal K) sampleClock (fun _ => blankTimestamp) 262)
          (sampleClock 262) 0 false
      ∧ cursorAfterReset (stateAfter true (signal K) sampleClock (fun _ => blankTimestamp) 262)
          (sampleClock 262) = Bitptr.ofPosition 0
      ∧ ∀ m M v, m ≤ 16 → M = 2 ^ m → v < M →
          (∀ j, j < m → (if j = 0 then b else signal K (262 - j)) = v.testBit j) →
          ((stateAfter true (signal K) sampleClock (fun _ => blankTimestamp) 262).smooth
            b).windowPulse % M = v := by
  obtain ⟨sa, -⟩ := start_tracking true K A B hK sampleClock (fun _ => blankTimestamp)
    sampleClock_step
  obtain ⟨tr, -⟩ := sa (by decide)
  have he := edge_call true K A B hK sampleClock (fun _ => blankTimestamp) 8 (le_refl _)
  have e0 : 32 * 8 + 6 = 262 := rfl
  rw [e0] at he
  refine ⟨?_, tr, ?_, ?_⟩
  · rw [edgeRecognised_smooth _ b (signal K 262)]
    exact he
  · rw [cursorAfterReset_tracking _ _ _ _ tr]
    rfl
  · intro m M v hm hM hv h
    subst hM
    apply low_bits_eq _ _ _ hv
    intro j hj
    have e1 : (262 : Nat) = 261 + 1 := rfl
    rw [← h j hj]
    rw [e1, windowPulse_call true (signal K) sampleClock (fun _ => blankTimestamp) 261 b j
      (by omega)]
    have : j ≤ 261 + 1 := by omega
    simp [this]

/-- An accepted edge with more than `nSampleThresholdMinute` of the seven low
raw-window bits set: the changeover becomes pending, nothing is appended. -/
theorem accepted_noPulse (self : DCF77Receiver) (sample : Bool) (time : Nat)
    (uninit : DCF77Timestamp) (hedge : (self.smooth sample).edgeRecognised = true)
    (hlo : 500 ≤ self.timeEdgeDelta time)
    (hp : popCount (self.smooth sample).windowPulse 7 > 5) :
    (self.processSample sample time uninit).1.changeover = true
      ∧ (self.processSample sample time uninit).1.timebits = self.timebits
      ∧ (self.processSample sample time uninit).1.bitptrTimebits
          = (if self.timeEdgeDelta time > 1500 then Bitptr.ofPosition 0
              else self.bitptrTimebits) := by
  have hdel := timeEdgeDelta_smooth self sample time
  obtain ⟨-, e2, e3, -, -⟩ := smooth_detector self sample
  have h3 : (self.smooth sample).sumSamplesPulse > nSampleThresholdMinute := by
    rw [sumSamplesPulse_eq]
    exact hp
  have hd := detect_noPulse _ time uninit hedge (by rw [hdel]; exact hlo) h3
  rw [processSample_eq, hd]
  dsimp only
  rw [hdel, e3]
  exact ⟨rfl, e2, rfl⟩

/-- An accepted edge with at most `nSampleThresholdMinute` of the seven low
raw-window bits set and the cursor (after any reset of this call) at `c < 60`:
the time bit is written at `c`, it is 1 exactly when at most
`nSampleThresholdZero` of the four low raw-window bits are set. -/
theorem accepted_pulse (self : DCF77Receiver) (sample : Bool) (time : Nat)
    (uninit : DCF77Timestamp) (c : Nat)
    (hedge : (self.smooth sample).edgeRecognised = true)
    (hlo : 500 ≤ self.timeEdgeDelta time)
    (hcur : cursorAfterReset self time = Bitptr.ofPosition c) (hc : c < 60)
    (hlen : self.timebits.length = 8)
    (hp : ¬ popCount (self.smooth sample).windowPulse 7 > 5) :
    bitAt (self.processSample sample time uninit).1.timebits c
        = decide (popCount (self.smooth sample).windowPulse 4 ≤ 1)
      ∧ (∀ i, i ≠ c →
          bitAt (self.processSample sample time uninit).1.timebits i = bitAt self.timebits i)
      ∧ (self.processSample sample time uninit).1.bitptrTimebits = Bitptr.ofPosition (c + 1)
      ∧ (self.processSample sample time uninit).1.changeover = false := by
  have hdel := timeEdgeDelta_smooth self sample time
  have h2 : 500 ≤ (self.smooth sample).timeEdgeDelta time := by rw [hdel]; exact hlo
  obtain ⟨-, e2, -, -, -⟩ := smooth_detector self sample
  have hcar := cursorAfterReset_smooth self sample time
  have h3 : ¬ (self.smooth sample).sumSamplesPulse > nSampleThresholdMinute := by
    rw [sumSamplesPulse_eq]
    exact hp
  obtain ⟨d1, -⟩ := detect_pulse _ time uninit hedge h2 h3
  rw [processSample_eq, d1, hcar, hcur, nePosition_ofPosition c (by omega),
    if_pos (by simp; omega), sumSamplesTrail_eq]
  dsimp only
  rw [e2, ofPosition_eq c (by omega)]
  refine ⟨?_, ?_, ?_, rfl⟩
  · rw [bitAt_set _ _ _ _ (by rw [hlen]; omega), if_pos rfl]
    rfl
  · intro i hi
    rw [bitAt_set _ _ _ _ (by rw [hlen]; omega), if_neg hi]
  · rw [← ofPosition_eq c (by omega), inc_ofPosition c (by omega)]

/-- What `processSample` does at an accepted edge, in terms of `pulseKind`: the
changeover is pending afterwards exactly for a no-pulse, and a pulse writes 1
exactly when it is a long one. -/
theorem accepted_edge_pulseKind (self : DCF77Receiver) (sample : Bool) (time : Nat)
    (uninit : DCF77Timestamp) (c : Nat)
    (hedge : (self.smooth sample).edgeRecognised = true)
    (hlo : 500 ≤ self.timeEdgeDelta time)
    (hcur : cursorAfterReset self time = Bitptr.ofPosition c) (hc : c < 60)
    (hlen : self.timebits.length = 8) :
    ((self.processSample sample time uninit).1.changeover = true
        ↔ (self.smooth sample).pulseKind = SecondKind.marker)
      ∧ ((self.smooth sample).pulseKind ≠ SecondKind.marker →
          bitAt (self.processSample sample time uninit).1.timebits c
            = decide ((self.smooth sample).pulseKind = SecondKind.bit1)) := by
  unfold DCF77Receiver.pulseKind
  rw [sumSamplesPulse_eq, sumSamplesTrail_eq]
  by_cases hp : popCount (self.smooth sample).windowPulse 7 > 5
  · obtain ⟨a1, -, -⟩ := accepted_noPulse self sample time uninit hedge hlo hp
    have hp' : popCount (self.smooth sample).windowPulse 7 > nSampleThresholdMinute := hp
    rw [if_pos hp']
    exact ⟨⟨fun _ => rfl, fun _ => a1⟩, fun h => absurd rfl h⟩
  · obtain ⟨b1, -, -, b4⟩ := accepted_pulse self sample time uninit c hedge hlo hcur hc hlen hp
    have hp' : ¬ popCount (self.smooth sample).windowPulse 7 > nSampleThresholdMinute := hp
    rw [if_neg hp', b4, b1]
    by_cases ht : popCount (self.smooth sample).windowPulse 4 ≤ 1
    · have ht' : popCount (self.smooth sample).windowPulse 4 ≤ nSampleThresholdZero := ht
      rw [if_pos ht']
      simp [ht]
    · have ht' : ¬ popCount (self.smooth sample).windowPulse 4 ≤ nSampleThresholdZero := ht
      rw [if_neg ht']
      simp [ht]

/-- The edge pattern does not examine the smoothed samples of the call itself
and of the call before it. -/
theorem edgeRecognised_smooth_smooth (s : DCF77Receiver) (a a' b b' : Bool) :
    ((s.smooth a).smooth b).edgeRecognised = ((s.smooth a').smooth b').edgeRecognised := by
  have hb : ∀ j, 2 ≤ j → ((s.smooth a).smooth b).windowSmooth.testBit j
      = ((s.smooth a').smooth b').windowSmooth.testBit j := by
    intro j hj
    rw [smooth_windowSmooth (s.smooth a), smooth_windowSmooth (s.smooth a'), testBit_shiftIn,
      testBit_shiftIn, if_neg (by omega), if_neg (by omega), smooth_windowSmooth s,
      smooth_windowSmooth s, testBit_shiftIn, testBit_shiftIn, if_neg (by omega),
      if_neg (by omega)]
  rw [edgeRecognised_bits, edgeRecognised_bits, hb 9 (by norm_num), hb 8 (by norm_num),
    hb 7 (by norm_num), hb 6 (by norm_num), hb 5 (by norm_num), hb 4 (by norm_num)]

/-- The first edge call of a clean signal, call 262, when the sample of the
call before it was `a` instead of the clean one and the sample of the call is
`b`: the edge is still accepted with the cursor at 0 and no changeover pending,
and the low bits of the raw window are `b`, `a` and the clean samples before
them. -/
theorem first_edge_after_flip (K : Nat → SecondKind) (A B : Nat)
    (hK : ∀ k, K k = SecondKind.marker → k = A ∨ k = B) (a b : Bool) :
    ((((stateAfter true (signal K) sampleClock (fun _ => blankTimestamp) 261).processSample a
        (sampleClock 261) blankTimestamp).1).smooth b).edgeRecognised = true
      ∧ Tracking ((stateAfter true (signal K) sampleClock (fun _ => blankTimestamp)
          261).processSample a (sampleClock 261) blankTimestamp).1 (sampleClock 262) 0 false
      ∧ cursorAfterReset ((stateAfter true (signal K) sampleClock (fun _ => blankTimestamp)
          261).processSample a (sampleClock 261) blankTimestamp).1 (sampleClock 262)
          = Bitptr.ofPosition 0
      ∧ ∀ m M v, m ≤ 16 → M = 2 ^ m → v < M →
          (∀ j, j < m →
            (if j = 0 then b else if j = 1 then a else signal K (262 - j)) = v.testBit j) →
          ((((stateAfter true (signal K) sampleClock (fun _ => blankTimestamp)
            261).processSample a (sampleClock 261) blankTimestamp).1).smooth b).windowPulse
            % M = v := by
  have hq : ∀ x, ((stateAfter true (signal K) sampleClock (fun _ => blankTimestamp)
      261).smooth x).edgeRecognised = false := by
    intro x
    rw [edgeRecognised_smooth _ x (signal K 261), edge_iff true K A B hK]
    decide
  have hstep : ∀ x, ((stateAfter true (signal K) sampleClock (fun _ => blankTimestamp)
      261).processSample x (sampleClock 261) blankTimestamp).1
      = (stateAfter true (signal K) sampleClock (fun _ => blankTimestamp) 261).smooth x := by
    intro x
    rw [processSample_eq, detect_ignored _ _ _ (Or.inl (hq x))]
  have h262 : stateAfter true (signal K) sampleClock (fun _ => blankTimestamp) 262
      = (stateAfter true (signal K) sampleClock (fun _ => blankTimestamp) 261).smooth
          (signal K 261) := by
    have e : (262 : Nat) = 261 + 1 := rfl
    rw [e, stateAfter_succ, detect_ignored _ _ _ (Or.inl (hq _))]
  obtain ⟨c1, c2, -, -⟩ := first_edge_call K A B hK (signal K 262)
  rw [hstep a]
  have tr : Tracking ((stateAfter true (signal K) sampleClock (fun _ => blankTimestamp)
      261).smooth a) (sampleClock 262) 0 false := by
    apply tracking_congr _ _ _ _ _ _ c2
    rw [h262]
    exact sameDetector_trans _ _ _ (sameDetector_smooth _ _)
      ⟨(smooth_detector _ _).1.symm, (smooth_detector _ _).2.1.symm,
        (smooth_detector _ _).2.2.1.symm, (smooth_detector _ _).2.2.2.1.symm⟩
  refine ⟨?_, tr, ?_, ?_⟩
  · rw [edgeRecognised_smooth_smooth _ a (signal K 261) b (signal K 262), ← h262]
    exact c1
  · rw [cursorAfterReset_tracking _ _ _ _ tr]
    rfl
  · intro m M v hm hM hv h
    subst hM
    apply low_bits_eq _ _ _ hv
    intro j hj
    rw [← h j hj, smooth_windowPulse, testBit_shiftIn]
    by_cases h0 : j = 0
    · rw [if_pos h0, if_pos h0]
    · have e : (261 : Nat) = 260 + 1 := rfl
      rw [if_neg h0, if_neg h0, e,
        windowPulse_call true (signal K) sampleClock (fun _ => blankTimestamp) 260 a (j - 1)
          (by omega)]
      by_cases h1 : j = 1
      · subst h1
        simp
      · have e1 : j - 1 ≠ 0 := by omega
        have e2 : j - 1 ≤ 260 + 1 := by omega
        have e3 : 260 + 1 - (j - 1) = 262 - j := by omega
        have e4 : j < 16 := by omega
        rw [if_neg e1, if_neg h1, e3]
        simp [e2, e4]

/-! ## The classification of the raw window -/

theorem popCount_mod (w n : Nat) (hn : n ≤ 7) : popCount w n = popCount (w % 128) n := by
  apply popCount_congr
  intro k hk
  have e : (128 : Nat) = 2 ^ 7 := rfl
  rw [e, Nat.testBit_mod_two_pow]
  have : k < 7 := by omega
  simp [this]

/-- The classification in terms of the seven low bits of the raw window. -/
theorem pulseKind_eq (s : DCF77Receiver) :
    s.pulseKind
      = if popCount (s.windowPulse % 128) 7 > 5 then SecondKind.marker
        else if popCount (s.windowPulse % 128) 4 ≤ 1 then SecondKind.bit1
        else SecondKind.bit0 := by
  unfold DCF77Receiver.pulseKind
  rw [sumSamplesPulse_eq, sumSamplesTrail_eq, popCount_mod _ 7 (le_refl _),
    popCount_mod _ 4 (by norm_num)]
  rfl

/-- C23 (counterexample): the long pulse window `0000001` is classified as time
bit 1 and written as 1, but with its bit 1 flipped (`0000011`) it is classified
as time bit 0 and written as 0. -/
theorem long_pulse_flip_misread :
    ((stateBeforeEdge 0b000000 false 5).smooth true).windowPulse % 128 = 0b0000001
      ∧ ((stateBeforeEdge 0b000000 false 5).smooth true).pulseKind = SecondKind.bit1
      ∧ bitAt ((stateBeforeEdge 0b000000 false 5).processSample true 1000
          blankTimestamp).1.timebits 5 = true
      ∧ ((stateBeforeEdge 0b000001 false 5).smooth true).windowPulse % 128
          = 0b0000001 ^^^ 2 ^ 1
      ∧ ((stateBeforeEdge 0b000001 false 5).smooth true).pulseKind = SecondKind.bit0
      ∧ bitAt ((stateBeforeEdge 0b000001 false 5).processSample true 1000
          blankTimestamp).1.timebits 5 = false := by
  decide

/-- C23 (amended): at an accepted edge with the cursor (after any reset of this
call) at `c < 60`, flipping any single one of the seven examined raw samples
leaves the classification of the no-pulse window `1111111` (changeover pending,
nothing appended) and of the short pulse window `0001111` (time bit 0 appended)
unchanged; the long pulse window `0000001` still appends time bit 1 when bit 0
or one of bits 4..6 is flipped, and appends time bit 0 when one of bits 1..3 is
flipped. -/
theorem single_flip_classification (self : DCF77Receiver) (sample : Bool) (time : Nat)
    (uninit : DCF77Timestamp) (c k : Nat) (hk : k < 7)
    (hedge : (self.smooth sample).edgeRecognised = true)
    (hlo : 500 ≤ self.timeEdgeDelta time)
    (hcur : cursorAfterReset self time = Bitptr.ofPosition c) (hc : c < 60)
    (hlen : self.timebits.length = 8) :
    ((self.smooth sample).windowPulse % 128 = 0b1111111 ^^^ 2 ^ k →
        (self.processSample sample time uninit).1.changeover = true
          ∧ (self.processSample sample time uninit).1.timebits = self.timebits)
      ∧ ((self.smooth sample).windowPulse % 128 = 0b0001111 ^^^ 2 ^ k →
        bitAt (self.processSample sample time uninit).1.timebits c = false
          ∧ (∀ i, i ≠ c →
              bitAt (self.processSample sample time uninit).1.timebits i = bitAt self.timebits i)
          ∧ (self.processSample sample time uninit).1.bitptrTimebits = Bitptr.ofPosition (c + 1)
          ∧ (self.processSample sample time uninit).1.changeover = false)
      ∧ ((self.smooth sample).windowPulse % 128 = 0b0000001 ^^^ 2 ^ k →
        bitAt (self.processSample sample time uninit).1.timebits c
            = (if 1 ≤ k ∧ k ≤ 3 then false else true)
          ∧ (∀ i, i ≠ c →
              bitAt (self.processSample sample time uninit).1.timebits i = bitAt self.timebits i)
          ∧ (self.processSample sample time uninit).1.bitptrTimebits = Bitptr.ofPosition (c + 1)
          ∧ (self.processSample sample time uninit).1.changeover = false) := by
  have h7 := popCount_mod (self.smooth sample).windowPulse 7 (le_refl _)
  have h4 := popCount_mod (self.smooth sample).windowPulse 4 (by norm_num)
  refine ⟨?_, ?_, ?_⟩
  · intro hw
    rw [hw] at h7
    obtain ⟨a1, a2, -⟩ := accepted_noPulse self sample time uninit hedge hlo
      (by rw [h7]; interval_cases k <;> decide)
    exact ⟨a1, a2⟩
  · intro hw
    rw [hw] at h7 h4
    have h := accepted_pulse self sample time uninit c hedge hlo hcur hc hlen
      (by rw [h7]; interval_cases k <;> decide)
    rw [h4] at h
    have e : decide (popCount (0b0001111 ^^^ 2 ^ k) 4 ≤ 1) = false := by
      interval_cases k <;> decide
    rw [e] at h
    exact h
  · intro hw
    rw [hw] at h7 h4
    have h := accepted_pulse self sample time uninit c hedge hlo hcur hc hlen
      (by rw [h7]; interval_cases k <;> decide)
    rw [h4] at h
    have e : decide (popCount (0b0000001 ^^^ 2 ^ k) 4 ≤ 1)
        = (if 1 ≤ k ∧ k ≤ 3 then false else true) := by
      interval_cases k <;> decide
    rw [e] at h
    exact h

/-- At the first edge (call 262) of two clean runs: a short pulse whose last
sample (bit 0) reads 0 is still written as time bit 0; a long pulse whose
sample of call 261 (bit 1) reads 1 is written as time bit 0. -/
theorem single_flip_classification_witness :
    ((stateAfter true (signal (cleanKinds 13 (fun _ => false) sampleFrame false)) sampleClock
        (fun _ => blankTimestamp) 262).smooth false).windowPulse % 128 = 0b0001111 ^^^ 2 ^ 0
      ∧ bitAt ((stateAfter true (signal (cleanKinds 13 (fun _ => false) sampleFrame false))
          sampleClock (fun _ => blankTimestamp) 262).processSample false (sampleClock 262)
            blankTimestamp).1.timebits 0 = false
      ∧ ((((stateAfter true (signal (cleanKinds 13 (fun _ => true) sampleFrame false))
          sampleClock (fun _ => blankTimestamp) 261).processSample true (sampleClock 261)
            blankTimestamp).1).smooth true).windowPulse % 128 = 0b0000001 ^^^ 2 ^ 1
      ∧ bitAt ((((stateAfter true (signal (cleanKinds 13 (fun _ => true) sampleFrame false))
          sampleClock (fun _ => blankTimestamp) 261).processSample true (sampleClock 261)
            blankTimestamp).1).processSample true (sampleClock 262)
            blankTimestamp).1.timebits 0 = false := by
  obtain ⟨b1, b2, b3, b4⟩ := first_edge_call (cleanKinds 13 (fun _ => false) sampleFrame false)
    13 (13 + 60) (cleanKinds_marker 13 (fun _ => false) sampleFrame false) false
  obtain ⟨c1, c2, c3, c4⟩ := first_edge_after_flip
    (cleanKinds 13 (fun _ => true) sampleFrame false)
    13 (13 + 60) (cleanKinds_marker 13 (fun _ => true) sampleFrame false) true true
  exact ⟨b4 7 128 (0b0001111 ^^^ 2 ^ 0) (by norm_num) (by norm_num) (by decide) (by decide),
    ((single_flip_classification _ false (sampleClock 262) blankTimestamp 0 0 (by norm_num)
      b1 b2.delta_lo b3 (by norm_num) b2.length).2.1
      (b4 7 128 (0b0001111 ^^^ 2 ^ 0) (by norm_num) (by norm_num) (by decide) (by decide))).1,
    c4 7 128 (0b0000001 ^^^ 2 ^ 1) (by norm_num) (by norm_num) (by decide) (by decide),
    ((single_flip_classification _ true (sampleClock 262) blankTimestamp 0 1 (by norm_num)
      c1 c2.delta_lo c3 (by norm_num) c2.length).2.2
      (c4 7 128 (0b0000001 ^^^ 2 ^ 1) (by norm_num) (by norm_num) (by decide) (by decide))).1⟩

/-- C24: at an accepted edge with no changeover pending and the cursor (after
any reset of this call) at `c < 60`, the raw window `1111111111` is a no-pulse:
the changeover becomes pending and no bit is appended; `1110001111` appends
time bit 0 and `1110000001` appends time bit 1 at position `c`. The documented
windows are the ten low bits of the 16-bit register, whose six older bits are
arbitrary (all set at the edges of a clean signal). -/
theorem documented_windows_classified (self : DCF77Receiver) (sample : Bool) (time : Nat)
    (uninit : DCF77Timestamp) (c : Nat)
    (hedge : (self.smooth sample).edgeRecognised = true)
    (hlo : 500 ≤ self.timeEdgeDelta time) (hch : self.changeover = false)
    (hcur : cursorAfterReset self time = Bitptr.ofPosition c) (hc : c < 60)
    (hlen : self.timebits.length = 8) :
    ((self.smooth sample).windowPulse % 1024 = 0b1111111111 →
        (self.processSample sample time uninit).1.changeover = true
          ∧ (self.processSample sample time uninit).1.timebits = self.timebits
          ∧ (self.processSample sample time uninit).1.bitptrTimebits = Bitptr.ofPosition c)
      ∧ ((self.smooth sample).windowPulse % 1024 = 0b1110001111 →
        bitAt (self.processSample sample time uninit).1.timebits c = false
          ∧ (∀ i, i ≠ c →
              bitAt (self.processSample sample time uninit).1.timebits i = bitAt self.timebits i)
          ∧ (self.processSample sample time uninit).1.bitptrTimebits = Bitptr.ofPosition (c + 1)
          ∧ (self.processSample sample time uninit).1.changeover = false)
      ∧ ((self.smooth sample).windowPulse % 1024 = 0b1110000001 →
        bitAt (self.processSample sample time uninit).1.timebits c = true
          ∧ (∀ i, i ≠ c →
              bitAt (self.processSample sample time uninit).1.timebits i = bitAt self.timebits i)
          ∧ (self.processSample sample time uninit).1.bitptrTimebits = Bitptr.ofPosition (c + 1)
          ∧ (self.processSample sample time uninit).1.changeover = false) := by
  have h7 : popCount (self.smooth sample).windowPulse 7
      = popCount ((self.smooth sample).windowPulse % 1024) 7 :=
    popCount_mod_pow (self.smooth sample).windowPulse 10 7 (by norm_num)
  have h4 : popCount (self.smooth sample).windowPulse 4
      = popCount ((self.smooth sample).windowPulse % 1024) 4 :=
    popCount_mod_pow (self.smooth sample).windowPulse 10 4 (by norm_num)
  refine ⟨?_, ?_, ?_⟩
  · intro hw
    rw [hw] at h7
    obtain ⟨a1, a2, a3⟩ := accepted_noPulse self sample time uninit hedge hlo
      (by rw [h7]; decide)
    refine ⟨a1, a2, ?_⟩
    rw [a3, ← hcur]
    unfold cursorAfterReset
    rw [hch]
    simp
  · intro hw
    rw [hw] at h7 h4
    have h := accepted_pulse self sample time uninit c hedge hlo hcur hc hlen
      (by rw [h7]; decide)
    rw [h4] at h
    exact h
  · intro hw
    rw [hw] at h7 h4
    have h := accepted_pulse self sample time uninit c hedge hlo hcur hc hlen
      (by rw [h7]; decide)
    rw [h4] at h
    exact h

/-- At the first edge (call 262) of three clean runs the 16-bit raw window ends
in the documented ten bits, its six older bits being set: a minute marker sets
the changeover flag, a short pulse writes 0 and a long pulse writes 1. -/
theorem documented_windows_classified_witness :
    ((stateAfter true (signal (cleanKinds 8 (fun _ => false) sampleFrame false)) sampleClock
        (fun _ => blankTimestamp) 262).smooth true).windowPulse % 65536 = 0b1111111111111111
      ∧ ((stateAfter true (signal (cleanKinds 8 (fun _ => false) sampleFrame false)) sampleClock
          (fun _ => blankTimestamp) 262).processSample true (sampleClock 262)
            blankTimestamp).1.changeover = true
      ∧ ((stateAfter true (signal (cleanKinds 13 (fun _ => false) sampleFrame false)) sampleClock
          (fun _ => blankTimestamp) 262).smooth true).windowPulse % 65536 = 0b1111111110001111
      ∧ bitAt ((stateAfter true (signal (cleanKinds 13 (fun _ => false) sampleFrame false))
          sampleClock (fun _ => blankTimestamp) 262).processSample true (sampleClock 262)
            blankTimestamp).1.timebits 0 = false
      ∧ ((stateAfter true (signal (cleanKinds 13 (fun _ => true) sampleFrame false)) sampleClock
          (fun _ => blankTimestamp) 262).smooth true).windowPulse % 65536 = 0b1111111110000001
      ∧ bitAt ((stateAfter true (signal (cleanKinds 13 (fun _ => true) sampleFrame false))
          sampleClock (fun _ => blankTimestamp) 262).processSample true (sampleClock 262)
            blankTimestamp).1.timebits 0 = true := by
  obtain ⟨a1, a2, a3, a4⟩ := first_edge_call (cleanKinds 8 (fun _ => false) sampleFrame false)
    8 (8 + 60) (cleanKinds_marker 8 (fun _ => false) sampleFrame false) true
  obtain ⟨b1, b2, b3, b4⟩ := first_edge_call (cleanKinds 13 (fun _ => false) sampleFrame false)
    13 (13 + 60) (cleanKinds_marker 13 (fun _ => false) sampleFrame false) true
  obtain ⟨c1, c2, c3, c4⟩ := first_edge_call (cleanKinds 13 (fun _ => true) sampleFrame false)
    13 (13 + 60) (cleanKinds_marker 13 (fun _ => true) sampleFrame false) true
  exact ⟨a4 16 65536 0b1111111111111111 (le_refl _) (by norm_num) (by norm_num) (by decide),
    ((documented_windows_classified _ true (sampleClock 262) blankTimestamp 0 a1 a2.delta_lo
      a2.changeover a3 (by norm_num) a2.length).1
      (a4 10 1024 0b1111111111 (by norm_num) (by norm_num) (by norm_num) (by decide))).1,
    b4 16 65536 0b1111111110001111 (le_refl _) (by norm_num) (by norm_num) (by decide),
    ((documented_windows_classified _ true (sampleClock 262) blankTimestamp 0 b1 b2.delta_lo
      b2.changeover b3 (by norm_num) b2.length).2.1
      (b4 10 1024 0b1110001111 (by norm_num) (by norm_num) (by norm_num) (by decide))).1,
    c4 16 65536 0b1111111110000001 (le_refl _) (by norm_num) (by norm_num) (by decide),
    ((documented_windows_classified _ true (sampleClock 262) blankTimestamp 0 c1 c2.delta_lo
      c2.changeover c3 (by norm_num) c2.length).2.2
      (c4 10 1024 0b1110000001 (by norm_num) (by norm_num) (by norm_num) (by decide))).1⟩

/-! ## Zero-bits and one-bits among the seven examined samples -/

theorem popCount_add_zeroCount (x : Nat) : ∀ n, popCount x n + zeroCount x n = n := by
  intro n
  induction n with
  | zero => rfl
  | succ n ih =>
    have hz : zeroCount x (n + 1) = zeroCount x n + (!x.testBit n).toNat := by
      unfold zeroCount
      rw [List.range_succ, List.filter_append, List.length_append]
      cases h : x.testBit n <;> simp [h]
    rw [popCount_succ, hz]
    cases x.testBit n <;> simp <;> omega

/-- C25 (counterexample): the raw window `0011111` has exactly 2 zero-bits among
the seven examined samples, yet the accepted edge is treated as a real pulse:
5 one-bits are not more than `nSampleThresholdMinute`, the changeover flag
stays clear and the cursor advances. -/
theorem two_zero_bits_is_a_pulse :
    ((stateBeforeEdge 0b001111 false 5).smooth true).edgeRecognised = true
      ∧ 500 ≤ (stateBeforeEdge 0b001111 false 5).timeEdgeDelta 1000
      ∧ ((stateBeforeEdge 0b001111 false 5).smooth true).windowPulse % 128 = 0b0011111
      ∧ zeroCount ((stateBeforeEdge 0b001111 false 5).smooth true).windowPulse 7 = 2
      ∧ ((stateBeforeEdge 0b001111 false 5).smooth true).sumSamplesPulse = 5
      ∧ ((stateBeforeEdge 0b001111 false 5).processSample true 1000
          blankTimestamp).1.changeover = false
      ∧ ((stateBeforeEdge 0b001111 false 5).processSample true 1000
          blankTimestamp).1.bitptrTimebits = Bitptr.ofPosition 6 := by
  decide

/-- C25 (amended): an accepted edge is detected as a non-pulse exactly when the
seven examined raw samples contain 1 or fewer zero-bits, this being the same
condition as having more than `nSampleThresholdMinute = 5` one-bits. -/
theorem noPulse_iff_at_most_one_zero (self : DCF77Receiver) (sample : Bool) (time : Nat)
    (uninit : DCF77Timestamp) (hedge : (self.smooth sample).edgeRecognised = true)
    (hlo : 500 ≤ self.timeEdgeDelta time) :
    ((self.processSample sample time uninit).1.changeover = true
        ↔ zeroCount (self.smooth sample).windowPulse 7 ≤ 1)
      ∧ (zeroCount (self.smooth sample).windowPulse 7 ≤ 1
        ↔ (self.smooth sample).sumSamplesPulse > nSampleThresholdMinute)
      ∧ (self.smooth sample).sumSamplesPulse + zeroCount (self.smooth sample).windowPulse 7
          = 7 := by
  have hdel := timeEdgeDelta_smooth self sample time
  have h2 : 500 ≤ (self.smooth sample).timeEdgeDelta time := by rw [hdel]; exact hlo
  have hsum := popCount_add_zeroCount (self.smooth sample).windowPulse 7
  rw [← sumSamplesPulse_eq] at hsum
  have hiff : zeroCount (self.smooth sample).windowPulse 7 ≤ 1
      ↔ (self.smooth sample).sumSamplesPulse > nSampleThresholdMinute := by
    unfold nSampleThresholdMinute
    omega
  refine ⟨?_, hiff, hsum⟩
  rw [hiff]
  by_cases hp : (self.smooth sample).sumSamplesPulse > nSampleThresholdMinute
  · rw [processSample_eq, detect_noPulse _ time uninit hedge h2 hp]
    exact ⟨fun _ => hp, fun _ => rfl⟩
  · obtain ⟨d1, -⟩ := detect_pulse _ time uninit hedge h2 hp
    rw [processSample_eq, d1]
    constructor
    · intro h
      split_ifs at h
    · intro h
      exact absurd h hp

theorem noPulse_iff_at_most_one_zero_witness :
    ((stateBeforeEdge 0b111111 false 5).smooth true).edgeRecognised = true
      ∧ 500 ≤ (stateBeforeEdge 0b111111 false 5).timeEdgeDelta 1000
      ∧ zeroCount ((stateBeforeEdge 0b111111 false 5).smooth true).windowPulse 7 ≤ 1
      ∧ ((stateBeforeEdge 0b111111 false 5).processSample true 1000
          blankTimestamp).1.changeover = true :=
  ⟨by decide, by decide, by decide,
    (noPulse_iff_at_most_one_zero (stateBeforeEdge 0b111111 false 5) true 1000 blankTimestamp
      (by decide) (by decide)).1.2 (by decide)⟩

/-! ## What the decoder reads and what it keeps -/

/-- C26: two frames that agree on bits 0, 17, 18 and 20..58 decode alike from
the same prior timestamp: same status, same time and date fields. -/
theorem decode_ignores_unvalidated_bits (self : DCF77Timestamp) (a b : List Nat)
    (h : ∀ i, (i = 0 ∨ i = 17 ∨ i = 18 ∨ (20 ≤ i ∧ i ≤ 58)) → bitAt a i = bitAt b i) :
    self.decode a = self.decode b := by
  have hb : ∀ offset width, (offset = 0 ∧ width = 1) ∨ (offset = 17 ∧ width = 2)
      ∨ (20 ≤ offset ∧ offset + width ≤ 59) →
      bitfield a offset width = bitfield b offset width := by
    intro offset width hw
    apply bitfield_congr
    intro i h1 h2
    apply h
    omega
  simp only [DCF77Timestamp.decode, DCF77Timestruct.ofBytes, hb 0 1 (by omega),
    hb 17 2 (by omega), hb 20 1 (by omega), hb 21 4 (by omega), hb 25 3 (by omega),
    hb 21 8 (by omega), hb 29 4 (by omega), hb 33 2 (by omega), hb 29 7 (by omega),
    hb 36 4 (by omega), hb 40 2 (by omega), hb 42 3 (by omega), hb 45 4 (by omega),
    hb 49 1 (by omega), hb 50 4 (by omega), hb 54 4 (by omega), hb 40 8 (by omega),
    hb 48 8 (by omega), hb 56 3 (by omega)]

theorem noisyFrame_agrees (i : Nat)
    (h : i = 0 ∨ i = 17 ∨ i = 18 ∨ (20 ≤ i ∧ i ≤ 58)) :
    bitAt sampleFrame i = bitAt noisyFrame i := by
  have hi : i < 59 := by omega
  interval_cases i <;> first | decide | omega

theorem decode_ignores_unvalidated_bits_witness :
    bitAt sampleFrame 16 ≠ bitAt noisyFrame 16
      ∧ blankTimestamp.decode sampleFrame = blankTimestamp.decode noisyFrame :=
  ⟨by decide, decode_ignores_unvalidated_bits blankTimestamp sampleFrame noisyFrame
    noisyFrame_agrees⟩

theorem ite_peel {α : Type} {c : Prop} [Decidable c] {A B A1 B1 r : α}
    (hr : (if c then A else B) = r) (hA : A = r → A1 = r) (hB : B = r → B1 = r) :
    (if c then A1 else B1) = r := by
  by_cases h : c
  · rw [if_pos h] at hr ⊢
    exact hA hr
  · rw [if_neg h] at hr ⊢
    exact hB hr

/-- C27: decoding the same frame a second time returns the same status and
leaves the status and every time and date field exactly as the first call left
them. -/
theorem decode_idempotent (self : DCF77Timestamp) (f : List Nat) :
    (self.decode f).decode f = self.decode f
      ∧ ((self.decode f).decode f).status = (self.decode f).status := by
  have key : (self.decode f).decode f = self.decode f := by
    generalize hr : self.decode f = r
    simp only [DCF77Timestamp.decode, DCF77Timestruct.ofBytes, bitfield_one f 0,
      bitfield_one f 20, bitfield_two f 17, Nat.reduceAdd] at hr
    simp only [DCF77Timestamp.decode, DCF77Timestruct.ofBytes, bitfield_one f 0,
      bitfield_one f 20, bitfield_two f 17, Nat.reduceAdd]
    generalize bitfield f 21 4 = m01 at hr ⊢
    generalize bitfield f 25 3 = m10 at hr ⊢
    generalize bitfield f 29 4 = h01 at hr ⊢
    generalize bitfield f 33 2 = h10 at hr ⊢
    generalize incorrectParity (bitfield f 21 8) = p1 at hr ⊢
    generalize incorrectParity (bitfield f 29 7) = p2 at hr ⊢
    generalize incorrectParity (bitfield f 36 4 ^^^ bitfield f 40 8 ^^^ bitfield f 48 8
      ^^^ bitfield f 56 3) = p3 at hr ⊢
    generalize bitfield f 36 4 = d01 at hr ⊢
    generalize bitfield f 40 2 = d10 at hr ⊢
    generalize bitfield f 42 3 = wd at hr ⊢
    generalize bitfield f 45 4 = mo01 at hr ⊢
    generalize bitfield f 49 1 = mo10 at hr ⊢
    generalize bitfield f 50 4 = y01 at hr ⊢
    generalize bitfield f 54 4 = y10 at hr ⊢
    generalize bitAt f 0 = a0 at hr ⊢
    generalize bitAt f 17 = a17 at hr ⊢
    generalize bitAt f 18 = a18 at hr ⊢
    generalize bitAt f 20 = a20 at hr ⊢
    repeat (refine ite_peel hr (fun hr => by subst hr; rfl) (fun hr => ?_))
    subst hr
    rfl
  exact ⟨key, by rw [key]⟩

/-! ## A broken date leaves a valid time -/

theorem firstFailing_cons_passes (b : Bool) (st : Status) (rest : List (Bool × Status))
    (S : List Status) (h : firstFailing ((b, st) :: rest) ∈ S) (hst : st ∉ S) :
    b = false ∧ firstFailing rest ∈ S := by
  cases b
  · exact ⟨rfl, h⟩
  · exact absurd h hst

/-- The time record after the checks up to the hour parity have passed. -/
theorem decode_time (self : DCF77Timestamp) (f : List Nat) (h0 : bitAt f 0 = false)
    (hz : bitAt f 17 ≠ bitAt f 18) (h20 : bitAt f 20 = true) (hm1 : bitfield f 21 4 ≤ 9)
    (hm2 : bitfield f 25 3 ≤ 5) (hpm : countBits f 21 28 % 2 = 0) (hh1 : bitfield f 29 4 ≤ 9)
    (hh2 : bitfield f 33 2 ≤ 2) (hhr : 10 * bitfield f 33 2 + bitfield f 29 4 ≤ 23)
    (hph : countBits f 29 35 % 2 = 0) :
    (self.decode f).time
      = { minute := 10 * bitfield f 25 3 + bitfield f 21 4
          hour := 10 * bitfield f 33 2 + bitfield f 29 4
          dst := bitAt f 17 } := by
  have em : (bitfield f 25 3 * 10 + bitfield f 21 4) % 256
      = 10 * bitfield f 25 3 + bitfield f 21 4 := by omega
  have eh : (bitfield f 33 2 * 10 + bitfield f 29 4) % 256
      = 10 * bitfield f 33 2 + bitfield f 29 4 := by omega
  have p1 : decide (countBits f 21 28 % 2 = 1) = false := decide_eq_false (by omega)
  have p2 : decide (countBits f 29 35 % 2 = 1) = false := decide_eq_false (by omega)
  simp only [DCF77Timestamp.decode, DCF77Timestruct.ofBytes, bitfield_one f 0,
    bitfield_one f 20, bitfield_two f 17, Nat.reduceAdd, incorrectParity_bitfield8,
    incorrectParity_bitfield7, p1, p2, em, eh, h0, h20]
  generalize bitfield f 21 4 = m01 at *
  generalize bitfield f 25 3 = m10 at *
  generalize bitfield f 29 4 = h01 at *
  generalize bitfield f 33 2 = h10 at *
  generalize bitfield f 36 4 = d01
  generalize bitfield f 40 2 = d10
  generalize bitfield f 42 3 = wd
  generalize bitfield f 45 4 = mo01
  generalize bitfield f 49 1 = mo10
  generalize bitfield f 50 4 = y01
  generalize bitfield f 54 4 = y10
  generalize incorrectParity (bitfield f 36 4 ^^^ bitfield f 40 8 ^^^ bitfield f 48 8
    ^^^ bitfield f 56 3) = p3
  have c1 : ¬ m01 > 9 := by omega
  have c2 : ¬ m10 > 5 := by omega
  have c3 : ¬ h01 > 9 := by omega
  have c4 : ¬ h10 > 2 := by omega
  have c5 : ¬ 10 * h10 + h01 > 23 := by omega
  revert hz
  cases bitAt f 17 <;> cases bitAt f 18 <;> intro hz
  · exact absurd rfl hz
  · simp only [Bool.toNat_true, Bool.toNat_false, Nat.reduceAdd, Nat.reduceMul, ne_eq,
      not_true_eq_false, not_false_eq_true, if_true, if_false, false_and, and_false,
      OfNat.ofNat_ne_one, Nat.reduceEqDiff, c1, c2, c3, c4, c5, Bool.false_eq_true,
      zero_ne_one, one_ne_zero, apply_ite DCF77Timestamp.time, ite_self]
  · simp only [Bool.toNat_true, Bool.toNat_false, Nat.reduceAdd, Nat.reduceMul, ne_eq,
      not_true_eq_false, not_false_eq_true, if_true, if_false, false_and, and_false,
      OfNat.ofNat_ne_one, Nat.reduceEqDiff, c1, c2, c3, c4, c5, Bool.false_eq_true,
      zero_ne_one, one_ne_zero, apply_ite DCF77Timestamp.time, ite_self]
  · exact absurd rfl hz

/-- C28: when `decode` returns one of the date errors, the checks up to the hour
parity have passed: the time record holds the BCD minute (at most 59), the BCD
hour (at most 23) and `dst` as the zone bits encode it, and the minute group
and the hour group have even parity. -/
theorem date_error_keeps_time (self : DCF77Timestamp) (f : List Nat)
    (h : (self.decode f).status ∈
      [Status.ERROR_DAY_01_RANGE, Status.ERROR_DAY_RANGE, Status.ERROR_WEEKDAY_RANGE,
        Status.ERROR_MONTH_01_RANGE, Status.ERROR_MONTH_RANGE, Status.ERROR_YEAR_01_RANGE,
        Status.ERROR_YEAR_10_RANGE, Status.ERROR_DATE_PARITY]) :
    (self.decode f).time.minute = 10 * bitfield f 25 3 + bitfield f 21 4
      ∧ (self.decode f).time.minute ≤ 59
      ∧ (self.decode f).time.hour = 10 * bitfield f 33 2 + bitfield f 29 4
      ∧ (self.decode f).time.hour ≤ 23
      ∧ bitAt f 17 ≠ bitAt f 18
      ∧ (self.decode f).time.dst = bitAt f 17
      ∧ countBits f 21 28 % 2 = 0
      ∧ countBits f 29 35 % 2 = 0 := by
  rw [decode_status] at h
  unfold firstFailure checks at h
  obtain ⟨c1, h⟩ := firstFailing_cons_passes _ _ _ _ h (by decide)
  obtain ⟨c2, h⟩ := firstFailing_cons_passes _ _ _ _ h (by decide)
  obtain ⟨c3, h⟩ := firstFailing_cons_passes _ _ _ _ h (by decide)
  obtain ⟨c4, h⟩ := firstFailing_cons_passes _ _ _ _ h (by decide)
  obtain ⟨c5, h⟩ := firstFailing_cons_passes _ _ _ _ h (by decide)
  obtain ⟨c6, h⟩ := firstFailing_cons_passes _ _ _ _ h (by decide)
  obtain ⟨c7, h⟩ := firstFailing_cons_passes _ _ _ _ h (by decide)
  obtain ⟨c8, h⟩ := firstFailing_cons_passes _ _ _ _ h (by decide)
  obtain ⟨c9, h⟩ := firstFailing_cons_passes _ _ _ _ h (by decide)
  obtain ⟨c10, -⟩ := firstFailing_cons_passes _ _ _ _ h (by decide)
  have hz : bitAt f 17 ≠ bitAt f 18 := by
    intro e
    rw [e] at c2
    simp at c2
  have h20 : bitAt f 20 = true := by
    revert c3
    cases bitAt f 20 <;> simp
  have hm1 : bitfield f 21 4 ≤ 9 := by have := of_decide_eq_false c4; omega
  have hm2 : bitfield f 25 3 ≤ 5 := by have := of_decide_eq_false c5; omega
  have hpm : countBits f 21 28 % 2 = 0 := by have := of_decide_eq_false c6; omega
  have hh1 : bitfield f 29 4 ≤ 9 := by have := of_decide_eq_false c7; omega
  have hh2 : bitfield f 33 2 ≤ 2 := by have := of_decide_eq_false c8; omega
  have hhr : 10 * bitfield f 33 2 + bitfield f 29 4 ≤ 23 := by
    have := of_decide_eq_false c9; omega
  have hph : countBits f 29 35 % 2 = 0 := by have := of_decide_eq_false c10; omega
  rw [decode_time self f c1 hz h20 hm1 hm2 hpm hh1 hh2 hhr hph]
  dsimp only
  exact ⟨rfl, by omega, rfl, hhr, hz, rfl, hpm, hph⟩

theorem date_error_keeps_time_witness :
    (blankTimestamp.decode [0, 0, 242, 118, 28, 3, 154, 4]).status = Status.ERROR_WEEKDAY_RANGE
      ∧ (blankTimestamp.decode [0, 0, 242, 118, 28, 3, 154, 4]).time.minute = 37
      ∧ (blankTimestamp.decode [0, 0, 242, 118, 28, 3, 154, 4]).time.hour = 23 :=
  ⟨by decide,
    ((date_error_keeps_time blankTimestamp [0, 0, 242, 118, 28, 3, 154, 4] (by decide)).1).trans
      (by decide),
    ((date_error_keeps_time blankTimestamp [0, 0, 242, 118, 28, 3, 154, 4]
      (by decide)).2.2.1).trans (by decide)⟩

/-! ## The failure statuses -/

theorem decode_status_mem (self : DCF77Timestamp) (f : List Nat) :
    (self.decode f).status = Status.VALID ∨ (self.decode f).status ∈ errorStatuses := by
  rw [decode_status, firstFailure]
  rcases firstFailing_mem (checks f) with h | ⟨c, hc, h⟩
  · exact Or.inl h
  · right
    rw [h]
    unfold checks at hc
    simp only [List.mem_cons, List.mem_singleton, List.not_mem_nil, or_false] at hc
    rcases hc with e | e | e | e | e | e | e | e | e | e | e | e | e | e | e | e | e | e <;>
      (rw [e]; dsimp only; decide)

/-- C30 (counterexample): there is no list of more than 20 different statuses
other than `VALID` that `decode` can return. -/
theorem no_21_failure_statuses :
    ¬ ∃ l : List Status, l.Nodup ∧ 20 < l.length
        ∧ ∀ st ∈ l, st ≠ Status.VALID
            ∧ ∃ (self : DCF77Timestamp) (f : List Nat), (self.decode f).status = st := by
  rintro ⟨l, hnd, hlen, hl⟩
  have hsub : l ⊆ errorStatuses := by
    intro st hst
    obtain ⟨hv, self, f, hd⟩ := hl st hst
    rcases decode_status_mem self f with h | h
    · exact absurd (hd.symm.trans h) hv
    · rw [hd] at h
      exact h
  have hle := (List.subperm_of_subset hnd hsub).length_le
  have : errorStatuses.length = 18 := rfl
  omega

/-- C30 (amended): the failure taxonomy of `decode` comprises exactly 18
distinct statuses: `decode` returns `VALID` or one of the 18 statuses named
`ERROR_...`, and each of the 18 is returned for some frame. -/
theorem exactly_18_failure_statuses :
    (∀ (self : DCF77Timestamp) (f : List Nat),
        (self.decode f).status = Status.VALID ∨ (self.decode f).status ∈ errorStatuses)
      ∧ errorStatuses.Nodup ∧ errorStatuses.length = 18
      ∧ failingFrames.map (fun f => (blankTimestamp.decode f).status) = errorStatuses :=
  ⟨decode_status_mem, by decide, rfl, by decide⟩

/-! ## The smoothing part is a function of the samples -/

theorem updateSums_congr (a b : DCF77Receiver) (h : SameSmoothing a b) (sample : Bool) :
    SameSmoothing (a.updateSums sample) (b.updateSums sample) := by
  obtain ⟨h1, h2, h3, h4, h5, h6, h7⟩ := h
  unfold DCF77Receiver.updateSums
  dsimp only
  rw [h1, h2, h3, h4, h5]
  split_ifs <;>
    exact ⟨by first | rfl | exact h1, by first | rfl | exact h2, by first | rfl | exact h3,
      by first | rfl | exact h4, by first | rfl | exact h5, by first | rfl | exact h6,
      by first | rfl | exact h7⟩

theorem sampleSmooth_congr (a b : DCF77Receiver) (h : SameSmoothing a b) (sample : Bool) :
    a.sampleSmooth sample = b.sampleSmooth sample := by
  unfold DCF77Receiver.sampleSmooth DCF77Receiver.sumSamples
  rw [(updateSums_congr a b h sample).sumsSamples, h.indexSumSamples, h.bitmaskSumSamples]

theorem advance_congr (a b : DCF77Receiver) (h : SameSmoothing a b) :
    SameSmoothing a.advance b.advance := by
  obtain ⟨h1, h2, h3, h4, h5, h6, h7⟩ := h
  unfold DCF77Receiver.advance
  dsimp only
  rw [h2, h4, h5]
  split_ifs <;>
    exact ⟨by first | rfl | exact h1, rfl, by first | rfl | exact h3, rfl, rfl,
      by first | rfl | exact h6, by first | rfl | exact h7⟩

theorem smooth_congr (a b : DCF77Receiver) (h : SameSmoothing a b) (sample : Bool) :
    SameSmoothing (a.smooth sample) (b.smooth sample) := by
  have hw : SameSmoothing
      { a with windowPulse := (a.windowPulse <<< 1) % 65536 ||| (if sample then 1 else 0) }
      { b with windowPulse := (b.windowPulse <<< 1) % 65536 ||| (if sample then 1 else 0) } :=
    ⟨h.samples, h.bitptrSamples, h.sumsSamples, h.indexSumSamples, h.bitmaskSumSamples,
      h.windowSmooth, by dsimp only; rw [h.windowPulse]⟩
  have hs := sampleSmooth_congr _ _ hw sample
  have hu := advance_congr _ _ (updateSums_congr _ _ hw sample)
  unfold DCF77Receiver.smooth
  dsimp only
  exact ⟨hu.samples, hu.bitptrSamples, hu.sumsSamples, hu.indexSumSamples,
    hu.bitmaskSumSamples, by dsimp only; rw [hu.windowSmooth, hs], hu.windowPulse⟩

theorem sameSmoothing_detect (s : DCF77Receiver) (time : Nat) (uninit : DCF77Timestamp) :
    SameSmoothing (s.detect time uninit).1 s := by
  obtain ⟨e1, e2, e3, e4, e5, e6, e7, -⟩ := detect_smoothing s time uninit
  exact ⟨e1, e2, e3, e4, e5, e6, e7⟩

theorem sameSmoothing_symm_trans (a b c d : DCF77Receiver) (h1 : SameSmoothing a b)
    (h2 : SameSmoothing b c) (h3 : SameSmoothing d c) : SameSmoothing a d :=
  ⟨(h1.samples.trans h2.samples).trans h3.samples.symm,
    (h1.bitptrSamples.trans h2.bitptrSamples).trans h3.bitptrSamples.symm,
    (h1.sumsSamples.trans h2.sumsSamples).trans h3.sumsSamples.symm,
    (h1.indexSumSamples.trans h2.indexSumSamples).trans h3.indexSumSamples.symm,
    (h1.bitmaskSumSamples.trans h2.bitmaskSumSamples).trans h3.bitmaskSumSamples.symm,
    (h1.windowSmooth.trans h2.windowSmooth).trans h3.windowSmooth.symm,
    (h1.windowPulse.trans h2.windowPulse).trans h3.windowPulse.symm⟩

/-- C29: two runs from the zero-initialised receiver that are fed the same
samples, with whatever times, callbacks and prior timestamp contents, have the
same smoothing state after every number of calls (ring buffer, ring cursor,
phase sums, phase index and mask, raw and smoothed windows) and produce the
same smoothed sample in every call. -/
theorem smoothing_is_pure (cb1 cb2 : Bool) (s : Nat → Bool) (t1 t2 : Nat → Nat)
    (u1 u2 : Nat → DCF77Timestamp) (n : Nat) :
    SameSmoothing (stateAfter cb1 s t1 u1 n) (stateAfter cb2 s t2 u2 n)
      ∧ smoothedAt cb1 s t1 u1 n = smoothedAt cb2 s t2 u2 n := by
  have hstate : ∀ n, SameSmoothing (stateAfter cb1 s t1 u1 n) (stateAfter cb2 s t2 u2 n) := by
    intro n
    induction n with
    | zero => exact ⟨rfl, rfl, rfl, rfl, rfl, rfl, rfl⟩
    | succ n ih =>
      rw [stateAfter_succ, stateAfter_succ]
      exact sameSmoothing_symm_trans _ _ _ _ (sameSmoothing_detect _ _ _)
        (smooth_congr _ _ ih (s n)) (sameSmoothing_detect _ _ _)
  exact ⟨hstate n, sampleSmooth_congr _ _ (hstate n) (s n)⟩

/-! ## Edges in terms of the smoothed samples of a run -/

theorem smooth_window_bit (cb : Bool) (s : Nat → Bool) (t : Nat → Nat)
    (u : Nat → DCF77Timestamp) (n j : Nat) (hj : j < 16) :
    ((stateAfter cb s t u n).smooth (s n)).windowSmooth.testBit j
      = (decide (j ≤ n) && smoothedAt cb s t u (n - j)) := by
  rw [(smooth_windowSmooth_after cb s t u n).1]
  exact windowSmooth_bits cb s t u n j hj

/-- C31: an edge is recognised in call `n` exactly when the smoothed samples of
calls `n - 9`, `n - 8` and `n - 7` were 1 and those of calls `n - 6`, `n - 5`
and `n - 4` were 0, a smoothed sample before the first call counting as 0;
this is the test `(windowSmooth & 0b1111110000) == 0b1110000000`. -/
theorem edge_iff_smoothed_history (cb : Bool) (s : Nat → Bool) (t : Nat → Nat)
    (u : Nat → DCF77Timestamp) (n : Nat) :
    (((stateAfter cb s t u n).smooth (s n)).edgeRecognised = true
        ↔ (9 ≤ n ∧ smoothedAt cb s t u (n - 9) = true)
          ∧ (8 ≤ n ∧ smoothedAt cb s t u (n - 8) = true)
          ∧ (7 ≤ n ∧ smoothedAt cb s t u (n - 7) = true)
          ∧ ¬ (6 ≤ n ∧ smoothedAt cb s t u (n - 6) = true)
          ∧ ¬ (5 ≤ n ∧ smoothedAt cb s t u (n - 5) = true)
          ∧ ¬ (4 ≤ n ∧ smoothedAt cb s t u (n - 4) = true))
      ∧ ((stateAfter cb s t u n).smooth (s n)).edgeRecognised
          = ((((stateAfter cb s t u n).smooth (s n)).windowSmooth &&& 0b1111110000)
              == 0b1110000000) := by
  refine ⟨?_, rfl⟩
  rw [edgeRecognised_bits, smooth_window_bit cb s t u n 9 (by norm_num),
    smooth_window_bit cb s t u n 8 (by norm_num), smooth_window_bit cb s t u n 7 (by norm_num),
    smooth_window_bit cb s t u n 6 (by norm_num), smooth_window_bit cb s t u n 5 (by norm_num),
    smooth_window_bit cb s t u n 4 (by norm_num)]
  simp only [Bool.and_eq_true, Bool.not_eq_true', decide_eq_true_eq, Bool.and_eq_false_imp,
    not_and, Bool.not_eq_true]
  tauto

/-! ## Cold start -/

/-- C39: from the zero-initialised receiver, whatever the samples and times,
the smoothed sample is 0 in each of the first 224 calls, no edge is recognised
and no callback invoked in any of the first 233 calls, and up to then the time
of the last edge, the cursor and the changeover flag keep their initial
values. -/
theorem cold_start (cb : Bool) (s : Nat → Bool) (t : Nat → Nat)
    (u : Nat → DCF77Timestamp) (n : Nat) :
    (n < 224 → smoothedAt cb s t u n = false)
      ∧ (n < 233 →
          ((stateAfter cb s t u n).smooth (s n)).edgeRecognised = false
            ∧ delivered cb s t u n = none)
      ∧ (n ≤ 233 →
          (stateAfter cb s t u n).timeEdge = 0
            ∧ (stateAfter cb s t u n).bitptrTimebits = Bitptr.ofPosition 0
            ∧ (stateAfter cb s t u n).changeover = false) := by
  have hsm : ∀ m, m < 224 → smoothedAt cb s t u m = false := by
    intro m hm
    cases h : smoothedAt cb s t u m
    · rfl
    · have := smoothed_true_second cb s t u m h
      omega
  have hedge : ∀ m, m < 233 →
      ((stateAfter cb s t u m).smooth (s m)).edgeRecognised = false := by
    intro m hm
    rw [edgeRecognised_bits, smooth_window_bit cb s t u m 9 (by norm_num)]
    by_cases h9 : 9 ≤ m
    · rw [hsm (m - 9) (by omega)]
      simp
    · simp [h9]
  have hdet : ∀ m, m ≤ 233 →
      SameDetector (stateAfter cb s t u m) (DCF77Receiver.initial cb) := by
    intro m
    induction m with
    | zero => intro _; exact sameDetector_refl _
    | succ m ih =>
      intro hm
      exact sameDetector_trans _ _ _
        (ignored_call cb s t u m (Or.inl (hedge m (by omega)))).1 (ih (by omega))
  refine ⟨hsm n, ?_, ?_⟩
  · intro hn
    exact ⟨hedge n hn, (ignored_call cb s t u n (Or.inl (hedge n hn))).2⟩
  · intro hn
    have h := hdet n hn
    exact ⟨h.timeEdge, h.bitptrTimebits, h.changeover⟩

theorem cold_start_witness :
    smoothedAt true (fun _ => true) sampleClock (fun _ => blankTimestamp) 223 = false
      ∧ delivered true (fun _ => true) sampleClock (fun _ => blankTimestamp) 232 = none :=
  ⟨(cold_start true (fun _ => true) sampleClock (fun _ => blankTimestamp) 223).1 (by decide),
    ((cold_start true (fun _ => true) sampleClock (fun _ => blankTimestamp) 232).2.1
      (by decide)).2⟩

/-! ## The changeover flag records the last accepted edge -/

/-- C32: after any number of calls the changeover flag is set exactly when an
edge has been accepted and the most recently accepted one was classified as a
no-pulse. -/
theorem changeover_iff_last_noPulse (cb : Bool) (s : Nat → Bool) (t : Nat → Nat)
    (u : Nat → DCF77Timestamp) (n : Nat) :
    (stateAfter cb s t u n).changeover = true ↔ lastAccepted cb s t u n = some true := by
  induction n with
  | zero =>
    have h : (stateAfter cb s t u 0).changeover = false := rfl
    rw [h, lastAccepted]
    simp
  | succ n ih =>
    have hdel := timeEdgeDelta_smooth (stateAfter cb s t u n) (s n) (t n)
    rw [lastAccepted]
    by_cases hacc : ((stateAfter cb s t u n).smooth (s n)).edgeRecognised = true
        ∧ 500 ≤ (stateAfter cb s t u n).timeEdgeDelta (t n)
    · obtain ⟨h1, h2⟩ := hacc
      have h2' : 500 ≤ ((stateAfter cb s t u n).smooth (s n)).timeEdgeDelta (t n) := by
        rw [hdel]; exact h2
      have ha : acceptedEdge cb s t u n
          = some (decide (((stateAfter cb s t u n).smooth (s n)).sumSamplesPulse
              > nSampleThresholdMinute)) := by
        unfold acceptedEdge
        rw [if_pos ⟨h1, h2⟩]
      rw [ha]
      dsimp only
      by_cases hp : ((stateAfter cb s t u n).smooth (s n)).sumSamplesPulse
          > nSampleThresholdMinute
      · rw [stateAfter_succ, detect_noPulse _ (t n) (u n) h1 h2' hp, decide_eq_true hp]
        simp
      · obtain ⟨d1, -⟩ := detect_pulse _ (t n) (u n) h1 h2' hp
        rw [stateAfter_succ, d1, decide_eq_false hp]
        split_ifs <;> simp
    · have ha : acceptedEdge cb s t u n = none := by
        unfold acceptedEdge
        rw [if_neg hacc]
      have hign := (ignored_call cb s t u n (by
        by_cases h1 : ((stateAfter cb s t u n).smooth (s n)).edgeRecognised = true
        · right
          by_contra h2
          exact hacc ⟨h1, by omega⟩
        · left
          simpa using h1)).1
      rw [ha, hign.changeover]
      exact ih

/-! ## The nibble cursor and the ring cursor stay aligned and in bounds -/

theorem addressedPhase_eq (s : DCF77Receiver) (pos : Nat) (h : SmoothInv s pos) :
    s.addressedPhase = pos % 32 := by
  unfold DCF77Receiver.addressedPhase
  rw [h.index, h.bitmask]
  by_cases hev : pos % 2 = 0
  · rw [if_pos hev, if_neg (by decide)]
    omega
  · rw [if_neg hev, if_pos rfl]
    omega

theorem get_ring (s : DCF77Receiver) (pos : Nat) (h : SmoothInv s pos) :
    s.bitptrSamples.get s.samples = bitAt s.samples pos := by
  rw [h.cursor, ofPosition_eq pos (by have := h.pos_lt; omega), get_eq_bitAt]

/-- C38: in every reachable state the ring cursor is at a position below 480
(byte index below 60, inside `samples`), `indexSumSamples` is below 16 (inside
`sumsSamples`), `bitmaskSumSamples` is `0x0F` or `0xF0`, and the addressed phase
is the ring position modulo 32. -/
theorem ring_cursor_in_bounds (s : DCF77Receiver) (h : Reachable s) :
    ∃ pos, pos < 480
      ∧ s.bitptrSamples = Bitptr.ofPosition pos
      ∧ s.bitptrSamples.index < 60 ∧ s.samples.length = 60
      ∧ s.indexSumSamples < 16 ∧ s.sumsSamples.length = 16
      ∧ (s.bitmaskSumSamples = 0x0F ∨ s.bitmaskSumSamples = 0xF0)
      ∧ s.addressedPhase = pos % 32 := by
  obtain ⟨pos, hinv⟩ := reachable_inv s h
  have hpos := hinv.pos_lt
  refine ⟨pos, hpos, hinv.cursor, ?_, hinv.samples_length, ?_, hinv.sums_length, ?_,
    addressedPhase_eq s pos hinv⟩
  · rw [hinv.cursor, ofPosition_eq pos (by omega)]
    dsimp only
    omega
  · rw [hinv.index]
    omega
  · rw [hinv.bitmask]
    by_cases hev : pos % 2 = 0
    · left; rw [if_pos hev]
    · right; rw [if_neg hev]

theorem ring_cursor_in_bounds_witness :
    ((DCF77Receiver.initial true).processSample true 0 blankTimestamp).1.samples.length = 60 := by
  obtain ⟨_, _, _, _, h, _⟩ := ring_cursor_in_bounds _
    (Reachable.step (Reachable.initial true) true 0 blankTimestamp)
  exact h

/-! ## The packed sums never carry into the neighbouring nibble -/

/-- C33: in every reachable state the sum of the addressed phase is at least 1
when it is decremented (a set ring bit displaced by a 0) and at most 14 when it
is incremented (a clear ring bit displaced by a 1); the update changes that sum
by exactly one and leaves every other phase sum alone, and all sums are within
0..15 in bytes below 256. -/
theorem phase_sums_never_overflow (s : DCF77Receiver) (h : Reachable s) (sample : Bool) :
    (s.bitptrSamples.get s.samples = true → sample = false →
        1 ≤ nibbleAt s.sumsSamples s.addressedPhase
          ∧ nibbleAt (s.updateSums sample).sumsSamples s.addressedPhase + 1
            = nibbleAt s.sumsSamples s.addressedPhase)
      ∧ (s.bitptrSamples.get s.samples = false → sample = true →
        nibbleAt s.sumsSamples s.addressedPhase ≤ 14
          ∧ nibbleAt (s.updateSums sample).sumsSamples s.addressedPhase
            = nibbleAt s.sumsSamples s.addressedPhase + 1)
      ∧ (∀ q, q < 32 → q ≠ s.addressedPhase →
          nibbleAt (s.updateSums sample).sumsSamples q = nibbleAt s.sumsSamples q)
      ∧ (∀ q, q < 32 → nibbleAt (s.updateSums sample).sumsSamples q ≤ 15)
      ∧ (∀ i, rd (s.updateSums sample).sumsSamples i < 256) := by
  obtain ⟨pos, hinv⟩ := reachable_inv s h
  obtain ⟨hnew, hat, hother⟩ := updateSums_inv s pos sample hinv
  have hpos := hinv.pos_lt
  have hp32 : pos % 32 < 32 := Nat.mod_lt _ (by norm_num)
  rw [addressedPhase_eq s pos hinv, get_ring s pos hinv]
  have hcount : ∀ p, ringCount (s.updateSums sample).samples p
        + (if pos % 32 = p ∧ bitAt s.samples pos = true then 1 else 0)
      = ringCount s.samples p + (if pos % 32 = p ∧ sample = true then 1 else 0) := by
    intro p
    have key := count_update
      (fun q => q % 32 = p ∧ bitAt (s.updateSums sample).samples q = true)
      (fun q => q % 32 = p ∧ bitAt s.samples q = true) pos
      (by
        intro q hq
        dsimp only
        rw [hother q hq]) 480 hpos
    beta_reduce at key
    rw [hat] at key
    exact key
  have hown := hcount (pos % 32)
  have hle := ringCount_le (s.updateSums sample).samples (pos % 32) hp32
  rw [hinv.sums (pos % 32) hp32, hnew.sums (pos % 32) hp32]
  refine ⟨?_, ?_, ?_, ?_, hnew.sums_byte⟩
  · intro hprev hs
    subst hs
    rw [hprev] at hown
    simp only [and_self, if_true, Bool.false_eq_true, and_false, if_false, Nat.add_zero] at hown
    omega
  · intro hprev hs
    subst hs
    rw [hprev] at hown
    simp only [and_self, if_true, Bool.false_eq_true, and_false, if_false, Nat.add_zero] at hown
    omega
  · intro q hq hne
    have hq' := hcount q
    have hne' : ¬ pos % 32 = q := fun e => hne e.symm
    simp only [hne', false_and, if_false, Nat.add_zero] at hq'
    rw [hnew.sums q hq, hinv.sums q hq, hq']
  · intro q hq
    rw [hnew.sums q hq]
    exact ringCount_le _ q hq

theorem phase_sums_never_overflow_witness :
    nibbleAt (((DCF77Receiver.initial true).processSample true 0
        blankTimestamp).1.updateSums true).sumsSamples 1
      = nibbleAt ((DCF77Receiver.initial true).processSample true 0
        blankTimestamp).1.sumsSamples 1 + 1 :=
  ((phase_sums_never_overflow _ (Reachable.step (Reachable.initial true) true 0 blankTimestamp)
    true).2.1 (by decide) rfl).2

/-! ## The date parity by folding -/

/-- C34: the parity loop over the exclusive or of the four date views (bits
36-39, 40-47, 48-55 and 56-58 of the frame) reports incorrect parity exactly
when the number of set bits among bits 36..58 is odd. -/
theorem date_parity_fold_exact (f : List Nat) :
    (incorrectParity
        ((DCF77Timestruct.ofBytes f).bitsParityDate1 ^^^ (DCF77Timestruct.ofBytes f).bitsParityDate2
          ^^^ (DCF77Timestruct.ofBytes f).bitsParityDate3
          ^^^ (DCF77Timestruct.ofBytes f).bitsParityDate4) = true
      ↔ countBits f 36 58 % 2 = 1)
    ∧ (DCF77Timestruct.ofBytes f).bitsParityDate1 = bitfield f 36 4
    ∧ (DCF77Timestruct.ofBytes f).bitsParityDate2 = bitfield f 40 8
    ∧ (DCF77Timestruct.ofBytes f).bitsParityDate3 = bitfield f 48 8
    ∧ (DCF77Timestruct.ofBytes f).bitsParityDate4 = bitfield f 56 3 := by
  refine ⟨?_, rfl, rfl, rfl, rfl⟩
  show incorrectParity (bitfield f 36 4 ^^^ bitfield f 40 8 ^^^ bitfield f 48 8
    ^^^ bitfield f 56 3) = true ↔ _
  rw [incorrectParity_date, decide_eq_true_eq]

/-! ## The bit-counting loops terminate -/

theorem countLoop_zero (fuel n : Nat) : countLoop fuel 0 n = n := by
  cases fuel <;> simp [countLoop]

theorem parityLoop_zero (fuel : Nat) (p : Bool) : parityLoop fuel 0 p = p := by
  cases fuel <;> simp [parityLoop]

/-- Once the value has reached 0 further iterations are not taken: the counter
does not depend on the bound. -/
theorem countLoop_fuel : ∀ k x n fuel, Nat.iterate clearLowest k x = 0 → k ≤ fuel →
    countLoop fuel x n = countLoop k x n := by
  intro k
  induction k with
  | zero =>
    intro x n fuel h _
    rw [Function.iterate_zero, id] at h
    rw [h, countLoop_zero, countLoop_zero]
  | succ k ih =>
    intro x n fuel h hf
    obtain ⟨g, rfl⟩ : ∃ g, fuel = g + 1 := ⟨fuel - 1, by omega⟩
    rw [Function.iterate_succ_apply] at h
    rw [countLoop, countLoop]
    by_cases hx : x ≠ 0
    · rw [if_pos hx, if_pos hx]
      exact ih _ _ _ h (by omega)
    · rw [if_neg hx, if_neg hx]

theorem parityLoop_fuel : ∀ k x p fuel, Nat.iterate clearLowest k x = 0 → k ≤ fuel →
    parityLoop fuel x p = parityLoop k x p := by
  intro k
  induction k with
  | zero =>
    intro x p fuel h _
    rw [Function.iterate_zero, id] at h
    rw [h, parityLoop_zero, parityLoop_zero]
  | succ k ih =>
    intro x p fuel h hf
    obtain ⟨g, rfl⟩ : ∃ g, fuel = g + 1 := ⟨fuel - 1, by omega⟩
    rw [Function.iterate_succ_apply] at h
    rw [parityLoop, parityLoop]
    by_cases hx : x ≠ 0
    · rw [if_pos hx, if_pos hx]
      exact ih _ _ _ h (by omega)
    · rw [if_neg hx, if_neg hx]

set_option maxRecDepth 100000 in
theorem byte_loop_steps : ∀ x, x < 256 →
    Nat.iterate clearLowest (popCount x 8) x = 0
      ∧ (∀ k, k < popCount x 8 → Nat.iterate clearLowest k x ≠ 0)
      ∧ popCount x 8 ≤ 8
      ∧ popCount (x &&& 0b01111111) 8 ≤ 7
      ∧ popCount (x &&& 0b00001111) 8 ≤ 4
      ∧ countLoop (popCount x 8) x 0 = popCount x 8
      ∧ parityLoop (popCount x 8) x false = decide (popCount x 8 % 2 = 1)
      ∧ popCount x 8 ≤ x := by
  decide

/-- C35: on an 8-bit value the loop `x &= (x - 1)` reaches 0 after exactly
`popcount x` iterations, at most 8 (7 under the pulse mask, 4 under the trail
mask); with any bound of at least that many iterations the counter is
`popcount x` and the toggled flag is `popcount x mod 2`. -/
theorem bit_loops_terminate (x : Nat) (hx : x < 256) :
    Nat.iterate clearLowest (popCount x 8) x = 0
      ∧ (∀ k, k < popCount x 8 → Nat.iterate clearLowest k x ≠ 0)
      ∧ popCount x 8 ≤ 8
      ∧ popCount (x &&& 0b01111111) 8 ≤ 7
      ∧ popCount (x &&& 0b00001111) 8 ≤ 4
      ∧ (∀ fuel, popCount x 8 ≤ fuel → countLoop fuel x 0 = popCount x 8)
      ∧ (∀ fuel, popCount x 8 ≤ fuel →
          parityLoop fuel x false = decide (popCount x 8 % 2 = 1))
      ∧ bitCount x = popCount x 8
      ∧ incorrectParity x = decide (popCount x 8 % 2 = 1) := by
  obtain ⟨h1, h2, h3, h4, h5, h6, h7, h8⟩ := byte_loop_steps x hx
  refine ⟨h1, h2, h3, h4, h5, ?_, ?_, ?_, ?_⟩
  · intro fuel hf
    rw [countLoop_fuel _ x 0 fuel h1 hf, h6]
  · intro fuel hf
    rw [parityLoop_fuel _ x false fuel h1 hf, h7]
  · unfold bitCount
    rw [countLoop_fuel _ x 0 x h1 h8, h6]
  · unfold incorrectParity
    rw [parityLoop_fuel _ x false x h1 h8, h7]

theorem bit_loops_terminate_witness :
    Nat.iterate clearLowest 5 0b10110101 = 0 ∧ Nat.iterate clearLowest 4 0b10110101 ≠ 0
      ∧ bitCount 0b10110101 = 5 :=
  ⟨(bit_loops_terminate 0b10110101 (by decide)).1,
    (bit_loops_terminate 0b10110101 (by decide)).2.1 4 (by decide),
    (bit_loops_terminate 0b10110101 (by decide)).2.2.2.2.2.2.2.1.trans (by decide)⟩

/-! ## Single-bit errors in the validated bits -/

/-- C36: in an 8-byte frame that decodes to `VALID`, inverting any single bit
among bits 0, 17, 18 and 20..58 gives a frame that does not decode to
`VALID`. -/
theorem single_bit_error_detected (self : DCF77Timestamp) (f : List Nat) (hlen : f.length = 8)
    (hv : (self.decode f).status = Status.VALID) (i : Nat)
    (hi : i = 0 ∨ i = 17 ∨ i = 18 ∨ (20 ≤ i ∧ i ≤ 58)) :
    (self.decode (flipBit f i)).status ≠ Status.VALID := by
  intro hg
  obtain ⟨c0, cz, c20, -, -, cpm, -, -, -, cph, -, -, -, -, -, -, -, -, -, cpd⟩ :=
    (decode_valid_checks self f).1 hv
  obtain ⟨g0, gz, g20, -, -, gpm, -, -, -, gph, -, -, -, -, -, -, -, -, -, gpd⟩ :=
    (decode_valid_checks self (flipBit f i)).1 hg
  have hin : i / 8 < f.length := by rw [hlen]; omega
  have hbit := bitAt_flipBit f i
  have hgroup : ∀ lo hi, lo ≤ i → i ≤ hi → countBits f lo hi % 2 = 0 →
      countBits (flipBit f i) lo hi % 2 = 0 → False := by
    intro lo hi h1 h2 hf hgp
    have h := countBits_flipBit f i lo hi hin
    rw [decide_eq_false (by omega : ¬ countBits f lo hi % 2 = 1),
      decide_eq_true (⟨h1, h2⟩ : lo ≤ i ∧ i ≤ hi),
      decide_eq_false (by omega : ¬ countBits (flipBit f i) lo hi % 2 = 1)] at h
    cases h
  by_cases h0 : i = 0
  · rw [hbit 0 hin, if_pos h0.symm, h0, c0] at g0
    cases g0
  · by_cases h17 : i = 17
    · rw [hbit 17 hin, if_pos h17.symm, hbit 18 hin, if_neg (by omega), h17] at gz
      revert cz gz
      cases bitAt f 17 <;> cases bitAt f 18 <;> simp
    · by_cases h18 : i = 18
      · rw [hbit 17 hin, if_neg (by omega), hbit 18 hin, if_pos h18.symm, h18] at gz
        revert cz gz
        cases bitAt f 17 <;> cases bitAt f 18 <;> simp
      · by_cases h20 : i = 20
        · rw [hbit 20 hin, if_pos h20.symm, h20, c20] at g20
          cases g20
        · by_cases hm : i ≤ 28
          · exact hgroup 21 28 (by omega) hm cpm gpm
          · by_cases hh : i ≤ 35
            · exact hgroup 29 35 (by omega) hh cph gph
            · exact hgroup 36 58 (by omega) (by omega) cpd gpd

theorem single_bit_error_detected_witness :
    (blankTimestamp.decode sampleFrame).status = Status.VALID
      ∧ (blankTimestamp.decode (flipBit sampleFrame 42)).status ≠ Status.VALID :=
  ⟨by decide,
    single_bit_error_detected blankTimestamp sampleFrame (by decide) (by decide) 42
      (Or.inr (Or.inr (Or.inr ⟨by decide, by decide⟩)))⟩

/-! ## What a failed decode leaves in the object -/

theorem ite_cases {α : Type} {c : Prop} [Decidable c] {A B r : α} {P : Prop}
    (hr : (if c then A else B) = r) (hA : A = r → P) (hB : B = r → P) : P := by
  by_cases h : c
  · rw [if_pos h] at hr
    exact hA hr
  · rw [if_neg h] at hr
    exact hB hr

open Status in
/-- C37: when `decode` fails, every field whose assignment follows the failing
check keeps the value it had before the call: `dst` up to `ERROR_DST`, `minute`
up to the minute digit checks, `hour` up to the hour digit checks, `day` up to
`ERROR_DAY_01_RANGE`, `weekday` up to `ERROR_DAY_RANGE`, `month` up to
`ERROR_MONTH_01_RANGE`, `year` up to `ERROR_YEAR_10_RANGE`; so the fields of a
failed result depend on the prior object, not on the frame alone. -/
theorem failed_decode_keeps_later_fields (self : DCF77Timestamp) (f : List Nat) :
    ((self.decode f).status ∈ [ERROR_START_MINUTE, ERROR_DST] →
        (self.decode f).time.dst = self.time.dst)
      ∧ ((self.decode f).status ∈ [ERROR_START_MINUTE, ERROR_DST, ERROR_START_TIME,
          ERROR_MINUTE_01_RANGE, ERROR_MINUTE_10_RANGE] →
        (self.decode f).time.minute = self.time.minute)
      ∧ ((self.decode f).status ∈ [ERROR_START_MINUTE, ERROR_DST, ERROR_START_TIME,
          ERROR_MINUTE_01_RANGE, ERROR_MINUTE_10_RANGE, ERROR_MINUTE_PARITY,
          ERROR_HOUR_01_RANGE, ERROR_HOUR_10_RANGE] →
        (self.decode f).time.hour = self.time.hour)
      ∧ ((self.decode f).status ∈ [ERROR_START_MINUTE, ERROR_DST, ERROR_START_TIME,
          ERROR_MINUTE_01_RANGE, ERROR_MINUTE_10_RANGE, ERROR_MINUTE_PARITY,
          ERROR_HOUR_01_RANGE, ERROR_HOUR_10_RANGE, ERROR_HOUR_RANGE, ERROR_HOUR_PARITY,
          ERROR_DAY_01_RANGE] →
        (self.decode f).date.day = self.date.day)
      ∧ ((self.decode f).status ∈ [ERROR_START_MINUTE, ERROR_DST, ERROR_START_TIME,
          ERROR_MINUTE_01_RANGE, ERROR_MINUTE_10_RANGE, ERROR_MINUTE_PARITY,
          ERROR_HOUR_01_RANGE, ERROR_HOUR_10_RANGE, ERROR_HOUR_RANGE, ERROR_HOUR_PARITY,
          ERROR_DAY_01_RANGE, ERROR_DAY_RANGE] →
        (self.decode f).date.weekday = self.date.weekday)
      ∧ ((self.decode f).status ∈ [ERROR_START_MINUTE, ERROR_DST, ERROR_START_TIME,
          ERROR_MINUTE_01_RANGE, ERROR_MINUTE_10_RANGE, ERROR_MINUTE_PARITY,
          ERROR_HOUR_01_RANGE, ERROR_HOUR_10_RANGE, ERROR_HOUR_RANGE, ERROR_HOUR_PARITY,
          ERROR_DAY_01_RANGE, ERROR_DAY_RANGE, ERROR_WEEKDAY_RANGE, ERROR_MONTH_01_RANGE] →
        (self.decode f).date.month = self.date.month)
      ∧ ((self.decode f).status ∈ [ERROR_START_MINUTE, ERROR_DST, ERROR_START_TIME,
          ERROR_MINUTE_01_RANGE, ERROR_MINUTE_10_RANGE, ERROR_MINUTE_PARITY,
          ERROR_HOUR_01_RANGE, ERROR_HOUR_10_RANGE, ERROR_HOUR_RANGE, ERROR_HOUR_PARITY,
          ERROR_DAY_01_RANGE, ERROR_DAY_RANGE, ERROR_WEEKDAY_RANGE, ERROR_MONTH_01_RANGE,
          ERROR_MONTH_RANGE, ERROR_YEAR_01_RANGE, ERROR_YEAR_10_RANGE] →
        (self.decode f).date.year = self.date.year)
      ∧ (staleTimestamp.decode [0, 0, 242, 102, 28, 27, 154, 4]).time.hour
          ≠ (blankTimestamp.decode [0, 0, 242, 102, 28, 27, 154, 4]).time.hour := by
  refine ⟨?_, ?_, ?_, ?_, ?_, ?_, ?_, by decide⟩
  all_goals
    generalize hr : self.decode f = r
    simp only [DCF77Timestamp.decode, DCF77Timestruct.ofBytes, bitfield_one f 0,
      bitfield_one f 20, bitfield_two f 17, Nat.reduceAdd] at hr
    generalize bitfield f 21 4 = m01 at hr
    generalize bitfield f 25 3 = m10 at hr
    generalize bitfield f 29 4 = h01 at hr
    generalize bitfield f 33 2 = h10 at hr
    generalize incorrectParity (bitfield f 21 8) = p1 at hr
    generalize incorrectParity (bitfield f 29 7) = p2 at hr
    generalize incorrectParity (bitfield f 36 4 ^^^ bitfield f 40 8 ^^^ bitfield f 48 8
      ^^^ bitfield f 56 3) = p3 at hr
    generalize bitfield f 36 4 = d01 at hr
    generalize bitfield f 40 2 = d10 at hr
    generalize bitfield f 42 3 = wd at hr
    generalize bitfield f 45 4 = mo01 at hr
    generalize bitfield f 49 1 = mo10 at hr
    generalize bitfield f 50 4 = y01 at hr
    generalize bitfield f 54 4 = y10 at hr
    generalize bitAt f 0 = a0 at hr
    generalize bitAt f 17 = a17 at hr
    generalize bitAt f 18 = a18 at hr
    generalize bitAt f 20 = a20 at hr
    repeat
      (refine ite_cases hr
        (fun hr => by
          subst hr
          intro h
          first
            | rfl
            | (dsimp only at h
               exact absurd h (by decide)))
        (fun hr => ?_))
    subst hr
    intro h
    dsimp only at h
    exact absurd h (by decide)

theorem failed_decode_keeps_later_fields_witness :
    (staleTimestamp.decode [0, 0, 242, 102, 28, 27, 154, 4]).status = Status.ERROR_MINUTE_PARITY
      ∧ (staleTimestamp.decode [0, 0, 242, 102, 28, 27, 154, 4]).time.hour = 12
      ∧ (staleTimestamp.decode [0, 0, 242, 102, 28, 27, 154, 4]).date.year = 66 :=
  ⟨by decide,
    (failed_decode_keeps_later_fields staleTimestamp [0, 0, 242, 102, 28, 27, 154, 4]).2.2.1
      (by decide),
    (failed_decode_keeps_later_fields staleTimestamp
      [0, 0, 242, 102, 28, 27, 154, 4]).2.2.2.2.2.2.1 (by decide)⟩

end DCF77
